import Mathlib

/-!
# Semantic address registry (`src/semantic-system.js`)

A shallow embedding of the class `SemanticAddressSystem`: the address grammar
(`normalize`, `parse`), slug creation (`createSlug`, `generate`), the registry
operations on the forward and reverse index (`register`, `resolveCollision`,
`resolve`, `getSemanticUri`, `clear`), and the search for related records
(`extractSemanticLinks`, `calculateTypeCompatibility`, `findRelated` with its
two sorts); and of the method `findIntermediateNodes` of
`SemanticPathfindingEngine` (`src/semantic-pathfinding-engine.js`).

Modelling conventions.

* A JavaScript string is a list of characters (`Str`).  The regular
  expressions of the source carry no `u` flag and work on UTF-16 code units;
  a character outside the basic plane is a pair of surrogates, each of which
  is matched by `.` and by `[^\/]` and by none of the ASCII classes, so the
  character-level matchers below accept the same strings and return the same
  groups.
* A JavaScript `Map` is an insertion-ordered association list with unique
  keys: `mapGet`, `mapHas`, `mapSet`.
* A method that may `throw` returns `Except RegError _` together with the
  registry state it leaves behind.
* The recursion `register → resolveCollision → register` is modelled with a
  fuel argument; `register_eq_registerSpec` shows that three units always
  suffice, on every state and input.
* `console.warn` / `console.log` calls have no effect on the state and are
  left out.
* A JavaScript number is modelled by the rational it denotes; where a number
  can be `NaN` it is an `Option ℚ` with `none` for `NaN`.
* `Array.prototype.sort` with a comparator is a stable sort (`jsSort`).
-/

namespace Sem

/-- JavaScript strings as lists of characters. -/
abbrev Str := List Char

/-! ## Character classes of the regular expressions -/

/-- The class `[a-z]`. -/
def isLowerAZ (c : Char) : Bool := 97 ≤ c.toNat && c.toNat ≤ 122

/-- The class `[0-9]`. -/
def isDigit09 (c : Char) : Bool := 48 ≤ c.toNat && c.toNat ≤ 57

/-- The class `[a-z0-9-]`. -/
def isSlugChar (c : Char) : Bool := isLowerAZ c || isDigit09 c || c == '-'

/-- The class `\s` of ECMAScript: white space and line terminators. -/
def isWhiteSpace (c : Char) : Bool :=
  let n := c.toNat
  n == 9 || n == 10 || n == 11 || n == 12 || n == 13 || n == 32 || n == 0xA0 ||
  n == 0x1680 || (0x2000 ≤ n && n ≤ 0x200A) || n == 0x2028 || n == 0x2029 ||
  n == 0x202F || n == 0x205F || n == 0x3000 || n == 0xFEFF

/-- Line terminators, the characters `.` does not match. -/
def isLineTerminator (c : Char) : Bool :=
  let n := c.toNat
  n == 10 || n == 13 || n == 0x2028 || n == 0x2029

/-! ## String helpers -/

/-- Remove the literal `lit` from the front of `s`, if it is there. -/
def dropLit : Str → Str → Option Str
  | [], s => some s
  | _ :: _, [] => none
  | p :: ps, c :: cs => if p = c then dropLit ps cs else none

/-- Match `[^\/]+\/` at the front of `s`: the non-empty segment before the
first slash, and what follows that slash. -/
def untilSlash (s : Str) : Option (Str × Str) :=
  match s.dropWhile (fun c => c != '/') with
  | [] => none
  | _ :: rest =>
    if (s.takeWhile (fun c => c != '/')).isEmpty then none
    else some (s.takeWhile (fun c => c != '/'), rest)

/-- The method `String.prototype.split` with a one-character separator. -/
def splitOn (sep : Char) : Str → List Str
  | [] => [[]]
  | c :: cs =>
    if c = sep then [] :: splitOn sep cs
    else
      match splitOn sep cs with
      | [] => [[c]]
      | h :: t => (c :: h) :: t

/-- How a template literal renders a missing array element. -/
def undefinedStr : Str := "undefined".toList

/-! ## The two address grammars -/

/-- The match of `/^sem:\/\/([^\/]+)\/([^\/]+)\/(.+)$/`: the three groups.
The first two groups cannot contain a slash, so the split is forced; the third
group is the non-empty rest, which `.` accepts when it holds no line
terminator. -/
def matchFull (s : Str) : Option (Str × Str × Str) :=
  match dropLit "sem://".toList s with
  | none => none
  | some r1 =>
    match untilSlash r1 with
    | none => none
    | some (vault, r2) =>
      match untilSlash r2 with
      | none => none
      | some (type, id) =>
        if !id.isEmpty && id.all (fun c => !isLineTerminator c) then some (vault, type, id)
        else none

/-- The match of `/^([a-z]+):([a-z0-9-]+)$/`: the two groups. -/
def matchShort (s : Str) : Option (Str × Str) :=
  match s.dropWhile isLowerAZ with
  | [] => none
  | c :: id =>
    if c == ':' && !(s.takeWhile isLowerAZ).isEmpty && !id.isEmpty && id.all isSlugChar then
      some (s.takeWhile isLowerAZ, id)
    else none

/-- The long form of vault, type and id: `sem://vault/type/id`. -/
def mkUri (vault type id : Str) : Str :=
  "sem://".toList ++ vault ++ "/".toList ++ type ++ "/".toList ++ id

/-- The method `normalize`: expand a short form, return anything else as is. -/
def normalize (semUri : Str) : Str :=
  if (matchShort semUri).isSome then
    let parts := splitOn ':' semUri
    mkUri "vault".toList (parts.getD 0 undefinedStr) (parts.getD 1 undefinedStr)
  else semUri

/-- The object returned by `parse`. -/
structure Parsed where
  vault : Str
  type : Str
  id : Str
  uri : Str
  deriving DecidableEq, Repr

/-- The method `parse`: full form first, then short form, else `null`. -/
def parse (semUri : Str) : Option Parsed :=
  match matchFull semUri with
  | some (vault, type, id) => some ⟨vault, type, id, semUri⟩
  | none =>
    match matchShort semUri with
    | some (type, id) => some ⟨"vault".toList, type, id, mkUri "vault".toList type id⟩
    | none => none

/-! ## Slugs -/

/-- The replacement of the pattern `\s+` (flag `g`) by a hyphen: every
maximal run of white space becomes one hyphen.  `inRun` tells that the
character before belongs to a run whose hyphen is already written. -/
def spacesToHyphensFrom (inRun : Bool) : Str → Str
  | [] => []
  | c :: cs =>
    if isWhiteSpace c then
      if inRun then spacesToHyphensFrom true cs else '-' :: spacesToHyphensFrom true cs
    else c :: spacesToHyphensFrom false cs

/-- The call `replace` with the pattern `\s+` (flag `g`) and a hyphen. -/
def spacesToHyphens (s : Str) : Str := spacesToHyphensFrom false s

/-- The replacement of the pattern `-+` (flag `g`) by a hyphen: every maximal
run of hyphens becomes one hyphen.  `inRun` as in `spacesToHyphensFrom`. -/
def collapseHyphensFrom (inRun : Bool) : Str → Str
  | [] => []
  | c :: cs =>
    if c = '-' then
      if inRun then collapseHyphensFrom true cs else '-' :: collapseHyphensFrom true cs
    else c :: collapseHyphensFrom false cs

/-- The call `replace` with the pattern `-+` (flag `g`) and a hyphen. -/
def collapseHyphens (s : Str) : Str := collapseHyphensFrom false s

/-- The replacement of the pattern `^-|-$` (flag `g`) by the empty string: a
hyphen at index 0 is removed, and then a hyphen at the last index when the
scan has not consumed it already. -/
def trimHyphens (s : Str) : Str :=
  let s1 := match s with
    | '-' :: rest => rest
    | _ => s
  if s1.getLast? = some '-' then s1.dropLast else s1

/-- The method `createSlug`.  `toLowerCase` is the built-in
`String.prototype.toLowerCase`, taken as a parameter. -/
def createSlug (toLowerCase : Str → Str) (title : Str) : Str :=
  (trimHyphens
    (collapseHyphens
      (spacesToHyphens
        ((toLowerCase title).filter
          (fun c => isLowerAZ c || isDigit09 c || isWhiteSpace c || c == '-'))))).take 50

/-- The built-in `toLowerCase` on ASCII letters; other characters are kept.
On strings of ASCII characters this is what the built-in does. -/
def toLowerCaseAscii (s : Str) : Str := s.map Char.toLower

/-! ## Records and the two indexes -/

/-- A metadata record as `register` receives it.  A field that is `none` is
`undefined` in the source. -/
structure Metadata where
  file : Option Str := none
  title : Option Str := none
  content : Option Str := none
  type : Option Str := none
  created : Option Str := none
  modified : Option Str := none
  semanticUri : Option Str := none
  uri : Option Str := none
  deriving DecidableEq, Repr

/-- Truthiness of an optional string: defined and non-empty. -/
def truthyStr : Option Str → Bool
  | none => false
  | some s => !s.isEmpty

/-- The method `Map.prototype.get`; `none` is `undefined`. -/
def mapGet {β : Type} : List (Str × β) → Str → Option β
  | [], _ => none
  | (k, v) :: rest, key => if k = key then some v else mapGet rest key

/-- The method `Map.prototype.has`. -/
def mapHas {β : Type} (m : List (Str × β)) (key : Str) : Bool := (mapGet m key).isSome

/-- The method `Map.prototype.set`: an existing key keeps its place and takes
the new value, a new key goes to the end. -/
def mapSet {β : Type} : List (Str × β) → Str → β → List (Str × β)
  | [], key, val => [(key, val)]
  | (k, v) :: rest, key, val =>
    if k = key then (k, val) :: rest else (k, v) :: mapSet rest key val

/-- The state of a `SemanticAddressSystem`. -/
structure Registry where
  index : List (Str × Metadata)
  reverseIndex : List (Str × Str)
  vaultName : Str
  deriving DecidableEq, Repr

/-- The state the constructor builds. -/
def Registry.empty : Registry := ⟨[], [], "vault".toList⟩

/-- What `register` and `resolveCollision` throw.  `typeError` is a
`TypeError`: of reading a property of `null`, and in the pathfinding engine of
calling a method that is not defined or iterating what cannot be iterated;
`outOfFuel` is the model running out of recursion fuel and no error of the
source. -/
inductive RegError where
  | invalidUri (semUri : Str)
  | cannotResolve (semUri : Str)
  | typeError
  | outOfFuel
  deriving DecidableEq, Repr

/-- The candidate `sem://vault/type/id-counter` of `resolveCollision`. -/
def suffixed (parsed : Parsed) (counter : Nat) : Str :=
  mkUri parsed.vault parsed.type (parsed.id ++ "-".toList ++ (toString counter).toList)

/-- The `do ... while` loop of `resolveCollision`, entered with the given
counter: the last candidate built and the counter on exit.  The first
argument bounds the iterations; the loop runs at most `100 - counter` times. -/
def collisionLoop (index : List (Str × Metadata)) (parsed : Parsed) : Nat → Nat → Str × Nat
  | 0, counter => (suffixed parsed counter, counter + 1)
  | n + 1, counter =>
    let newUri := suffixed parsed counter
    let counter1 := counter + 1
    if mapHas index newUri && decide (counter1 < 100) then collisionLoop index parsed n counter1
    else (newUri, counter1)

mutual

/-- The method `register`. -/
def register : Nat → Registry → Str → Metadata → Except RegError Str × Registry
  | 0, reg, _, _ => (.error .outOfFuel, reg)
  | fuel + 1, reg, semUri, metadata =>
    match parse semUri with
    | none => (.error (.invalidUri semUri), reg)
    | some parsed =>
      let normalizedUri := parsed.uri
      if mapHas reg.index normalizedUri then
        resolveCollision fuel reg normalizedUri metadata
      else
        let reg1 := { reg with index := mapSet reg.index normalizedUri metadata }
        let reg2 :=
          match metadata.file with
          | some file =>
            if truthyStr (some file) then
              { reg1 with reverseIndex := mapSet reg1.reverseIndex file normalizedUri }
            else reg1
          | none => reg1
        (.ok normalizedUri, reg2)

/-- The method `resolveCollision`. -/
def resolveCollision : Nat → Registry → Str → Metadata → Except RegError Str × Registry
  | 0, reg, _, _ => (.error .outOfFuel, reg)
  | fuel + 1, reg, semUri, metadata =>
    match parse semUri with
    | none => (.error .typeError, reg)
    | some parsed =>
      let out := collisionLoop reg.index parsed 98 2
      if out.2 ≥ 100 then (.error (.cannotResolve semUri), reg)
      else register fuel reg out.1 metadata

end

/-- The method `resolve`; `none` is `null`.  A stored record is an object, so
the test `if (result)` succeeds exactly when the key is bound. -/
def resolve (reg : Registry) (semUri : Str) : Option Metadata :=
  match mapGet reg.index semUri with
  | some result => some result
  | none =>
    if (matchShort semUri).isSome then
      let parts := splitOn ':' semUri
      let fullUri := mkUri "vault".toList (parts.getD 0 undefinedStr) (parts.getD 1 undefinedStr)
      match mapGet reg.index fullUri with
      | some result => some result
      | none => none
    else none

/-- The method `getSemanticUri`; `none` is `null`.  The empty string is falsy,
so `|| null` turns it into `null`. -/
def getSemanticUri (reg : Registry) (file : Str) : Option Str :=
  match mapGet reg.reverseIndex file with
  | some u => if u.isEmpty then none else some u
  | none => none

/-- The method `clear`. -/
def clear (reg : Registry) : Registry := { reg with index := [], reverseIndex := [] }

/-- A call that changes the registry. -/
inductive Call where
  | register (semUri : Str) (metadata : Metadata)
  | clear

/-- Run one call; a caller that catches the error goes on with the state the
call left. -/
def step (reg : Registry) : Call → Registry
  | .register semUri metadata => (register 3 reg semUri metadata).2
  | .clear => clear reg

/-- Run a sequence of calls on a fresh registry. -/
def run (calls : List Call) : Registry := calls.foldl step Registry.empty

/-- The registry states that `register` and `clear` calls can produce. -/
def Reachable (reg : Registry) : Prop := ∃ calls, run calls = reg

/-! ## Specification-level descriptions of `register` -/

/-- The state after binding a free address: lines 79-82 of the source.  The
record goes to the forward index, and its `file`, when truthy, to the reverse
index. -/
def storeAt (reg : Registry) (uri : Str) (metadata : Metadata) : Registry :=
  { reg with
    index := mapSet reg.index uri metadata
    reverseIndex :=
      match metadata.file with
      | some file => if truthyStr (some file) then mapSet reg.reverseIndex file uri
                     else reg.reverseIndex
      | none => reg.reverseIndex }

/-- The method `register` with the recursion through `resolveCollision`
unrolled; `register_eq_registerSpec` shows that `register` with three or more
units of fuel computes this. -/
def registerSpec (reg : Registry) (semUri : Str) (metadata : Metadata) :
    Except RegError Str × Registry :=
  match parse semUri with
  | none => (.error (.invalidUri semUri), reg)
  | some parsed =>
    if mapHas reg.index parsed.uri then
      let out := collisionLoop reg.index parsed 98 2
      if out.2 ≥ 100 then (.error (.cannotResolve parsed.uri), reg)
      else (.ok out.1, storeAt reg out.1 metadata)
    else (.ok parsed.uri, storeAt reg parsed.uri metadata)

deriving instance DecidableEq for Except

/-- The object `parse` returns for `sem://v/t/x`. -/
def sampleParsed : Parsed := ⟨"v".toList, "t".toList, "x".toList, "sem://v/t/x".toList⟩

/-- A forward index that binds `sem://v/t/x` and its suffixed forms from
`sem://v/t/x-2` up to `sem://v/t/x-(n+1)`, in this order, to the empty
record. -/
def crowdedUpTo (n : Nat) : List (Str × Metadata) :=
  ("sem://v/t/x".toList, {}) :: (List.range n).map (fun i => (suffixed sampleParsed (i + 2), {}))

/-- The forward index that binds `sem://v/t/x` and `sem://v/t/x-2` up to
`sem://v/t/x-98`: what 98 calls `register('sem://v/t/x', r)` with an empty
record `r` leave behind (`crowdedRegistry_reachable`). -/
def crowdedIndex : List (Str × Metadata) := crowdedUpTo 97

/-- The registry state with the forward index `crowdedIndex`. -/
def crowdedRegistry : Registry := ⟨crowdedIndex, [], "vault".toList⟩

/-- The source references that a sequence of calls, run from `reg`, registers:
the `file` of every record a successful `register` call stored. -/
def registeredFiles : Registry → List Call → List Str
  | _, [] => []
  | reg, .clear :: cs => registeredFiles (clear reg) cs
  | reg, .register a r :: cs =>
    match (register 3 reg a r).1, r.file with
    | .ok _, some f => f :: registeredFiles (register 3 reg a r).2 cs
    | _, _ => registeredFiles (register 3 reg a r).2 cs

/-- The number a string of decimal digits denotes. -/
def decimalValue (s : Str) : Nat := s.foldl (fun acc c => acc * 10 + (c.toNat - 48)) 0

/-! ## Generated addresses -/

/-- The method `generate`.  The parameter `type` has the default `note` in
the source; the vault name is read from the state. -/
def generate (toLowerCase : Str → Str) (reg : Registry) (title : Str) (type : Str) : Str :=
  mkUri reg.vaultName type (createSlug toLowerCase title)

/-- The classes `a-z` and `0-9` together: the characters of a title that
survive in its slug as themselves. -/
def isAlnum (c : Char) : Bool := isLowerAZ c || isDigit09 c

/-- A title of 51 characters, `aaa…a b`: 49 letters, a blank and a letter. -/
def longTitle : Str := List.replicate 49 'a' ++ " b".toList

/-! ## Related records: links and tokens

JavaScript numbers are modelled by the rationals they denote: a literal such
as `0.9` is `9/10`.  The one place of this part where a number can be `NaN` is
`calculateSkillMatch`; there and in what depends on it a number is an
`Option ℚ`, with `none` for `NaN`. -/

/-- The object `pathfindingWeight` of a candidate.  A field that is `none` is
absent from the object. -/
structure PathfindingWeight where
  semantic_similarity : ℚ
  causal_strength : ℚ
  temporal_dependency : ℚ
  type_compatibility : Option ℚ := none
  accessibility : Option ℚ := none
  source : Str
  deriving DecidableEq

/-- A candidate of `findRelated`. -/
structure Candidate where
  uri : Str
  metadata : Metadata
  reason : Str
  score : Nat
  pathfindingWeight : PathfindingWeight
  deriving DecidableEq

/-- An element of the result of `extractSemanticLinks`. -/
structure SemLink where
  uri : Str
  text : Str
  parsed : Option Parsed
  deriving DecidableEq

/-- The match of the pattern `\[\[sem:\/\/[^\]]+\]\]` at the front of `s`: the
matched text and what follows it.  The body `[^\]]+` is the longest run of
characters other than `]`; a shorter body would be followed by a character
other than `]`, so no backtracking succeeds. -/
def matchLinkAt (s : Str) : Option (Str × Str) :=
  match dropLit "[[sem://".toList s with
  | none => none
  | some r =>
    match r.dropWhile (fun c => c != ']') with
    | _ :: c2 :: rest =>
      if c2 == ']' && !(r.takeWhile (fun c => c != ']')).isEmpty then
        some ("[[sem://".toList ++ r.takeWhile (fun c => c != ']') ++ "]]".toList, rest)
      else none
    | _ => none

/-- The matches of the link pattern with flag `g`, from left to right: after a
match the search goes on behind it, otherwise one character further.  The
first argument bounds the number of steps; the length of the string is
enough. -/
def scanLinks : Nat → Str → List Str
  | 0, _ => []
  | _ + 1, [] => []
  | n + 1, c :: cs =>
    match matchLinkAt (c :: cs) with
    | some (text, rest) => text :: scanLinks n rest
    | none => scanLinks n cs

/-- The call `match.slice(2, -2)`. -/
def sliceBrackets (m : Str) : Str := (m.take (m.length - 2)).drop 2

/-- The method `extractSemanticLinks`. -/
def extractSemanticLinks (content : Str) : List SemLink :=
  (scanLinks content.length content).map
    (fun m => { uri := sliceBrackets m, text := m, parsed := parse (sliceBrackets m) })

/-- The expression `metadata.content || ''`. -/
def contentOrEmpty (metadata : Metadata) : Str :=
  match metadata.content with
  | some c => c
  | none => []

/-- The class `\w`, that is `[A-Za-z0-9_]`. -/
def isWordChar (c : Char) : Bool :=
  (65 ≤ c.toNat && c.toNat ≤ 90) || (97 ≤ c.toNat && c.toNat ≤ 122) ||
    (48 ≤ c.toNat && c.toNat ≤ 57) || c.toNat == 95

/-- The call `split` with the pattern `\W+`: the pieces between the maximal
runs of characters outside `\w`; a run at the start or at the end gives an
empty piece there.  `inRun` tells that the character before belongs to a run
already taken as a separator. -/
def splitNonWordFrom (inRun : Bool) : Str → List Str
  | [] => [[]]
  | c :: cs =>
    if isWordChar c then
      match splitNonWordFrom false cs with
      | [] => [[c]]
      | h :: t => (c :: h) :: t
    else if inRun then splitNonWordFrom true cs
    else [] :: splitNonWordFrom true cs

/-- The call `split(/\W+/)`. -/
def splitNonWord (s : Str) : List Str := splitNonWordFrom false s

/-- The constructor `new Set(array)`: the elements in order of first
occurrence, each once. -/
def toSet : List Str → List Str
  | [] => []
  | x :: xs => x :: (toSet xs).filter (fun y => y != x)

/-- The set of words of a content: `new Set(content.toLowerCase().split(/\W+/))`. -/
def wordSet (toLowerCase : Str → Str) (content : Str) : List Str :=
  toSet (splitNonWord (toLowerCase content))

/-- The array `overlap` of `findRelated`: the words of the target that the
other content has and that are longer than 3.  A word holds characters of `\w`
only, so its length in code units is its number of characters. -/
def overlapWords (targetWords contentWords : List Str) : List Str :=
  targetWords.filter (fun word => contentWords.contains word && decide (word.length > 3))

/-! ## Related records: candidates -/

/-- The candidate that the first loop of `findRelated` pushes. -/
def backlinkCandidate (uri : Str) (metadata : Metadata) : Candidate :=
  { uri := uri
    metadata := metadata
    reason := "backlink".toList
    score := 10
    pathfindingWeight :=
      { semantic_similarity := 9 / 10
        causal_strength := 8 / 10
        temporal_dependency := 3 / 10
        source := "user-explicit".toList } }

/-- The first loop of `findRelated`: one backlink candidate for every entry of
the forward index, in its order, whose key is not `semUri` and whose content
has a link with the uri `semUri`. -/
def backlinkCandidates (index : List (Str × Metadata)) (semUri : Str) : List Candidate :=
  index.filterMap (fun e =>
    if e.1 = semUri then none
    else if (extractSemanticLinks (contentOrEmpty e.2)).any (fun link => link.uri == semUri) then
      some (backlinkCandidate e.1 e.2)
    else none)

/-- The object `typeWeights` of `calculateTypeCompatibility`. -/
def typeWeights : List (Str × ℚ) :=
  [("concept-to-skill".toList, 8 / 10), ("skill-to-action".toList, 9 / 10),
   ("action-to-outcome".toList, 9 / 10), ("resource-to-action".toList, 7 / 10),
   ("goal-to-strategy".toList, 8 / 10), ("strategy-to-tactic".toList, 9 / 10)]

/-- The expression `record.semanticUri || record.uri`; `none` is `undefined`. -/
def addressOf (record : Metadata) : Option Str :=
  if truthyStr record.semanticUri then record.semanticUri else record.uri

/-- The expression `this.parse(x)?.type || 'unknown'` for an argument `x` that
may be `undefined`: `parse` then reads `undefined.match` and throws. -/
def typeOrUnknown (x : Option Str) : Except RegError Str :=
  match x with
  | none => .error .typeError
  | some semUri =>
    match parse semUri with
    | some parsed => if parsed.type.isEmpty then .ok "unknown".toList else .ok parsed.type
    | none => .ok "unknown".toList

/-- The method `calculateTypeCompatibility`.  The key always contains `-to-`,
which no property inherited from `Object.prototype` has in its name, so the
lookup can only find one of the six own properties; all six values are
truthy. -/
def calculateTypeCompatibility (source target : Metadata) : Except RegError ℚ :=
  match typeOrUnknown (addressOf source) with
  | .error e => .error e
  | .ok sourceType =>
    match typeOrUnknown (addressOf target) with
    | .error e => .error e
    | .ok targetType =>
      let relationKey := sourceType ++ "-to-".toList ++ targetType
      match mapGet typeWeights relationKey with
      | some weight => .ok weight
      | none => .ok (5 / 10)

/-- The candidate that the second loop of `findRelated` pushes, from the
number of overlapping words and the type compatibility. -/
def similarityCandidate (uri : Str) (metadata : Metadata) (overlapLength : Nat)
    (typeCompatibility : ℚ) : Candidate :=
  { uri := uri
    metadata := metadata
    reason := "content-similarity".toList
    score := overlapLength
    pathfindingWeight :=
      { semantic_similarity := min ((overlapLength : ℚ) / 10) 1
        causal_strength := 4 / 10
        temporal_dependency := 2 / 10
        type_compatibility := some typeCompatibility
        source := "content-analysis".toList } }

/-- The second loop of `findRelated`, over the entries of the forward index in
order.  It stops with the `TypeError` of the first call of
`calculateTypeCompatibility` that throws. -/
def similarityCandidates (toLowerCase : Str → Str) (semUri : Str) (target : Metadata) :
    List (Str × Metadata) → Except RegError (List Candidate)
  | [] => .ok []
  | (uri, metadata) :: rest =>
    if uri = semUri then similarityCandidates toLowerCase semUri target rest
    else
      let overlap := overlapWords (wordSet toLowerCase (contentOrEmpty target))
        (wordSet toLowerCase (contentOrEmpty metadata))
      if overlap.length > 2 then
        match calculateTypeCompatibility target metadata with
        | .error e => .error e
        | .ok typeCompatibility =>
          match similarityCandidates toLowerCase semUri target rest with
          | .error e => .error e
          | .ok more =>
            .ok (similarityCandidate uri metadata overlap.length typeCompatibility :: more)
      else similarityCandidates toLowerCase semUri target rest

/-! ## Related records: ranking -/

/-- The object `userContext` as far as `findRelated` reads it. -/
structure UserContext where
  skillLevel : Option ℚ := none
  deriving DecidableEq

/-- The argument `context` of `findRelated`. -/
structure Context where
  pathfindingMode : Bool := false
  userContext : Option UserContext := none
  deriving DecidableEq

/-- The object `skillRequirements` of `calculateSkillMatch`. -/
def skillRequirements : List (Str × ℚ) :=
  [("action".toList, 6 / 10), ("skill".toList, 8 / 10), ("concept".toList, 3 / 10),
   ("resource".toList, 2 / 10)]

/-- The names of the properties an object literal inherits from
`Object.prototype`.  Reading one of them from `skillRequirements` gives a
function or an object, not `undefined`. -/
def objectPrototypeKeys : List Str :=
  ["constructor".toList, "__defineGetter__".toList, "__defineSetter__".toList,
   "hasOwnProperty".toList, "__lookupGetter__".toList, "__lookupSetter__".toList,
   "isPrototypeOf".toList, "propertyIsEnumerable".toList, "toString".toList,
   "valueOf".toList, "__proto__".toList, "toLocaleString".toList]

/-- The method `calculateSkillMatch`; `none` is `NaN`.  For a type that names
an inherited property, `skillRequirements[type]` is truthy and not a number,
and the subtraction gives `NaN`. -/
def calculateSkillMatch (candidate : Candidate) (userSkillLevel : ℚ) : Option ℚ :=
  let type :=
    match parse candidate.uri with
    | some parsed => if parsed.type.isEmpty then "unknown".toList else parsed.type
    | none => "unknown".toList
  let required : Option ℚ :=
    match mapGet skillRequirements type with
    | some value => some value
    | none => if objectPrototypeKeys.contains type then none else some (5 / 10)
  match required with
  | some r => some (1 - |userSkillLevel - r|)
  | none => none

/-- The method `calculatePathfindingScore`; `none` is `NaN`. -/
def calculatePathfindingScore (candidate : Candidate) (context : Context) : Option ℚ :=
  let weights := candidate.pathfindingWeight
  let userContext : UserContext :=
    match context.userContext with
    | some uc => uc
    | none => {}
  let score1 : ℚ := weights.semantic_similarity * (3 / 10) + weights.causal_strength * (4 / 10)
  let score2 : Option ℚ :=
    match userContext.skillLevel with
    | some level =>
      if level ≠ 0 then
        match calculateSkillMatch candidate level with
        | some skillMatch => some (score1 + skillMatch * (2 / 10))
        | none => none
      else some score1
    | none => some score1
  match weights.accessibility with
  | some a =>
    if a ≠ 0 then
      match score2 with
      | some sc => some (sc + a * (1 / 10))
      | none => none
    else score2
  | none => score2

/-- Whether a comparator value lets the first argument stay in front: the
value is negative or zero, and `NaN` counts as zero. -/
def staysInFront (value : Option ℚ) : Bool :=
  match value with
  | some v => decide (v ≤ 0)
  | none => true

/-- The method `Array.prototype.sort` with a comparator: a stable sort.  For a
consistent comparator the result is the one the standard prescribes; otherwise
the standard leaves the order to the implementation, and this is one order it
allows (for two elements whose comparison is `NaN`, the only one: they keep
their places). -/
def jsSort {α : Type} (compare : α → α → Option ℚ) (l : List α) : List α :=
  l.insertionSort (fun a b => staysInFront (compare a b) = true)

/-- The comparator `(a, b) => b.score - a.score`. -/
def compareScore (a b : Candidate) : Option ℚ := some ((b.score : ℚ) - (a.score : ℚ))

/-- The comparator of `sortForPathfinding`: `bWeight - aWeight`. -/
def comparePathfinding (context : Context) (a b : Candidate) : Option ℚ :=
  match calculatePathfindingScore a context, calculatePathfindingScore b context with
  | some aWeight, some bWeight => some (bWeight - aWeight)
  | _, _ => none

/-- The method `sortForPathfinding`. -/
def sortForPathfinding (candidates : List Candidate) (context : Context) : List Candidate :=
  jsSort (comparePathfinding context) candidates

/-- The call `array.slice(0, limit)` for an integer `limit`: a negative
`limit` counts from the end. -/
def sliceTo {α : Type} (l : List α) (limit : Int) : List α :=
  if limit < 0 then l.take (l.length - limit.natAbs) else l.take limit.toNat

/-- The array `candidates` of `findRelated` after its two loops, for a target
that resolved. -/
def collectCandidates (toLowerCase : Str → Str) (reg : Registry) (semUri : Str)
    (target : Metadata) : Except RegError (List Candidate) :=
  match similarityCandidates toLowerCase semUri target reg.index with
  | .error e => .error e
  | .ok similar => .ok (backlinkCandidates reg.index semUri ++ similar)

/-- The method `findRelated`.  The parameters `limit` and `context` have the
defaults `5` and the empty object in the source. -/
def findRelated (toLowerCase : Str → Str) (reg : Registry) (semUri : Str) (limit : Int)
    (context : Context) : Except RegError (List Candidate) :=
  match resolve reg semUri with
  | none => .ok []
  | some target =>
    match collectCandidates toLowerCase reg semUri target with
    | .error e => .error e
    | .ok candidates =>
      if context.pathfindingMode then .ok (sliceTo (sortForPathfinding candidates context) limit)
      else .ok (sliceTo (jsSort compareScore candidates) limit)

/-! ## Intermediate nodes of the pathfinding engine -/

/-- An element of the result of `findIntermediateNodes`. -/
structure IntermediateNode where
  semantic : Str
  metadata : Metadata
  connectionToStart : PathfindingWeight
  connectionToEnd : PathfindingWeight
  bridgeQuality : ℚ
  deriving DecidableEq

/-- The node that the loops of `findIntermediateNodes` push for a pair. -/
def bridgeNode (start finish : Candidate) : IntermediateNode :=
  { semantic := start.uri
    metadata := start.metadata
    connectionToStart := start.pathfindingWeight
    connectionToEnd := finish.pathfindingWeight
    bridgeQuality :=
      (start.pathfindingWeight.semantic_similarity
        + finish.pathfindingWeight.semantic_similarity) / 2 }

/-- The two nested loops of `findIntermediateNodes`. -/
def bridgePairs (startRelated endRelated : List Candidate) : List IntermediateNode :=
  startRelated.flatMap (fun start =>
    endRelated.filterMap (fun finish =>
      if start.pathfindingWeight.semantic_similarity > 3 / 10 ∧
         finish.pathfindingWeight.semantic_similarity > 3 / 10 then
        some (bridgeNode start finish)
      else none))

/-- The comparator `(a, b) => b.bridgeQuality - a.bridgeQuality`. -/
def compareBridge (a b : IntermediateNode) : Option ℚ := some (b.bridgeQuality - a.bridgeQuality)

/-- The method `findIntermediateNodes` of `SemanticPathfindingEngine`, with
the semantic system `reg` and the field `userContext` of the engine.  The
promise it returns is rejected when a call of `findRelated` throws. -/
def findIntermediateNodes (toLowerCase : Str → Str) (reg : Registry) (userContext : UserContext)
    (startSem endSem : Str) : Except RegError (List IntermediateNode) :=
  match findRelated toLowerCase reg startSem 10
      { pathfindingMode := true, userContext := some userContext } with
  | .error e => .error e
  | .ok startRelated =>
    match findRelated toLowerCase reg endSem 10
        { pathfindingMode := true, userContext := some userContext } with
    | .error e => .error e
    | .ok endRelated => .ok (jsSort compareBridge (bridgePairs startRelated endRelated))

/-- The array that `findRelated` slices: empty when the input does not
resolve, else the candidates in the order of the mode's sort. -/
def rankedCandidates (toLowerCase : Str → Str) (reg : Registry) (semUri : Str)
    (context : Context) : Except RegError (List Candidate) :=
  match resolve reg semUri with
  | none => .ok []
  | some target =>
    match collectCandidates toLowerCase reg semUri target with
    | .error e => .error e
    | .ok candidates =>
      if context.pathfindingMode then .ok (sortForPathfinding candidates context)
      else .ok (jsSort compareScore candidates)

/-- The type-compatibility table as the specification words it: the weight of
the six listed pairs of types, and `0.5` for every other pair. -/
def typeWeightTable (s t : Str) : ℚ :=
  if s = "concept".toList ∧ t = "skill".toList then 8 / 10
  else if s = "skill".toList ∧ t = "action".toList then 9 / 10
  else if s = "action".toList ∧ t = "outcome".toList then 9 / 10
  else if s = "resource".toList ∧ t = "action".toList then 7 / 10
  else if s = "goal".toList ∧ t = "strategy".toList then 8 / 10
  else if s = "strategy".toList ∧ t = "tactic".toList then 9 / 10
  else 5 / 10

/-- The number of overlapping words of the target record and another
record: the length of the array `overlap` of `findRelated`. -/
def overlapCount (toLowerCase : Str → Str) (target metadata : Metadata) : Nat :=
  (overlapWords (wordSet toLowerCase (contentOrEmpty target))
    (wordSet toLowerCase (contentOrEmpty metadata))).length

/-- A registry with a goal record `sem://vault/goal/q` and two records whose
content links to it, `sem://vault/constructor/a` and `sem://vault/skill/b`. -/
def linkedRegistry : Registry :=
  run [.register "sem://vault/goal/q".toList { title := some "Q".toList },
       .register "sem://vault/constructor/a".toList
         { content := some "[[sem://vault/goal/q]]".toList },
       .register "sem://vault/skill/b".toList
         { content := some "see [[sem://vault/goal/q]]".toList }]

/-- A registry with a note `sem://vault/note/q` and a note whose content
holds the text `[[sem://vault/note/q]]` inside an earlier, unclosed link. -/
def nestedLinkRegistry : Registry :=
  run [.register "sem://vault/note/q".toList { title := some "Q".toList },
       .register "sem://vault/note/u".toList
         { content := some "[[sem://x [[sem://vault/note/q]]".toList }]

/-- A note record of the shape `assignSemanticAddresses` registers:
`file`, `title`, `content`, `type`, `created`, `modified`. -/
def pieNote : Metadata :=
  { file := some "pie.md".toList, title := some "Apple pie".toList,
    content := some "Apple pie needs flour, butter and apples.".toList,
    type := some "Note".toList, created := some "2024-01-01".toList,
    modified := some "2024-01-02".toList }

/-- A second note record of that shape; it shares the words `flour`, `butter`
and `apples` with `pieNote`. -/
def crustNote : Metadata :=
  { file := some "crust.md".toList, title := some "Pie crust".toList,
    content := some "A crust is flour and butter; no apples yet.".toList,
    type := some "Note".toList, created := some "2024-01-03".toList,
    modified := some "2024-01-04".toList }

/-- The registry after `assignSemanticAddresses` has registered the two notes
under their generated addresses. -/
def ingestedRegistry : Registry :=
  run [.register "sem://vault/note/apple-pie".toList pieNote,
       .register "sem://vault/note/pie-crust".toList crustNote]

/-- The comparison `x >= y` of two JavaScript numbers; it is false when one
of them is `NaN`. -/
def numGe (x y : Option ℚ) : Prop :=
  match x, y with
  | some a, some b => b ≤ a
  | _, _ => False

/-- A context with the pathfinding mode set and the skill level `0.5`. -/
def skilledContext : Context :=
  { pathfindingMode := true, userContext := some { skillLevel := some (1 / 2) } }

/-- A registry with one note, registered under the short form `note:q`; the
record carries its address in `uri` and has four words longer than 3. -/
def selfSimilarRegistry : Registry :=
  run [.register "note:q".toList
        { content := some "alpha beta gamma delta".toList,
          uri := some "sem://vault/note/q".toList }]

/-! ## The test pathfinder: `test-pathfinding.js`

The class `TestSemanticPathfinder` keeps its edges in a `Map` from the edge id
`from->to` to the annotation passed to `addEdge`; `findPath` reads this map
only (the map `nodes` is written by `addNode` and never read). -/

/-- The annotation of an edge, the object `weights` of `addEdge`, as far as
`calculateWeight` reads it; an absent property is `none`. -/
structure EdgeWeights where
  difficulty : Option ℚ := none
  timeRequired : Option ℚ := none
  skillRequired : Option ℚ := none
  deriving DecidableEq

/-- The map `this.edges`, in insertion order. -/
abbrev EdgeMap := List (Str × EdgeWeights)

/-- The separator of an edge id. -/
def arrow : Str := "->".toList

/-- The method `addEdge`: the id is the template literal `from->to`. -/
def addEdge (edges : EdgeMap) (fromNode toNode : Str) (weights : EdgeWeights) : EdgeMap :=
  mapSet edges (fromNode ++ arrow ++ toNode) weights

/-- The text before and the text after the first occurrence of `->`, if there
is one. -/
def cutArrow : Str → Option (Str × Str)
  | [] => none
  | c :: cs =>
    if c = '-' ∧ cs.head? = some '>' then some ([], cs.tail)
    else (cutArrow cs).map (fun p => (c :: p.1, p.2))

/-- The destructuring `const [from, to] = edgeId.split('->')`: the first two
pieces of the id.  An id without `->` has one piece and `to` is `undefined`;
exploring `undefined` reaches no edge, pushes no path and leaves `visited` as
it was, so such an id is `none` here and the entry is passed over. -/
def parseEdgeId (edgeId : Str) : Option (Str × Str) :=
  match cutArrow edgeId with
  | none => none
  | some (fromNode, rest) =>
    match cutArrow rest with
    | none => some (fromNode, rest)
    | some (toNode, _) => some (fromNode, toNode)

/-- The expression `x || d` on a numeric property: absent and `0` give `d`. -/
def orDefault (x : Option ℚ) (d : ℚ) : ℚ :=
  match x with
  | some q => if q ≠ 0 then q else d
  | none => d

/-- The method `calculateWeight`. -/
def calculateWeight (weights : EdgeWeights) (userContext : UserContext) : ℚ :=
  let weight : ℚ := 0 + orDefault weights.difficulty (1 / 2)
  let weight : ℚ :=
    match userContext.skillLevel, weights.skillRequired with
    | some skillLevel, some skillRequired =>
      if skillLevel ≠ 0 ∧ skillRequired ≠ 0 then weight + |skillLevel - skillRequired|
      else weight
    | _, _ => weight
  weight + orDefault weights.timeRequired 1 * (1 / 10)

/-- An element of the array `paths`. -/
structure FoundPath where
  path : List Str
  weight : ℚ
  deriving DecidableEq

/-- The results of a loop body run over a list, one after the other; `none`
when a run did not finish. -/
def collect {α β : Type} (f : α → Option (List β)) : List α → Option (List β)
  | [] => some []
  | a :: rest =>
    match f a, collect f rest with
    | some x, some y => some (x ++ y)
    | _, _ => none

/-- The closure `explore` of `findPath`: the paths it pushes, in order.  The
set `visited` is passed down (`current :: visited` after `visited.add`); the
call leaves it as it found it (`visited.delete`).  The first argument bounds
the depth of the recursion, and `none` means the bound was reached. -/
def explore (edges : EdgeMap) (userContext : UserContext) (endNode : Str) :
    Nat → Str → List Str → ℚ → List Str → Option (List FoundPath)
  | 0, _, _, _, _ => none
  | fuel + 1, current, path, totalWeight, visited =>
    if current = endNode then some [{ path := path, weight := totalWeight }]
    else if current ∈ visited then some []
    else
      collect (fun entry =>
        match parseEdgeId entry.1 with
        | some (fromNode, toNode) =>
          if fromNode = current ∧ toNode ∉ current :: visited then
            explore edges userContext endNode fuel toNode (path ++ [toNode])
              (totalWeight + calculateWeight entry.2 userContext) (current :: visited)
          else some []
        | none => some []) edges

/-- The comparator `(a, b) => a.weight - b.weight`. -/
def compareWeight (a b : FoundPath) : Option ℚ := some (a.weight - b.weight)

/-- The method `findPath`, with a bound on the depth of the recursion. -/
def findPath (fuel : Nat) (edges : EdgeMap) (start endNode : Str)
    (userContext : UserContext) : Option (List FoundPath) :=
  (explore edges userContext endNode fuel start [start] 0 []).map (jsSort compareWeight)

/-- The graph of the repository's test: learning to make an apple pie. -/
def applePieEdges : EdgeMap :=
  addEdge (addEdge (addEdge (addEdge (addEdge (addEdge (addEdge (addEdge []
    "start".toList "recipe".toList
      { difficulty := some (1 / 10), timeRequired := some (1 / 4), skillRequired := some (1 / 10) })
    "recipe".toList "ingredients".toList
      { difficulty := some (1 / 5), timeRequired := some 1, skillRequired := some (1 / 10) })
    "ingredients".toList "crust-skill".toList
      { difficulty := some (3 / 5), timeRequired := some (3 / 2), skillRequired := some (2 / 5) })
    "crust-skill".toList "filling-skill".toList
      { difficulty := some (3 / 10), timeRequired := some (1 / 2), skillRequired := some (1 / 5) })
    "filling-skill".toList "assembly-skill".toList
      { difficulty := some (2 / 5), timeRequired := some (1 / 2), skillRequired := some (3 / 10) })
    "assembly-skill".toList "baking-skill".toList
      { difficulty := some (1 / 2), timeRequired := some 1, skillRequired := some (2 / 5) })
    "baking-skill".toList "finished-pie".toList
      { difficulty := some (1 / 10), timeRequired := some (1 / 10), skillRequired := some (1 / 10) })
    "ingredients".toList "assembly-skill".toList
      { difficulty := some (3 / 10), timeRequired := some (1 / 2), skillRequired := some (1 / 5) }

/-- The cost of an edge in the words of the specification: the difficulty if
one is provided and 0.5 otherwise, plus `|skillLevel − skillRequired|` if the
user context supplies a `skillLevel` and 0 if it supplies none, plus a tenth of
`timeRequired`.  The value is `none` (`NaN`) where the formula reads a property
that the annotation does not provide. -/
def specifiedWeight (weights : EdgeWeights) (userContext : UserContext) : Option ℚ :=
  let base : ℚ :=
    match weights.difficulty with
    | some d => d
    | none => 1 / 2
  let gap : Option ℚ :=
    match userContext.skillLevel with
    | some level =>
      match weights.skillRequired with
      | some required => some |level - required|
      | none => none
    | none => some 0
  match gap, weights.timeRequired with
  | some g, some t => some (base + g + (1 / 10) * t)
  | _, _ => none

/-- How `findPath` reads the map: it takes an entry whose id splits at `->`
into `a` and `b` as an edge from `a` to `b`.  For names that contain `->` this
is not the pair that was passed to `addEdge`. -/
def readsEdge (edges : EdgeMap) (a b : Str) : Prop :=
  ∃ entry ∈ edges, parseEdgeId entry.1 = some (a, b)

/-- The nodes reached by following a list of entries from `current`, one
after the other; `none` when an entry does not start where the last one
ended. -/
def follow : Str → List (Str × EdgeWeights) → Option (List Str)
  | _, [] => some []
  | current, entry :: rest =>
    match parseEdgeId entry.1 with
    | some (fromNode, toNode) =>
      if fromNode = current then (follow toNode rest).map (fun l => toNode :: l) else none
    | none => none

/-- A simple directed path from `start` to `endNode` in a graph given by its
edge relation: a list of nodes that starts with `start`, ends with `endNode`,
goes along edges and has no node twice. -/
def SimplePath (edge : Str → Str → Prop) (start endNode : Str) (p : List Str) : Prop :=
  p.head? = some start ∧ p.getLast? = some endNode ∧ List.Chain' edge p ∧ p.Nodup

/-- The number of entries whose first piece is not in `visited`: the entries
the exploration can still leave from. -/
def remaining (edges : EdgeMap) (visited : List Str) : Nat :=
  (edges.filter (fun entry =>
    match parseEdgeId entry.1 with
    | some (fromNode, _) => decide (fromNode ∉ visited)
    | none => false)).length

/-- A graph with a directed cycle and a self-loop: `a → b`, `b → a`, `a → a`
and `b → c`. -/
def cyclicEdges : EdgeMap :=
  addEdge (addEdge (addEdge (addEdge [] "a".toList "b".toList { difficulty := some (1 / 5) })
    "b".toList "a".toList { })
    "a".toList "a".toList { })
    "b".toList "c".toList { timeRequired := some 2 }

/-- The edge map after a sequence of calls of `addEdge` on a new pathfinder. -/
def addEdges (calls : List (Str × Str × EdgeWeights)) : EdgeMap :=
  calls.foldl (fun edges call => addEdge edges call.1 call.2.1 call.2.2) []

/-- The edges of the graph after a sequence of calls of `addEdge`: the pairs
of nodes that were passed. -/
def addedEdge (calls : List (Str × Str × EdgeWeights)) (a b : Str) : Prop :=
  ∃ weights, (a, b, weights) ∈ calls

/-- No node name passed to `addEdge` contains `->`. -/
def CleanNames (calls : List (Str × Str × EdgeWeights)) : Prop :=
  ∀ call ∈ calls, cutArrow call.1 = none ∧ cutArrow call.2.1 = none

/-- The cost of the edge from `a` to `b`: `calculateWeight` of the annotation
that the map holds for it, the one of the last `addEdge(a, b, …)`. -/
def edgeCost (edges : EdgeMap) (userContext : UserContext) (a b : Str) : ℚ :=
  match mapGet edges (a ++ arrow ++ b) with
  | some weights => calculateWeight weights userContext
  | none => 0

/-- The sum of the costs of the edges along a list of nodes; 0 for a list of
one node. -/
def pathCost (edges : EdgeMap) (userContext : UserContext) : List Str → ℚ
  | a :: b :: rest => edgeCost edges userContext a b + pathCost edges userContext (b :: rest)
  | _ => 0

/-- The calls `addEdge('a->b', 'c', {})`: one edge, from the node `a->b` to
the node `c`. -/
def arrowNameCalls : List (Str × Str × EdgeWeights) :=
  [("a->b".toList, "c".toList, { })]

/-- The calls `addEdge('x->y', 'b', {difficulty: 0.2})` and
`addEdge('b', 'c', {})`: the edges `A → B` and `B → C` for the nodes
`A = x->y`, `B = b` and `C = c`. -/
def arrowChainCalls : List (Str × Str × EdgeWeights) :=
  [("x->y".toList, "b".toList, { difficulty := some (1 / 5) }), ("b".toList, "c".toList, { })]

/-! ## The pathfinding engine: `semantic-pathfinding-engine.js`

A path is an object with the array `steps` and other properties; a path set
is an object from path types to paths.  Objects are lists of key and value in
the order of their keys, each key once.  The engine reads `steps`, and of a
step `semantic` and `description`; a value it does not read is kept as text. -/

/-- A step of a path. -/
structure PathStep where
  semantic : Str
  description : Str
  others : List (Str × Str) := []
  deriving DecidableEq

/-- An element of the array that `calculateUserOptimizations` returns. -/
structure Optimization where
  step : Str
  optimization : Str
  suggestion : Str
  timeImpact : Str
  deriving DecidableEq

/-- The value of a property of a path. -/
inductive FieldValue where
  | steps (l : List PathStep)
  | optimizations (l : List Optimization)
  | other (text : Str)
  deriving DecidableEq

/-- A path object. -/
abbrev PathObject := List (Str × FieldValue)

/-- An object from path types to paths. -/
abbrev PathSet := List (Str × PathObject)

/-- The methods that the engine calls and `src/` does not define, taken as
parameters; each may throw. -/
structure EngineHelpers where
  extractRequiredSkills : PathStep → Except RegError (List Str)
  getUserSkillLevel : List Str → UserContext → Except RegError ℚ
  assessRisksForUser : PathObject → UserContext → Except RegError FieldValue
  identifyMotivationFactors : PathObject → UserContext → Except RegError FieldValue
  generateFastestPath : Str → Str → List IntermediateNode → Except RegError PathObject
  generateSafestPath : Str → Str → List IntermediateNode → Except RegError PathObject
  generateLearningPath : Str → Str → List IntermediateNode → Except RegError PathObject
  generateCreativePath : Str → Str → List IntermediateNode → Except RegError PathObject
  evaluatePaths : PathSet → Except RegError PathSet

/-- The helper methods as they are in `src/`, where the class calls them and
nothing defines them: every call throws a `TypeError`. -/
def undefinedHelpers : EngineHelpers :=
  { extractRequiredSkills := fun _ => .error .typeError
    getUserSkillLevel := fun _ _ => .error .typeError
    assessRisksForUser := fun _ _ => .error .typeError
    identifyMotivationFactors := fun _ _ => .error .typeError
    generateFastestPath := fun _ _ _ => .error .typeError
    generateSafestPath := fun _ _ _ => .error .typeError
    generateLearningPath := fun _ _ _ => .error .typeError
    generateCreativePath := fun _ _ _ => .error .typeError
    evaluatePaths := fun _ => .error .typeError }

/-- One implementation of the helper methods, to evaluate the engine where
they return: no required skills, the skill level 0.9, fixed assessments, paths
without steps, and an evaluation that returns its argument. -/
def sampleHelpers : EngineHelpers :=
  { extractRequiredSkills := fun _ => .ok []
    getUserSkillLevel := fun _ _ => .ok (9 / 10)
    assessRisksForUser := fun _ _ => .ok (.other "low".toList)
    identifyMotivationFactors := fun _ _ => .ok (.other "curiosity".toList)
    generateFastestPath := fun _ _ _ => .ok [("steps".toList, .steps [])]
    generateSafestPath := fun _ _ _ => .ok [("steps".toList, .steps [])]
    generateLearningPath := fun _ _ _ => .ok [("steps".toList, .steps [])]
    generateCreativePath := fun _ _ _ => .ok [("steps".toList, .steps [])]
    evaluatePaths := fun paths => .ok paths }

/-- The loop of `calculateUserOptimizations` over the steps. -/
def optimizationsLoop (helpers : EngineHelpers) (userContext : UserContext) :
    List PathStep → Except RegError (List Optimization)
  | [] => .ok []
  | step :: rest =>
    match helpers.extractRequiredSkills step with
    | .error e => .error e
    | .ok requiredSkills =>
      match helpers.getUserSkillLevel requiredSkills userContext with
      | .error e => .error e
      | .ok userSkillLevel =>
        match optimizationsLoop helpers userContext rest with
        | .error e => .error e
        | .ok more =>
          if userSkillLevel < 1 / 2 then
            .ok ({ step := step.semantic
                   optimization := "additional-preparation".toList
                   suggestion :=
                     "Consider taking a preparatory course or finding a mentor for ".toList
                       ++ step.description
                   timeImpact := "+20-50%".toList } :: more)
          else if userSkillLevel > 4 / 5 then
            .ok ({ step := step.semantic
                   optimization := "acceleration-opportunity".toList
                   suggestion :=
                     "You can likely complete \"".toList ++ step.description
                       ++ "\" faster than estimated".toList
                   timeImpact := "-30%".toList } :: more)
          else .ok more

/-- The method `calculateUserOptimizations`.  A path whose `steps` is absent
or is no array of steps is taken to have a `steps` that cannot be iterated: a
`TypeError`. -/
def calculateUserOptimizations (helpers : EngineHelpers) (path : PathObject)
    (userContext : UserContext) : Except RegError (List Optimization) :=
  match mapGet path "steps".toList with
  | some (.steps l) => optimizationsLoop helpers userContext l
  | _ => .error .typeError

/-- The object literal of `personalizeForUser`: the spread of the path, then
the three properties. -/
def personalizedPath (path : PathObject) (userOptimizations : List Optimization)
    (riskAssessment motivationFactors : FieldValue) : PathObject :=
  mapSet (mapSet (mapSet path "userOptimizations".toList (.optimizations userOptimizations))
    "riskAssessment".toList riskAssessment) "motivationFactors".toList motivationFactors

/-- The assignment `object[key] = value` of an object value to a property of
an object created by `{}`.  The key `__proto__` names the accessor inherited
from `Object.prototype`: the assignment sets the prototype of the object and
stores no own property. -/
def assignProperty {β : Type} (object : List (Str × β)) (key : Str) (value : β) :
    List (Str × β) :=
  if key = "__proto__".toList then object else mapSet object key value

/-- The loop of `personalizeForUser` over the entries of `paths`, with the
object `personalizedPaths` built so far. -/
def personalizeLoop (helpers : EngineHelpers) (userContext : UserContext) :
    List (Str × PathObject) → PathSet → Except RegError PathSet
  | [], personalizedPaths => .ok personalizedPaths
  | (pathType, path) :: rest, personalizedPaths =>
    match calculateUserOptimizations helpers path userContext with
    | .error e => .error e
    | .ok userOptimizations =>
      match helpers.assessRisksForUser path userContext with
      | .error e => .error e
      | .ok riskAssessment =>
        match helpers.identifyMotivationFactors path userContext with
        | .error e => .error e
        | .ok motivationFactors =>
          personalizeLoop helpers userContext rest
            (assignProperty personalizedPaths pathType
              (personalizedPath path userOptimizations riskAssessment motivationFactors))

/-- The method `personalizeForUser`; an error is the rejection of the promise
it returns. -/
def personalizeForUser (helpers : EngineHelpers) (paths : PathSet) (userContext : UserContext) :
    Except RegError PathSet :=
  personalizeLoop helpers userContext paths []

/-- The method `generateFallbackPaths`. -/
def generateFallbackPaths (_startGoal endGoal : Str) : PathSet :=
  [("simple".toList,
    [("route".toList, .other "basic-research-path".toList),
     ("description".toList,
        .other "When advanced pathfinding fails, start with research".toList),
     ("steps".toList, .steps
        [{ semantic := "sem://vault/action/research-goal".toList
           description := "Research how others have achieved: ".toList ++ endGoal },
         { semantic := "sem://vault/action/identify-experts".toList
           description := "Find experts or mentors in this area".toList },
         { semantic := "sem://vault/action/create-learning-plan".toList
           description := "Create a basic learning and action plan".toList }])])]

/-- The state of a `SemanticPathfindingEngine`: the semantic system, the
cache and the user context. -/
structure Engine where
  semanticSystem : Registry
  pathCache : List (Str × PathSet)
  userContext : UserContext

/-- The argument `options` of `findOptimalPaths`. -/
structure EngineOptions where
  forceRefresh : Bool := false
  deriving DecidableEq

/-- The method `generateStrategicPaths`. -/
def generateStrategicPaths (helpers : EngineHelpers) (toLowerCase : Str → Str)
    (engine : Engine) (startGoal endGoal : Str) : Except RegError PathSet :=
  let startSem := generate toLowerCase engine.semanticSystem startGoal "goal".toList
  let endSem := generate toLowerCase engine.semanticSystem endGoal "outcome".toList
  match findIntermediateNodes toLowerCase engine.semanticSystem engine.userContext
      startSem endSem with
  | .error e => .error e
  | .ok intermediateNodes =>
    match helpers.generateFastestPath startSem endSem intermediateNodes with
    | .error e => .error e
    | .ok fastest =>
      match helpers.generateSafestPath startSem endSem intermediateNodes with
      | .error e => .error e
      | .ok safest =>
        match helpers.generateLearningPath startSem endSem intermediateNodes with
        | .error e => .error e
        | .ok learning =>
          match helpers.generateCreativePath startSem endSem intermediateNodes with
          | .error e => .error e
          | .ok creative =>
            .ok [("fastest".toList, fastest), ("safest".toList, safest),
                 ("learning".toList, learning), ("creative".toList, creative)]

/-- The cache key of `findOptimalPaths`: the template literal
`startGoal->endGoal`. -/
def cacheKey (startGoal endGoal : Str) : Str := startGoal ++ arrow ++ endGoal

/-- The body of the `try` block of `findOptimalPaths` up to the evaluated
paths. -/
def evaluatedPaths (helpers : EngineHelpers) (toLowerCase : Str → Str) (engine : Engine)
    (startGoal endGoal : Str) : Except RegError PathSet :=
  match generateStrategicPaths helpers toLowerCase engine startGoal endGoal with
  | .error e => .error e
  | .ok strategicPaths =>
    match personalizeForUser helpers strategicPaths engine.userContext with
    | .error e => .error e
    | .ok personalizedPaths => helpers.evaluatePaths personalizedPaths

/-- The method `findOptimalPaths`: what its promise settles to, and the
engine afterwards.  On a cache hit the call of `personalizeForUser` stands
before the `try` block; the `catch` handles what the `try` block throws. -/
def findOptimalPaths (helpers : EngineHelpers) (toLowerCase : Str → Str) (engine : Engine)
    (startGoal endGoal : Str) (options : EngineOptions) : Except RegError PathSet × Engine :=
  match mapGet engine.pathCache (cacheKey startGoal endGoal), options.forceRefresh with
  | some cached, false => (personalizeForUser helpers cached engine.userContext, engine)
  | _, _ =>
    match evaluatedPaths helpers toLowerCase engine startGoal endGoal with
    | .ok evaluated =>
      (.ok evaluated,
        { engine with
          pathCache := mapSet engine.pathCache (cacheKey startGoal endGoal) evaluated })
    | .error _ => (.ok (generateFallbackPaths startGoal endGoal), engine)

/-- The state after the constructor, on a given semantic system: the cache is
empty and the user context has no `skillLevel`. -/
def newEngine (semanticSystem : Registry) : Engine :=
  { semanticSystem := semanticSystem
    pathCache := []
    userContext := { } }

/-- What happens to an engine: a call of `findOptimalPaths`, or a change of
the semantic system, an object of its own, by its methods.  In `src/` nothing
else writes a field of the engine. -/
inductive EngineCall where
  | findOptimalPaths (startGoal endGoal : Str) (options : EngineOptions)
  | semanticSystem (reg : Registry)

/-- The engine after one call. -/
def engineStep (helpers : EngineHelpers) (toLowerCase : Str → Str) (engine : Engine) :
    EngineCall → Engine
  | .findOptimalPaths startGoal endGoal options =>
    (findOptimalPaths helpers toLowerCase engine startGoal endGoal options).2
  | .semanticSystem reg => { engine with semanticSystem := reg }

/-- The engine after a sequence of calls. -/
def engineRun (helpers : EngineHelpers) (toLowerCase : Str → Str) (engine : Engine)
    (calls : List EngineCall) : Engine :=
  calls.foldl (engineStep helpers toLowerCase) engine

/-- The states of an engine that a sequence of calls reaches from the
constructor. -/
def EngineReachable (helpers : EngineHelpers) (toLowerCase : Str → Str) (engine : Engine) :
    Prop :=
  ∃ (reg : Registry) (calls : List EngineCall),
    engineRun helpers toLowerCase (newEngine reg) calls = engine

/-- An engine on an empty semantic system whose cache holds an entry stored
for the pair `(a->b, c)`. -/
def collidingEngine : Engine :=
  { semanticSystem := Registry.empty
    pathCache := [(cacheKey "a->b".toList "c".toList,
                   [("fastest".toList,
                     [("route".toList, .other "for a->b to c".toList),
                      ("steps".toList, .steps [])])])]
    userContext := { } }

/-- The three properties that `personalizeForUser` writes. -/
def annotationKeys : List Str :=
  ["userOptimizations".toList, "riskAssessment".toList, "motivationFactors".toList]

/-! ## Lemmas on the grammars -/

theorem isLowerAZ_ne_colon {c : Char} (h : isLowerAZ c = true) : c ≠ ':' := by
  rintro rfl; exact absurd h (by decide)

theorem isLowerAZ_ne_slash {c : Char} (h : isLowerAZ c = true) : c ≠ '/' := by
  rintro rfl; exact absurd h (by decide)

theorem isLowerAZ_isSlugChar {c : Char} (h : isLowerAZ c = true) : isSlugChar c = true := by
  simp [isSlugChar, h]

theorem isSlugChar_ne_colon {c : Char} (h : isSlugChar c = true) : c ≠ ':' := by
  rintro rfl; exact absurd h (by decide)

theorem isSlugChar_ne_slash {c : Char} (h : isSlugChar c = true) : c ≠ '/' := by
  rintro rfl; exact absurd h (by decide)

theorem isSlugChar_not_lineTerminator {c : Char} (h : isSlugChar c = true) :
    isLineTerminator c = false := by
  simp only [isSlugChar, isLowerAZ, isDigit09, Bool.or_eq_true, Bool.and_eq_true,
    decide_eq_true_eq, beq_iff_eq] at h
  simp only [isLineTerminator, Bool.or_eq_false_iff, beq_eq_false_iff_ne, ne_eq]
  rcases h with (h | h) | h
  · omega
  · omega
  · subst h; decide

theorem dropLit_eq_some_iff (lit s r : Str) : dropLit lit s = some r ↔ s = lit ++ r := by
  induction lit generalizing s with
  | nil => simp [dropLit, eq_comm]
  | cons p ps ih =>
    cases s with
    | nil => simp [dropLit]
    | cons c cs =>
      by_cases h : p = c
      · subst h; simp [dropLit, ih]
      · have h2 : ¬ c = p := fun e => h e.symm
        simp [dropLit, h, h2]

theorem untilSlash_eq_some_iff (s seg rest : Str) :
    untilSlash s = some (seg, rest) ↔ s = seg ++ '/' :: rest ∧ seg ≠ [] ∧ '/' ∉ seg := by
  constructor
  · intro h
    unfold untilSlash at h
    split at h
    · exact absurd h (by simp)
    · next x r hd =>
      split at h
      · exact absurd h (by simp)
      · next hne =>
        simp only [Option.some.injEq, Prod.mk.injEq] at h
        obtain ⟨h1, h2⟩ := h
        subst h2
        have hx : x = '/' := by
          have := List.head_dropWhile_not (fun c => c != '/') s (by rw [hd]; simp)
          simpa [hd] using this
        subst hx
        refine ⟨?_, ?_, ?_⟩
        · rw [← h1, ← hd, List.takeWhile_append_dropWhile]
        · rw [← h1]; simpa using hne
        · intro hm
          rw [← h1] at hm
          simpa using List.mem_takeWhile_imp hm
  · rintro ⟨rfl, hne, hno⟩
    have hall : ∀ a ∈ seg, (fun c => c != '/') a = true := by
      intro a ha
      simp only [bne_iff_ne, ne_eq]
      rintro rfl
      exact hno ha
    unfold untilSlash
    rw [List.dropWhile_append_of_pos hall, List.takeWhile_append_of_pos hall]
    simp [List.isEmpty_iff, hne]

theorem mkUri_eq (vault type id : Str) :
    mkUri vault type id
      = 's' :: 'e' :: 'm' :: ':' :: '/' :: '/' :: (vault ++ '/' :: (type ++ '/' :: id)) := by
  simp [mkUri]

theorem matchFull_eq_some_iff (s vault type id : Str) :
    matchFull s = some (vault, type, id) ↔
      s = mkUri vault type id ∧ vault ≠ [] ∧ '/' ∉ vault ∧ type ≠ [] ∧ '/' ∉ type ∧
        id ≠ [] ∧ ∀ c ∈ id, isLineTerminator c = false := by
  constructor
  · intro h
    unfold matchFull at h
    split at h
    · exact absurd h (by simp)
    · next r1 h1 =>
      split at h
      · exact absurd h (by simp)
      · next v r2 h2 =>
        split at h
        · exact absurd h (by simp)
        · next t i h3 =>
          split at h
          · next hc =>
            simp only [Option.some.injEq, Prod.mk.injEq] at h
            obtain ⟨rfl, rfl, rfl⟩ := h
            rw [dropLit_eq_some_iff] at h1
            rw [untilSlash_eq_some_iff] at h2 h3
            obtain ⟨e2, hv, hv2⟩ := h2
            obtain ⟨e3, ht, ht2⟩ := h3
            simp only [Bool.and_eq_true, Bool.not_eq_true', List.isEmpty_eq_false, List.all_eq_true] at hc
            refine ⟨?_, hv, hv2, ht, ht2, ?_, ?_⟩
            · rw [h1, e2, e3]; simp [mkUri]
            · intro e; simp [e] at hc
            · intro c hc2; simpa using hc.2 c hc2
          · exact absurd h (by simp)
  · rintro ⟨rfl, hv, hv2, ht, ht2, hi, hi2⟩
    have h1 : dropLit "sem://".toList (mkUri vault type id)
        = some (vault ++ '/' :: (type ++ '/' :: id)) := by
      rw [dropLit_eq_some_iff]; simp [mkUri]
    have h2 : untilSlash (vault ++ '/' :: (type ++ '/' :: id)) = some (vault, type ++ '/' :: id) := by
      rw [untilSlash_eq_some_iff]; exact ⟨rfl, hv, hv2⟩
    have h3 : untilSlash (type ++ '/' :: id) = some (type, id) := by
      rw [untilSlash_eq_some_iff]; exact ⟨rfl, ht, ht2⟩
    have h4 : (!id.isEmpty && id.all (fun c => !isLineTerminator c)) = true := by
      simp only [Bool.and_eq_true, Bool.not_eq_true', List.isEmpty_eq_false, List.all_eq_true]
      exact ⟨hi, fun c hc => by simp [hi2 c hc]⟩
    unfold matchFull
    simp only [h1, h2, h3, h4, if_true]

theorem matchShort_eq_some_iff (s type id : Str) :
    matchShort s = some (type, id) ↔
      s = type ++ ':' :: id ∧ type ≠ [] ∧ (∀ c ∈ type, isLowerAZ c = true) ∧
        id ≠ [] ∧ ∀ c ∈ id, isSlugChar c = true := by
  constructor
  · intro h
    unfold matchShort at h
    split at h
    · exact absurd h (by simp)
    · next x r hd =>
      split at h
      · next hc =>
        simp only [Option.some.injEq, Prod.mk.injEq] at h
        obtain ⟨h1, rfl⟩ := h
        simp only [Bool.and_eq_true, beq_iff_eq, Bool.not_eq_true', List.isEmpty_eq_false,
          List.all_eq_true] at hc
        obtain ⟨⟨⟨rfl, ht⟩, hi⟩, hs⟩ := hc
        refine ⟨?_, ?_, ?_, hi, hs⟩
        · rw [← h1, ← hd, List.takeWhile_append_dropWhile]
        · rw [← h1]; exact ht
        · intro c hc
          rw [← h1] at hc
          exact List.mem_takeWhile_imp hc
      · exact absurd h (by simp)
  · rintro ⟨rfl, ht, htl, hi, his⟩
    have hd : List.dropWhile isLowerAZ (type ++ ':' :: id) = ':' :: id := by
      rw [List.dropWhile_append_of_pos htl]
      exact List.dropWhile_cons_of_neg (by decide)
    have htk : List.takeWhile isLowerAZ (type ++ ':' :: id) = type := by
      rw [List.takeWhile_append_of_pos htl]
      simp [List.takeWhile_cons, show isLowerAZ ':' = false from by decide]
    have hc : ((':' : Char) == ':' && !type.isEmpty && !id.isEmpty && id.all isSlugChar) = true := by
      simp only [Bool.and_eq_true, beq_iff_eq, Bool.not_eq_true', List.isEmpty_eq_false,
        List.all_eq_true]
      exact ⟨⟨⟨trivial, ht⟩, hi⟩, his⟩
    unfold matchShort
    rw [hd]
    simp only [htk, hc, if_true]

theorem splitOn_no_sep (sep : Char) (s : Str) (h : sep ∉ s) : splitOn sep s = [s] := by
  induction s with
  | nil => rfl
  | cons c cs ih =>
    have hc : ¬ c = sep := fun e => h (by simp [e])
    have hcs : sep ∉ cs := fun e => h (by simp [e])
    simp [splitOn, hc, ih hcs]

theorem splitOn_append_sep (sep : Char) (a b : Str) (h : sep ∉ a) :
    splitOn sep (a ++ sep :: b) = a :: splitOn sep b := by
  induction a with
  | nil => simp [splitOn]
  | cons c cs ih =>
    have hc : ¬ c = sep := fun e => h (by simp [e])
    have hcs : sep ∉ cs := fun e => h (by simp [e])
    simp [splitOn, hc, ih hcs]

/-- On a string the short pattern accepts, `split(':')` gives the two groups. -/
theorem splitOn_of_matchShort {s type id : Str} (h : matchShort s = some (type, id)) :
    splitOn ':' s = [type, id] := by
  rw [matchShort_eq_some_iff] at h
  obtain ⟨rfl, _, htl, _, his⟩ := h
  rw [splitOn_append_sep _ _ _ (fun hm => isLowerAZ_ne_colon (htl _ hm) rfl),
    splitOn_no_sep _ _ (fun hm => isSlugChar_ne_colon (his _ hm) rfl)]

theorem normalize_of_matchShort {s type id : Str} (h : matchShort s = some (type, id)) :
    normalize s = mkUri "vault".toList type id := by
  simp [normalize, h, splitOn_of_matchShort h]

theorem normalize_of_not_matchShort {s : Str} (h : matchShort s = none) : normalize s = s := by
  simp [normalize, h]

/-- The two patterns accept disjoint sets of strings. -/
theorem matchFull_none_of_matchShort {s type id : Str} (h : matchShort s = some (type, id)) :
    matchFull s = none := by
  rw [matchShort_eq_some_iff] at h
  obtain ⟨rfl, _, htl, _, his⟩ := h
  cases hm : matchFull (type ++ ':' :: id) with
  | none => rfl
  | some g =>
    obtain ⟨v, t, i⟩ := g
    rw [matchFull_eq_some_iff, mkUri_eq] at hm
    have hmem : '/' ∈ type ++ ':' :: id := by rw [hm.1]; simp
    rcases List.mem_append.mp hmem with h1 | h1
    · exact absurd rfl (isLowerAZ_ne_slash (htl _ h1))
    · rcases List.mem_cons.mp h1 with h2 | h2
      · exact absurd h2 (by decide)
      · exact absurd rfl (isSlugChar_ne_slash (his _ h2))

theorem matchShort_none_of_matchFull {s : Str} {g : Str × Str × Str} (h : matchFull s = some g) :
    matchShort s = none := by
  cases hm : matchShort s with
  | none => rfl
  | some q =>
    obtain ⟨t, i⟩ := q
    rw [matchFull_none_of_matchShort hm] at h
    exact absurd h (by simp)

theorem parse_of_matchFull {s vault type id : Str} (h : matchFull s = some (vault, type, id)) :
    parse s = some ⟨vault, type, id, s⟩ := by
  simp [parse, h]

theorem parse_of_matchShort {s type id : Str} (h : matchShort s = some (type, id)) :
    parse s = some ⟨"vault".toList, type, id, mkUri "vault".toList type id⟩ := by
  simp [parse, h, matchFull_none_of_matchShort h]

theorem parse_eq_none_iff (s : Str) : parse s = none ↔ matchFull s = none ∧ matchShort s = none := by
  unfold parse
  cases h1 : matchFull s with
  | some g => obtain ⟨v, t, i⟩ := g; simp
  | none =>
    cases h2 : matchShort s with
    | some q => obtain ⟨t, i⟩ := q; simp
    | none => simp

/-- The canonical long form of a short form is accepted by the full pattern. -/
theorem matchFull_mkUri_short {type id : Str} (ht : type ≠ [])
    (htl : ∀ c ∈ type, isLowerAZ c = true) (hi : id ≠ []) (his : ∀ c ∈ id, isSlugChar c = true) :
    matchFull (mkUri "vault".toList type id) = some ("vault".toList, type, id) := by
  rw [matchFull_eq_some_iff]
  exact ⟨rfl, by decide, by decide, ht, fun hm => isLowerAZ_ne_slash (htl _ hm) rfl, hi,
    fun c hc => isSlugChar_not_lineTerminator (his c hc)⟩

/-! ## C1 -/

/-- C1 (canonical equivalence).  For every short form `t:id` with `t` in
`[a-z]+` and `id` in `[a-z0-9-]+`: `normalize` gives `sem://vault/t/id`,
`normalize` leaves that long form unchanged, and `parse` of the short form and
`parse` of the long form give the same vault `vault`, type `t`, id `id` and
canonical uri. -/
theorem C1_canonical_equivalence (t id : Str)
    (ht : t ≠ []) (htl : ∀ c ∈ t, isLowerAZ c = true)
    (hi : id ≠ []) (his : ∀ c ∈ id, isSlugChar c = true) :
    normalize (t ++ ":".toList ++ id) = "sem://vault/".toList ++ t ++ "/".toList ++ id ∧
    normalize ("sem://vault/".toList ++ t ++ "/".toList ++ id)
      = "sem://vault/".toList ++ t ++ "/".toList ++ id ∧
    parse (t ++ ":".toList ++ id)
      = some ⟨"vault".toList, t, id, "sem://vault/".toList ++ t ++ "/".toList ++ id⟩ ∧
    parse ("sem://vault/".toList ++ t ++ "/".toList ++ id)
      = some ⟨"vault".toList, t, id, "sem://vault/".toList ++ t ++ "/".toList ++ id⟩ := by
  have hs : matchShort (t ++ ":".toList ++ id) = some (t, id) := by
    rw [matchShort_eq_some_iff]
    exact ⟨by simp, ht, htl, hi, his⟩
  have hlong : "sem://vault/".toList ++ t ++ "/".toList ++ id = mkUri "vault".toList t id := by
    simp [mkUri]
  have hf := matchFull_mkUri_short ht htl hi his
  rw [hlong]
  refine ⟨normalize_of_matchShort hs, ?_, parse_of_matchShort hs, parse_of_matchFull hf⟩
  exact normalize_of_not_matchShort (matchShort_none_of_matchFull hf)

/-- C1 at `person:alex-rivers`, the address of the repository's test. -/
theorem C1_canonical_equivalence_witness :
    normalize "person:alex-rivers".toList = "sem://vault/person/alex-rivers".toList ∧
    normalize "sem://vault/person/alex-rivers".toList = "sem://vault/person/alex-rivers".toList ∧
    parse "person:alex-rivers".toList
      = some ⟨"vault".toList, "person".toList, "alex-rivers".toList,
          "sem://vault/person/alex-rivers".toList⟩ ∧
    parse "sem://vault/person/alex-rivers".toList
      = some ⟨"vault".toList, "person".toList, "alex-rivers".toList,
          "sem://vault/person/alex-rivers".toList⟩ :=
  C1_canonical_equivalence "person".toList "alex-rivers".toList (by decide) (by decide)
    (by decide) (by decide)

/-! ## Lemmas on maps -/

theorem mapGet_mapSet_self {β : Type} (m : List (Str × β)) (k : Str) (v : β) :
    mapGet (mapSet m k v) k = some v := by
  induction m with
  | nil => simp [mapSet, mapGet]
  | cons e rest ih =>
    obtain ⟨k0, v0⟩ := e
    by_cases h : k0 = k
    · simp [mapSet, mapGet, h]
    · simp [mapSet, mapGet, h, ih]

theorem mapGet_mapSet_ne {β : Type} (m : List (Str × β)) (k k1 : Str) (v : β) (hne : k1 ≠ k) :
    mapGet (mapSet m k v) k1 = mapGet m k1 := by
  induction m with
  | nil =>
    have h : ¬ k = k1 := fun e => hne e.symm
    simp [mapSet, mapGet, h]
  | cons e rest ih =>
    obtain ⟨k0, v0⟩ := e
    by_cases h : k0 = k
    · subst h
      have h2 : ¬ k0 = k1 := fun e => hne e.symm
      simp [mapSet, mapGet, h2]
    · by_cases h3 : k0 = k1
      · subst h3
        simp [mapSet, mapGet, h]
      · simp [mapSet, mapGet, h, h3, ih]

theorem mapSet_of_free {β : Type} (m : List (Str × β)) (k : Str) (v : β)
    (h : mapGet m k = none) : mapSet m k v = m ++ [(k, v)] := by
  induction m with
  | nil => rfl
  | cons e rest ih =>
    obtain ⟨k0, v0⟩ := e
    by_cases h0 : k0 = k
    · simp [mapGet, h0] at h
    · simp only [mapGet, h0, if_false] at h
      simp [mapSet, h0, ih h]

theorem mapHas_eq_false_iff {β : Type} (m : List (Str × β)) (k : Str) :
    mapHas m k = false ↔ mapGet m k = none := by
  simp [mapHas]

theorem mapGet_some_mem {β : Type} (m : List (Str × β)) (k : Str) (v : β)
    (h : mapGet m k = some v) : (k, v) ∈ m := by
  induction m with
  | nil => simp [mapGet] at h
  | cons e rest ih =>
    obtain ⟨k0, v0⟩ := e
    by_cases h0 : k0 = k
    · simp only [mapGet, h0, if_true, Option.some.injEq] at h
      simp [h0, h]
    · simp only [mapGet, h0, if_false] at h
      exact List.mem_cons_of_mem _ (ih h)

theorem mapGet_none_of_no_key {β : Type} (m : List (Str × β)) (k : Str)
    (h : ∀ e ∈ m, e.1 ≠ k) : mapGet m k = none := by
  induction m with
  | nil => rfl
  | cons e rest ih =>
    obtain ⟨k0, v0⟩ := e
    have h0 : ¬ k0 = k := h (k0, v0) (List.mem_cons_self _ _)
    simp only [mapGet, h0, if_false]
    exact ih (fun e he => h e (List.mem_cons_of_mem _ he))

/-- The keys of a map after `set`: the old keys and the key set. -/
theorem mem_mapSet {β : Type} (m : List (Str × β)) (k : Str) (v : β) (e : Str × β)
    (h : e ∈ mapSet m k v) : e = (k, v) ∨ e ∈ m := by
  induction m with
  | nil => simpa [mapSet] using h
  | cons e0 rest ih =>
    obtain ⟨k0, v0⟩ := e0
    by_cases h0 : k0 = k
    · simp only [mapSet, h0, if_true, List.mem_cons] at h
      rcases h with h | h
      · exact Or.inl h
      · exact Or.inr (List.mem_cons_of_mem _ h)
    · simp only [mapSet, h0, if_false, List.mem_cons] at h
      rcases h with h | h
      · exact Or.inr (by simp [h])
      · rcases ih h with h1 | h1
        · exact Or.inl h1
        · exact Or.inr (List.mem_cons_of_mem _ h1)

/-! ## Lemmas on the collision loop -/

theorem digitChar_isDigit09 (m : Nat) (h : m < 10) : isDigit09 (Nat.digitChar m) = true := by
  interval_cases m <;> decide

theorem toDigitsCore_isDigit09 (fuel n : Nat) (ds : List Char)
    (hds : ∀ c ∈ ds, isDigit09 c = true) :
    ∀ c ∈ Nat.toDigitsCore 10 fuel n ds, isDigit09 c = true := by
  induction fuel generalizing n ds with
  | zero => simpa [Nat.toDigitsCore] using hds
  | succ f ih =>
    have hcons : ∀ c ∈ Nat.digitChar (n % 10) :: ds, isDigit09 c = true := by
      intro c hc
      rcases List.mem_cons.mp hc with h | h
      · rw [h]; exact digitChar_isDigit09 _ (Nat.mod_lt _ (by decide))
      · exact hds c h
    unfold Nat.toDigitsCore
    by_cases hz : n / 10 = 0
    · simpa [hz] using hcons
    · simpa [hz] using ih _ _ hcons

/-- The decimal digits of a counter are digits. -/
theorem toString_isDigit09 (k : Nat) : ∀ c ∈ (toString k).toList, isDigit09 c = true := by
  show ∀ c ∈ Nat.toDigits 10 k, isDigit09 c = true
  exact toDigitsCore_isDigit09 _ _ _ (by simp)

theorem isDigit09_isSlugChar {c : Char} (h : isDigit09 c = true) : isSlugChar c = true := by
  simp [isSlugChar, h]

/-- What the collision loop computes when entered with `counter` and the
iteration bound `100 - counter`: it stops at the least `k ≥ counter` whose
candidate is free, or at `k = 99`, and leaves the counter at `k + 1`. -/
theorem collisionLoop_spec (index : List (Str × Metadata)) (parsed : Parsed) (n counter : Nat)
    (h : counter + (n + 1) = 100) :
    (∃ k, counter ≤ k ∧ k ≤ 98 ∧
        collisionLoop index parsed (n + 1) counter = (suffixed parsed k, k + 1) ∧
        mapHas index (suffixed parsed k) = false ∧
        ∀ j, counter ≤ j → j < k → mapHas index (suffixed parsed j) = true) ∨
    (collisionLoop index parsed (n + 1) counter = (suffixed parsed 99, 100) ∧
        ∀ j, counter ≤ j → j ≤ 98 → mapHas index (suffixed parsed j) = true) := by
  induction n generalizing counter with
  | zero =>
    have hc : counter = 99 := by omega
    subst hc
    right
    refine ⟨?_, fun j h1 h2 => by omega⟩
    simp [collisionLoop]
  | succ n ih =>
    have hlt : counter + 1 < 100 := by omega
    cases hfree : mapHas index (suffixed parsed counter) with
    | false =>
      left
      refine ⟨counter, le_refl _, by omega, ?_, hfree, fun j h1 h2 => by omega⟩
      simp [collisionLoop, hfree]
    | true =>
      have hstep : collisionLoop index parsed (n + 1 + 1) counter
          = collisionLoop index parsed (n + 1) (counter + 1) := by
        simp [collisionLoop, hfree, hlt]
      rw [hstep]
      rcases ih (counter + 1) (by omega) with ⟨k, h1, h2, h3, h4, h5⟩ | ⟨h3, h5⟩
      · left
        refine ⟨k, by omega, h2, h3, h4, ?_⟩
        intro j hj1 hj2
        by_cases hj : j = counter
        · rw [hj]; exact hfree
        · exact h5 j (by omega) hj2
      · right
        refine ⟨h3, ?_⟩
        intro j hj1 hj2
        by_cases hj : j = counter
        · rw [hj]; exact hfree
        · exact h5 j (by omega) hj2

/-! ## Lemmas on `register` -/

/-- The groups of a parsed address are those of its canonical uri. -/
theorem parse_matchFull_uri {a : Str} {p : Parsed} (h : parse a = some p) :
    matchFull p.uri = some (p.vault, p.type, p.id) := by
  unfold parse at h
  split at h
  · next v t i hf =>
    simp only [Option.some.injEq] at h
    subst h
    exact hf
  · next hf =>
    split at h
    · next t i hs =>
      simp only [Option.some.injEq] at h
      subst h
      rw [matchShort_eq_some_iff] at hs
      exact matchFull_mkUri_short hs.2.1 hs.2.2.1 hs.2.2.2.1 hs.2.2.2.2
    · exact absurd h (by simp)

theorem parse_uri_eq_mkUri {a : Str} {p : Parsed} (h : parse a = some p) :
    p.uri = mkUri p.vault p.type p.id :=
  ((matchFull_eq_some_iff _ _ _ _).mp (parse_matchFull_uri h)).1

/-- The canonical uri of a valid address parses to the same object. -/
theorem parse_uri {a : Str} {p : Parsed} (h : parse a = some p) : parse p.uri = some p := by
  rw [parse_of_matchFull (parse_matchFull_uri h)]

theorem parse_uri_ne_nil {a : Str} {p : Parsed} (h : parse a = some p) : p.uri ≠ [] := by
  rw [parse_uri_eq_mkUri h, mkUri_eq]; simp

/-- The canonical address of a valid address is what `normalize` returns. -/
theorem normalize_eq_parse_uri {a : Str} {p : Parsed} (h : parse a = some p) :
    normalize a = p.uri := by
  unfold parse at h
  split at h
  · next v t i hf =>
    simp only [Option.some.injEq] at h
    subst h
    exact normalize_of_not_matchShort (matchShort_none_of_matchFull hf)
  · next hf =>
    split at h
    · next t i hs =>
      simp only [Option.some.injEq] at h
      subst h
      exact normalize_of_matchShort hs
    · exact absurd h (by simp)

/-- The candidate with suffix `-k` is the canonical address followed by `-k`. -/
theorem suffixed_eq {a : Str} {p : Parsed} (h : parse a = some p) (k : Nat) :
    suffixed p k = p.uri ++ "-".toList ++ (toString k).toList := by
  rw [parse_uri_eq_mkUri h]
  simp [suffixed, mkUri]

/-- Every candidate of the collision loop is a valid long form. -/
theorem matchFull_suffixed {a : Str} {p : Parsed} (h : parse a = some p) (k : Nat) :
    matchFull (suffixed p k)
      = some (p.vault, p.type, p.id ++ "-".toList ++ (toString k).toList) := by
  have hp := (matchFull_eq_some_iff _ _ _ _).mp (parse_matchFull_uri h)
  obtain ⟨_, hv, hv2, ht, ht2, hi, hi2⟩ := hp
  rw [matchFull_eq_some_iff]
  refine ⟨rfl, hv, hv2, ht, ht2, by simp [hi], ?_⟩
  intro c hc
  rcases List.mem_append.mp hc with h1 | h1
  · rcases List.mem_append.mp h1 with h2 | h2
    · exact hi2 c h2
    · have : c = '-' := by simpa using h2
      subst this; decide
  · exact isSlugChar_not_lineTerminator (isDigit09_isSlugChar (toString_isDigit09 k c h1))

theorem parse_suffixed {a : Str} {p : Parsed} (h : parse a = some p) (k : Nat) :
    parse (suffixed p k)
      = some ⟨p.vault, p.type, p.id ++ "-".toList ++ (toString k).toList, suffixed p k⟩ :=
  parse_of_matchFull (matchFull_suffixed h k)

/-- The branch of `register` on a free address. -/
theorem register_free (fuel : Nat) (reg : Registry) (a : Str) (r : Metadata) {p : Parsed}
    (h : parse a = some p) (hfree : mapHas reg.index p.uri = false) :
    register (fuel + 1) reg a r = (.ok p.uri, storeAt reg p.uri r) := by
  unfold register
  simp only [h, hfree]
  cases hf : r.file with
  | none => simp [storeAt, hf]
  | some f => by_cases ht : truthyStr (some f) = true <;> simp [storeAt, hf, ht]

/-- Three units of fuel are enough for `register`, on every state and input. -/
theorem register_eq_registerSpec (fuel : Nat) (reg : Registry) (a : Str) (r : Metadata) :
    register (fuel + 3) reg a r = registerSpec reg a r := by
  cases hp : parse a with
  | none => simp [register, registerSpec, hp]
  | some p =>
    cases hhas : mapHas reg.index p.uri with
    | false =>
      rw [register_free (fuel + 2) reg a r hp hhas]
      simp [registerSpec, hp, hhas]
    | true =>
      have hreg : register (fuel + 3) reg a r = resolveCollision (fuel + 2) reg p.uri r := by
        rw [register]; simp [hp, hhas]
      rw [hreg]
      have hres : resolveCollision (fuel + 2) reg p.uri r
          = if (collisionLoop reg.index p 98 2).2 ≥ 100 then (.error (.cannotResolve p.uri), reg)
            else register (fuel + 1) reg (collisionLoop reg.index p 98 2).1 r := by
        rw [resolveCollision]; simp [parse_uri hp]
      rw [hres]
      simp only [registerSpec, hp, hhas, if_true]
      rcases collisionLoop_spec reg.index p 97 2 rfl with ⟨k, _, hk, hout, hfree, _⟩ | ⟨hout, _⟩
      · have hlt : ¬ (k + 1 ≥ 100) := by omega
        simp only [hout, hlt, if_false]
        have hps := parse_suffixed hp k
        exact register_free fuel reg (suffixed p k) r hps hfree
      · simp [hout]

/-- The four ways a call of `register` can go. -/
theorem registerSpec_cases (reg : Registry) (a : Str) (r : Metadata) :
    (parse a = none ∧ registerSpec reg a r = (.error (.invalidUri a), reg)) ∨
    (∃ p, parse a = some p ∧ mapHas reg.index p.uri = false ∧
      registerSpec reg a r = (.ok p.uri, storeAt reg p.uri r)) ∨
    (∃ p k, parse a = some p ∧ mapHas reg.index p.uri = true ∧ 2 ≤ k ∧ k ≤ 98 ∧
      mapHas reg.index (suffixed p k) = false ∧
      (∀ j, 2 ≤ j → j < k → mapHas reg.index (suffixed p j) = true) ∧
      registerSpec reg a r = (.ok (suffixed p k), storeAt reg (suffixed p k) r)) ∨
    (∃ p, parse a = some p ∧ mapHas reg.index p.uri = true ∧
      (∀ j, 2 ≤ j → j ≤ 98 → mapHas reg.index (suffixed p j) = true) ∧
      registerSpec reg a r = (.error (.cannotResolve p.uri), reg)) := by
  cases hp : parse a with
  | none => left; simp [registerSpec, hp]
  | some p =>
    right
    cases hhas : mapHas reg.index p.uri with
    | false => left; exact ⟨p, rfl, hhas, by simp [registerSpec, hp, hhas]⟩
    | true =>
      right
      rcases collisionLoop_spec reg.index p 97 2 rfl with ⟨k, hk2, hk, hout, hfree, hocc⟩ | ⟨hout, hocc⟩
      · left
        have hlt : ¬ (k + 1 ≥ 100) := by omega
        exact ⟨p, k, rfl, hhas, hk2, hk, hfree, hocc, by simp [registerSpec, hp, hhas, hout, hlt]⟩
      · right
        exact ⟨p, rfl, hhas, hocc, by simp [registerSpec, hp, hhas, hout]⟩

/-- A successful `register` binds a free, valid long form and changes the
state by `storeAt` only. -/
theorem register_ok {fuel : Nat} {reg : Registry} {a : Str} {r : Metadata} {u : Str}
    (h : (register (fuel + 3) reg a r).1 = .ok u) :
    mapHas reg.index u = false ∧ (∃ g, matchFull u = some g) ∧
      (register (fuel + 3) reg a r).2 = storeAt reg u r := by
  rw [register_eq_registerSpec] at h ⊢
  rcases registerSpec_cases reg a r with ⟨_, he⟩ | ⟨p, hp, hfree, he⟩ |
      ⟨p, k, hp, _, _, _, hfree, _, he⟩ | ⟨p, _, _, _, he⟩
  · rw [he] at h; exact absurd h (by simp)
  · rw [he] at h ⊢
    simp only [Except.ok.injEq] at h
    subst h
    exact ⟨hfree, ⟨_, parse_matchFull_uri hp⟩, rfl⟩
  · rw [he] at h ⊢
    simp only [Except.ok.injEq] at h
    subst h
    exact ⟨hfree, ⟨_, matchFull_suffixed hp k⟩, rfl⟩
  · rw [he] at h; exact absurd h (by simp)

/-- A failed `register` leaves the state as it was. -/
theorem register_error {fuel : Nat} {reg : Registry} {a : Str} {r : Metadata} {e : RegError}
    (h : (register (fuel + 3) reg a r).1 = .error e) :
    (register (fuel + 3) reg a r).2 = reg := by
  rw [register_eq_registerSpec] at h ⊢
  rcases registerSpec_cases reg a r with ⟨_, he⟩ | ⟨p, _, _, he⟩ |
      ⟨p, k, _, _, _, _, _, _, he⟩ | ⟨p, _, _, _, he⟩
  · rw [he]
  · rw [he] at h; exact absurd h (by simp)
  · rw [he] at h; exact absurd h (by simp)
  · rw [he]

/-- After any call of `register` the state is the old one or the old one with
one free, valid long form bound. -/
theorem register_state (fuel : Nat) (reg : Registry) (a : Str) (r : Metadata) :
    (register (fuel + 3) reg a r).2 = reg ∨
      ∃ u, mapHas reg.index u = false ∧ (∃ g, matchFull u = some g) ∧
        (register (fuel + 3) reg a r).2 = storeAt reg u r := by
  cases h : (register (fuel + 3) reg a r).1 with
  | error e => exact Or.inl (register_error h)
  | ok u => exact Or.inr ⟨u, register_ok h⟩

theorem storeAt_index (reg : Registry) (u : Str) (r : Metadata) :
    (storeAt reg u r).index = mapSet reg.index u r := rfl

theorem resolve_of_bound {reg : Registry} {s : Str} {r : Metadata}
    (h : mapGet reg.index s = some r) : resolve reg s = some r := by
  simp [resolve, h]

/-! ## Reachable states -/

/-- An invariant of `step` holds in every state `run` produces. -/
theorem run_induction (P : Registry → Prop) (h0 : P Registry.empty)
    (hstep : ∀ reg c, P reg → P (step reg c)) (calls : List Call) : P (run calls) := by
  have key : ∀ (cs : List Call) (reg : Registry), P reg → P (cs.foldl step reg) := by
    intro cs
    induction cs with
    | nil => intro reg h; exact h
    | cons c cs ih => intro reg h; exact ih _ (hstep reg c h)
  exact key calls _ h0

/-- In a reachable state every key of the forward index is a long form. -/
theorem reachable_keys_long {reg : Registry} (h : Reachable reg) :
    ∀ e ∈ reg.index, ∃ g, matchFull e.1 = some g := by
  obtain ⟨calls, rfl⟩ := h
  refine run_induction (fun reg => ∀ e ∈ reg.index, ∃ g, matchFull e.1 = some g) ?_ ?_ calls
  · intro e he; simp [Registry.empty] at he
  · intro reg c ih e he
    cases c with
    | clear => simp [step, clear] at he
    | register a r =>
      simp only [step] at he
      rcases register_state 0 reg a r with hs | ⟨u, _, hu, hs⟩
      · rw [hs] at he; exact ih e he
      · rw [hs, storeAt_index] at he
        rcases mem_mapSet _ _ _ _ he with h1 | h1
        · rw [h1]; exact hu
        · exact ih e h1

/-- In a reachable state no short form is a key of the forward index. -/
theorem reachable_short_free {reg : Registry} (h : Reachable reg) {s : Str}
    (hs : (matchShort s).isSome = true) : mapGet reg.index s = none := by
  apply mapGet_none_of_no_key
  intro e he heq
  obtain ⟨g, hg⟩ := reachable_keys_long h e he
  rw [heq] at hg
  rw [matchShort_none_of_matchFull hg] at hs
  exact absurd hs (by simp)

/-- In a reachable state `resolve` is the lookup of the normalized input. -/
theorem resolve_eq_get_normalize {reg : Registry} (h : Reachable reg) (s : Str) :
    resolve reg s = mapGet reg.index (normalize s) := by
  cases hs : matchShort s with
  | none =>
    rw [normalize_of_not_matchShort hs]
    cases hg : mapGet reg.index s <;> simp [resolve, hg, hs]
  | some q =>
    obtain ⟨t, i⟩ := q
    have hfree := @reachable_short_free reg h s (by simp [hs])
    rw [normalize_of_matchShort hs]
    simp only [resolve, hfree, hs, Option.isSome_some, if_true, splitOn_of_matchShort hs]
    show (match mapGet reg.index (mkUri "vault".toList t i) with
      | some result => some result
      | none => none) = mapGet reg.index (mkUri "vault".toList t i)
    cases mapGet reg.index (mkUri "vault".toList t i) <;> rfl

theorem reachable_empty : Reachable Registry.empty := ⟨[], rfl⟩

theorem reachable_step {reg : Registry} (h : Reachable reg) (c : Call) :
    Reachable (step reg c) := by
  obtain ⟨calls, rfl⟩ := h
  exact ⟨calls ++ [c], by simp [run, List.foldl_append]⟩

theorem reachable_register {reg : Registry} (h : Reachable reg) (fuel : Nat) (a : Str)
    (r : Metadata) : Reachable (register (fuel + 3) reg a r).2 := by
  have e : (register (fuel + 3) reg a r).2 = step reg (.register a r) := by
    simp only [step]
    rw [register_eq_registerSpec, register_eq_registerSpec 0]
  rw [e]
  exact reachable_step h _

/-! ## C2 -/

/-- C2 (register then resolve).  In every registry state reachable by
`register` and `clear` calls, for every valid address `a` (short or long form,
`parse a` succeeds) whose canonical address `c` is not bound, and every record
`r`: `register(a, r)` returns `c`, which is `normalize(a)`, and afterwards
`resolve(a)` and `resolve(c)` both return `r`. -/
theorem C2_register_then_resolve (fuel : Nat) (reg : Registry) (hreach : Reachable reg)
    (a : Str) (p : Parsed) (hp : parse a = some p)
    (hfree : mapHas reg.index p.uri = false) (r : Metadata) :
    normalize a = p.uri ∧
    (register (fuel + 3) reg a r).1 = .ok p.uri ∧
    resolve (register (fuel + 3) reg a r).2 a = some r ∧
    resolve (register (fuel + 3) reg a r).2 p.uri = some r := by
  have hreach2 := reachable_register hreach fuel a r
  have hreg := register_free (fuel + 2) reg a r hp hfree
  have hbound : mapGet (register (fuel + 3) reg a r).2.index p.uri = some r := by
    rw [hreg]; exact mapGet_mapSet_self _ _ _
  refine ⟨normalize_eq_parse_uri hp, by rw [hreg], ?_, resolve_of_bound hbound⟩
  rw [resolve_eq_get_normalize hreach2, normalize_eq_parse_uri hp]
  exact hbound

/-- C2 on the fresh registry with the short form `person:alex-rivers`, as in
test 4 of `test_semantic_fix.js`. -/
theorem C2_register_then_resolve_witness :
    normalize "person:alex-rivers".toList = "sem://vault/person/alex-rivers".toList ∧
    (register 3 Registry.empty "person:alex-rivers".toList
      { file := some "01_person.md".toList, title := some "Alex Rivers".toList,
        type := some "person".toList }).1 = .ok "sem://vault/person/alex-rivers".toList ∧
    resolve (register 3 Registry.empty "person:alex-rivers".toList
      { file := some "01_person.md".toList, title := some "Alex Rivers".toList,
        type := some "person".toList }).2 "person:alex-rivers".toList
      = some { file := some "01_person.md".toList, title := some "Alex Rivers".toList,
               type := some "person".toList } ∧
    resolve (register 3 Registry.empty "person:alex-rivers".toList
      { file := some "01_person.md".toList, title := some "Alex Rivers".toList,
        type := some "person".toList }).2 "sem://vault/person/alex-rivers".toList
      = some { file := some "01_person.md".toList, title := some "Alex Rivers".toList,
               type := some "person".toList } :=
  C2_register_then_resolve 0 Registry.empty reachable_empty "person:alex-rivers".toList
    ⟨"vault".toList, "person".toList, "alex-rivers".toList,
      "sem://vault/person/alex-rivers".toList⟩ (by decide) (by decide) _

/-! ## C3 -/

theorem suffixed_two {a : Str} {p : Parsed} (h : parse a = some p) :
    suffixed p 2 = p.uri ++ "-2".toList := by
  rw [suffixed_eq h 2, List.append_assoc]
  rfl

/-- C3 (registering the same canonical address twice).  From a registry in
which the canonical address `c` of `a` and `c-2` are both free,
`register(a, r1)` returns `c` and a second `register(a, r2)` returns `c-2`; the
two addresses differ, `resolve(c)` returns `r1` and `resolve(c-2)` returns
`r2`. -/
theorem C3_register_twice (fuel1 fuel2 : Nat) (reg : Registry) (a : Str) (p : Parsed)
    (hp : parse a = some p)
    (hfree : mapHas reg.index p.uri = false)
    (hfree2 : mapHas reg.index (p.uri ++ "-2".toList) = false) (r1 r2 : Metadata) :
    (register (fuel1 + 3) reg a r1).1 = .ok p.uri ∧
    (register (fuel2 + 3) (register (fuel1 + 3) reg a r1).2 a r2).1
      = .ok (p.uri ++ "-2".toList) ∧
    p.uri ≠ p.uri ++ "-2".toList ∧
    resolve (register (fuel2 + 3) (register (fuel1 + 3) reg a r1).2 a r2).2 p.uri = some r1 ∧
    resolve (register (fuel2 + 3) (register (fuel1 + 3) reg a r1).2 a r2).2
      (p.uri ++ "-2".toList) = some r2 := by
  have hne : p.uri ≠ p.uri ++ "-2".toList := by
    intro h
    have := congrArg List.length h
    simp at this
  have hne2 : p.uri ++ "-2".toList ≠ p.uri := fun h => hne h.symm
  have h1 := register_free (fuel1 + 2) reg a r1 hp hfree
  have hocc : mapHas (storeAt reg p.uri r1).index p.uri = true := by
    simp [mapHas, storeAt_index, mapGet_mapSet_self]
  have hfree3 : mapHas (storeAt reg p.uri r1).index (suffixed p 2) = false := by
    rw [suffixed_two hp, mapHas_eq_false_iff, storeAt_index, mapGet_mapSet_ne _ _ _ _ hne2]
    exact (mapHas_eq_false_iff _ _).mp hfree2
  have hloop : collisionLoop (storeAt reg p.uri r1).index p 98 2 = (suffixed p 2, 3) := by
    simp [collisionLoop, hfree3]
  have h2 : register (fuel2 + 3) (storeAt reg p.uri r1) a r2
      = (.ok (p.uri ++ "-2".toList),
          storeAt (storeAt reg p.uri r1) (p.uri ++ "-2".toList) r2) := by
    rw [register_eq_registerSpec]
    simp [registerSpec, hp, hocc, hloop, suffixed_two hp]
  rw [h1, h2]
  refine ⟨rfl, rfl, hne, resolve_of_bound ?_, resolve_of_bound ?_⟩
  · rw [storeAt_index, mapGet_mapSet_ne _ _ _ _ hne, storeAt_index, mapGet_mapSet_self]
  · rw [storeAt_index, mapGet_mapSet_self]

/-- C3 on the fresh registry with the address `note:x`. -/
theorem C3_register_twice_witness :
    (register 3 Registry.empty "note:x".toList { title := some "one".toList }).1
      = .ok "sem://vault/note/x".toList ∧
    (register 3 (register 3 Registry.empty "note:x".toList { title := some "one".toList }).2
      "note:x".toList { title := some "two".toList }).1
      = .ok ("sem://vault/note/x".toList ++ "-2".toList) ∧
    "sem://vault/note/x".toList ≠ "sem://vault/note/x".toList ++ "-2".toList ∧
    resolve (register 3
      (register 3 Registry.empty "note:x".toList { title := some "one".toList }).2
      "note:x".toList { title := some "two".toList }).2 "sem://vault/note/x".toList
      = some { title := some "one".toList } ∧
    resolve (register 3
      (register 3 Registry.empty "note:x".toList { title := some "one".toList }).2
      "note:x".toList { title := some "two".toList }).2
      ("sem://vault/note/x".toList ++ "-2".toList)
      = some { title := some "two".toList } :=
  C3_register_twice 0 0 Registry.empty "note:x".toList
    ⟨"vault".toList, "note".toList, "x".toList, "sem://vault/note/x".toList⟩
    (by decide) (by decide) (by decide) _ _

/-! ## C4 -/

/-- C4 (register never overwrites).  For every registry state and every call
`register(a, r)`: every address bound in the forward index before the call is
bound to the same record after it, and when the call succeeds with address `u`,
`u` was free before and the forward index is the old one with the single new
entry `u ↦ r` at its end. -/
theorem C4_register_never_overwrites (fuel : Nat) (reg : Registry) (a : Str) (r : Metadata) :
    (∀ k v, mapGet reg.index k = some v →
      mapGet (register (fuel + 3) reg a r).2.index k = some v) ∧
    (∀ u, (register (fuel + 3) reg a r).1 = .ok u →
      mapGet reg.index u = none ∧
      (register (fuel + 3) reg a r).2.index = reg.index ++ [(u, r)]) := by
  constructor
  · intro k v hk
    rcases register_state fuel reg a r with hs | ⟨u, hfree, _, hs⟩
    · rw [hs]; exact hk
    · have hne : k ≠ u := by
        rintro rfl
        rw [mapHas_eq_false_iff, hk] at hfree
        exact absurd hfree (by simp)
      rw [hs, storeAt_index, mapGet_mapSet_ne _ _ _ _ hne]
      exact hk
  · intro u hu
    obtain ⟨hfree, _, hs⟩ := register_ok hu
    rw [mapHas_eq_false_iff] at hfree
    exact ⟨hfree, by rw [hs, storeAt_index, mapSet_of_free _ _ _ hfree]⟩

/-- C4 at a collision: `note:x` is bound to a first record, a second
`register` of `note:x` keeps that binding and appends `sem://vault/note/x-2`. -/
theorem C4_register_never_overwrites_witness :
    mapGet (register 3
        ⟨[("sem://vault/note/x".toList, { title := some "one".toList })], [], "vault".toList⟩
        "note:x".toList { title := some "two".toList }).2.index "sem://vault/note/x".toList
      = some { title := some "one".toList } ∧
    (register 3
        ⟨[("sem://vault/note/x".toList, { title := some "one".toList })], [], "vault".toList⟩
        "note:x".toList { title := some "two".toList }).2.index
      = [("sem://vault/note/x".toList, { title := some "one".toList })]
        ++ [("sem://vault/note/x-2".toList, { title := some "two".toList })] :=
  ⟨(C4_register_never_overwrites 0
      ⟨[("sem://vault/note/x".toList, { title := some "one".toList })], [], "vault".toList⟩
      "note:x".toList { title := some "two".toList }).1 _ _ (by decide),
   ((C4_register_never_overwrites 0
      ⟨[("sem://vault/note/x".toList, { title := some "one".toList })], [], "vault".toList⟩
      "note:x".toList { title := some "two".toList }).2 "sem://vault/note/x-2".toList
      (by decide)).2⟩

/-! ## C5 -/

theorem mapHas_of_mem {β : Type} (m : List (Str × β)) (k : Str) (v : β) (h : (k, v) ∈ m) :
    mapHas m k = true := by
  induction m with
  | nil => simp at h
  | cons e rest ih =>
    obtain ⟨k0, v0⟩ := e
    by_cases h0 : k0 = k
    · simp [mapHas, mapGet, h0]
    · rcases List.mem_cons.mp h with h1 | h1
      · simp only [Prod.mk.injEq] at h1
        exact absurd h1.1.symm h0
      · have := ih h1
        simpa [mapHas, mapGet, h0] using this

/-- Every suffix from `-2` to `-(n+1)` is bound in `crowdedUpTo n`. -/
theorem crowdedUpTo_occupied (n j : Nat) (h2 : 2 ≤ j) (hn : j ≤ n + 1) :
    mapHas (crowdedUpTo n) (suffixed sampleParsed j) = true := by
  apply mapHas_of_mem _ _ ({} : Metadata)
  apply List.mem_cons_of_mem
  refine List.mem_map.mpr ⟨j - 2, List.mem_range.mpr (by omega), ?_⟩
  rw [show j - 2 + 2 = j from by omega]

/-- Every suffix from `-2` to `-98` is bound in `crowdedIndex`. -/
theorem crowdedIndex_occupied (j : Nat) (h2 : 2 ≤ j) (h98 : j ≤ 98) :
    mapHas crowdedIndex (suffixed sampleParsed j) = true :=
  crowdedUpTo_occupied 97 j h2 h98

set_option maxRecDepth 100000 in
theorem decimalValue_toString_below_100 :
    ∀ i < 100, decimalValue (toString i).toList = i := by
  decide!

theorem toString_inj_below_100 (i : Nat) (hi : i < 100) (j : Nat) (hj : j < 100)
    (h : (toString i).toList = (toString j).toList) : i = j := by
  rw [← decimalValue_toString_below_100 i hi, ← decimalValue_toString_below_100 j hj, h]

theorem suffixed_sample_inj (i j : Nat) (hi : i < 100) (hj : j < 100)
    (h : suffixed sampleParsed i = suffixed sampleParsed j) : i = j := by
  simp only [suffixed, mkUri, List.append_assoc] at h
  have h1 := List.append_cancel_left h
  have h2 := List.append_cancel_left h1
  have h3 := List.append_cancel_left h2
  have h4 := List.append_cancel_left h3
  have h5 := List.append_cancel_left h4
  have h6 := List.append_cancel_left h5
  have h7 := List.append_cancel_left h6
  exact toString_inj_below_100 i hi j hj h7

/-- The next suffix is free in `crowdedUpTo n`. -/
theorem crowdedUpTo_free (n : Nat) (hn : n ≤ 96) :
    mapHas (crowdedUpTo n) (suffixed sampleParsed (n + 2)) = false := by
  rw [mapHas_eq_false_iff]
  apply mapGet_none_of_no_key
  intro e he heq
  rcases List.mem_cons.mp he with h1 | h1
  · rw [h1] at heq
    have := congrArg List.length heq
    simp [suffixed, mkUri, sampleParsed] at this
  · obtain ⟨i, hi, rfl⟩ := List.mem_map.mp h1
    have := suffixed_sample_inj (i + 2) (n + 2) (by have := List.mem_range.mp hi; omega)
      (by omega) heq
    have := List.mem_range.mp hi
    omega

/-- One more `register` of `sem://v/t/x` takes `crowdedUpTo n` to
`crowdedUpTo (n + 1)`. -/
theorem step_crowdedUpTo (n : Nat) (hn : n ≤ 96) :
    step ⟨crowdedUpTo n, [], "vault".toList⟩ (.register "sem://v/t/x".toList {})
      = ⟨crowdedUpTo (n + 1), [], "vault".toList⟩ := by
  have hp : parse "sem://v/t/x".toList = some sampleParsed := by decide
  have hfree := crowdedUpTo_free n hn
  have hnext : storeAt ⟨crowdedUpTo n, [], "vault".toList⟩ (suffixed sampleParsed (n + 2)) {}
      = ⟨crowdedUpTo (n + 1), [], "vault".toList⟩ := by
    simp only [storeAt]
    rw [mapSet_of_free _ _ _ ((mapHas_eq_false_iff _ _).mp hfree)]
    simp [crowdedUpTo, List.range_succ]
  simp only [step]
  rw [register_eq_registerSpec 0]
  rcases registerSpec_cases ⟨crowdedUpTo n, [], "vault".toList⟩ "sem://v/t/x".toList {} with
    ⟨h0, _⟩ | ⟨p, hp1, hf, _⟩ | ⟨p, k, hp1, _, hk2, hk, hf, hocc, he⟩ | ⟨p, hp1, _, hocc, _⟩
  · rw [hp] at h0; exact absurd h0 (by simp)
  · rw [hp] at hp1
    simp only [Option.some.injEq] at hp1
    subst hp1
    exact absurd hf (by simp [crowdedUpTo, mapHas, mapGet, sampleParsed])
  · rw [hp] at hp1
    simp only [Option.some.injEq] at hp1
    subst hp1
    have hk1 : k = n + 2 := by
      rcases Nat.lt_trichotomy k (n + 2) with hlt | heq | hgt
      · have := crowdedUpTo_occupied n k hk2 (by omega)
        rw [show (Registry.mk (crowdedUpTo n) [] "vault".toList).index = crowdedUpTo n from rfl,
          this] at hf
        exact absurd hf (by simp)
      · exact heq
      · have := hocc (n + 2) (by omega) hgt
        rw [show (Registry.mk (crowdedUpTo n) [] "vault".toList).index = crowdedUpTo n from rfl,
          hfree] at this
        exact absurd this (by simp)
    subst hk1
    rw [he, hnext]
  · rw [hp] at hp1
    simp only [Option.some.injEq] at hp1
    subst hp1
    have := hocc (n + 2) (by omega) (by omega)
    rw [show (Registry.mk (crowdedUpTo n) [] "vault".toList).index = crowdedUpTo n from rfl,
      hfree] at this
    exact absurd this (by simp)

theorem run_replicate_register (n : Nat) (hn : n ≤ 97) :
    run (List.replicate (n + 1) (.register "sem://v/t/x".toList {}))
      = ⟨crowdedUpTo n, [], "vault".toList⟩ := by
  induction n with
  | zero => decide
  | succ n ih =>
    rw [List.replicate_succ', run, List.foldl_append]
    have := ih (by omega)
    rw [run] at this
    rw [this]
    exact step_crowdedUpTo n (by omega)

/-- The state `crowdedRegistry` is what 98 calls `register('sem://v/t/x', r)`
on a fresh registry produce. -/
theorem crowdedRegistry_reachable :
    run (List.replicate 98 (.register "sem://v/t/x".toList {})) = crowdedRegistry :=
  run_replicate_register 97 (le_refl _)

/-- C5, the code at the failing input.  In the registry that 98 calls
`register('sem://v/t/x', r)` produce, which binds `sem://v/t/x` and
`sem://v/t/x-2` up to `sem://v/t/x-98`, the address
`sem://v/t/x-99` is free, and `register('sem://v/t/x', r)` still throws the
exhaustion error, leaving the registry as it was: the loop builds the candidate
with suffix `-99` and leaves with `counter = 100`, which the test
`counter >= 100` takes for exhaustion. -/
theorem C5_free_suffix_99_not_used :
    run (List.replicate 98 (.register "sem://v/t/x".toList {})) = crowdedRegistry ∧
    mapHas crowdedRegistry.index ("sem://v/t/x".toList ++ "-99".toList) = false ∧
    suffixed sampleParsed 99 = "sem://v/t/x".toList ++ "-99".toList ∧
    register 3 crowdedRegistry "sem://v/t/x".toList {}
      = (.error (.cannotResolve "sem://v/t/x".toList), crowdedRegistry) := by
  have hp : parse "sem://v/t/x".toList = some sampleParsed := by decide
  refine ⟨crowdedRegistry_reachable, by decide, by decide, ?_⟩
  rw [register_eq_registerSpec 0]
  rcases registerSpec_cases crowdedRegistry "sem://v/t/x".toList {} with
    ⟨hn, _⟩ | ⟨p, hp1, hfree, _⟩ | ⟨p, k, hp1, _, hk2, hk, hfree, _, _⟩ | ⟨p, hp1, _, _, he⟩
  · rw [hp] at hn; exact absurd hn (by simp)
  · rw [hp] at hp1
    simp only [Option.some.injEq] at hp1
    subst hp1
    exact absurd hfree (by decide)
  · rw [hp] at hp1
    simp only [Option.some.injEq] at hp1
    subst hp1
    have := crowdedIndex_occupied k hk2 hk
    rw [show crowdedRegistry.index = crowdedIndex from rfl, this] at hfree
    exact absurd hfree (by simp)
  · rw [hp] at hp1
    simp only [Option.some.injEq] at hp1
    subst hp1
    exact he

/-! ## C6 -/

/-- C6 (failed registration is atomic).  Whenever `register(a, r)` raises, the
registry state (forward index, reverse index) is exactly what it was before the
call, and the error is one of two: the invalid-URI error, when `a` matches
neither grammar, or the exhaustion error, when the canonical address and all
its suffixes `-2 … -98` are bound. -/
theorem C6_failed_register_atomic (fuel : Nat) (reg : Registry) (a : Str) (r : Metadata)
    (e : RegError) (h : (register (fuel + 3) reg a r).1 = .error e) :
    (register (fuel + 3) reg a r).2 = reg ∧
    ((parse a = none ∧ e = .invalidUri a) ∨
     (∃ p, parse a = some p ∧ e = .cannotResolve p.uri ∧ mapHas reg.index p.uri = true ∧
        ∀ j, 2 ≤ j → j ≤ 98 → mapHas reg.index (suffixed p j) = true)) := by
  refine ⟨register_error h, ?_⟩
  rw [register_eq_registerSpec] at h
  rcases registerSpec_cases reg a r with ⟨hn, he⟩ | ⟨p, _, _, he⟩ |
      ⟨p, k, _, _, _, _, _, _, he⟩ | ⟨p, hp, hocc, hall, he⟩
  · rw [he] at h
    simp only [Except.error.injEq] at h
    exact Or.inl ⟨hn, h.symm⟩
  · rw [he] at h; exact absurd h (by simp)
  · rw [he] at h; exact absurd h (by simp)
  · rw [he] at h
    simp only [Except.error.injEq] at h
    exact Or.inr ⟨p, hp, h.symm, hocc, hall⟩

/-- C6 at a malformed address on a registry that holds one record. -/
theorem C6_failed_register_atomic_witness :
    (register 3
        ⟨[("sem://vault/note/x".toList, { title := some "one".toList })], [], "vault".toList⟩
        "not an address".toList { file := some "f.md".toList }).1
      = .error (.invalidUri "not an address".toList) ∧
    (register 3
        ⟨[("sem://vault/note/x".toList, { title := some "one".toList })], [], "vault".toList⟩
        "not an address".toList { file := some "f.md".toList }).2
      = ⟨[("sem://vault/note/x".toList, { title := some "one".toList })], [], "vault".toList⟩ :=
  ⟨by decide,
   (C6_failed_register_atomic 0
    ⟨[("sem://vault/note/x".toList, { title := some "one".toList })], [], "vault".toList⟩
    "not an address".toList { file := some "f.md".toList }
    (.invalidUri "not an address".toList) (by decide)).1⟩

/-! ## C7 -/

/-- C7 as stated fails: `not an address` matches neither grammar (`parse`
returns `null`, neither pattern matches), and `normalize` returns it as it is
instead of failing. -/
theorem C7_normalize_returns_malformed :
    matchFull "not an address".toList = none ∧
    matchShort "not an address".toList = none ∧
    parse "not an address".toList = none ∧
    normalize "not an address".toList = "not an address".toList := by
  decide

/-- C7 amended.  For every input string that matches neither the canonical
grammar nor the short grammar, `normalize` returns the input unchanged; the
input is rejected by `parse`, which returns `null`, and by `register`, which
raises the invalid-URI error and leaves the registry as it was. -/
theorem C7_malformed_rejected_by_register (s : Str)
    (hfull : matchFull s = none) (hshort : matchShort s = none) :
    normalize s = s ∧ parse s = none ∧
    ∀ (fuel : Nat) (reg : Registry) (r : Metadata),
      register (fuel + 3) reg s r = (.error (.invalidUri s), reg) := by
  have hp : parse s = none := (parse_eq_none_iff s).mpr ⟨hfull, hshort⟩
  refine ⟨normalize_of_not_matchShort hshort, hp, ?_⟩
  intro fuel reg r
  rw [register_eq_registerSpec]
  simp [registerSpec, hp]

/-- C7 amended, at the input `not an address`. -/
theorem C7_malformed_rejected_by_register_witness :
    normalize "not an address".toList = "not an address".toList ∧
    parse "not an address".toList = none ∧
    ∀ (fuel : Nat) (reg : Registry) (r : Metadata),
      register (fuel + 3) reg "not an address".toList r
        = (.error (.invalidUri "not an address".toList), reg) :=
  C7_malformed_rejected_by_register "not an address".toList (by decide) (by decide)

/-! ## C8 -/

/-- C8 (resolve is lookup after normalize).  In every registry state reachable
by `register` and `clear` calls and for every input string `s`, `resolve(s)`
is the record bound to `normalize(s)` in the forward index, and `null` (`none`)
when `normalize(s)` is not bound; `resolve` is a total function, it cannot
raise. -/
theorem C8_resolve_is_lookup (reg : Registry) (hreach : Reachable reg) (s : Str) :
    resolve reg s = mapGet reg.index (normalize s) :=
  resolve_eq_get_normalize hreach s

/-- C8 after one registration, at the short form of the registered address. -/
theorem C8_resolve_is_lookup_witness :
    resolve (run [.register "person:alex-rivers".toList { title := some "Alex".toList }])
        "person:alex-rivers".toList
      = mapGet (run [.register "person:alex-rivers".toList { title := some "Alex".toList }]).index
          (normalize "person:alex-rivers".toList) :=
  C8_resolve_is_lookup _ ⟨_, rfl⟩ _

/-! ## C9 -/

theorem storeAt_reverseIndex_other (reg : Registry) (u : Str) (r : Metadata) (g : Str)
    (hg : r.file ≠ some g) :
    mapGet (storeAt reg u r).reverseIndex g = mapGet reg.reverseIndex g := by
  unfold storeAt
  cases hf : r.file with
  | none => rfl
  | some f =>
    have hne : g ≠ f := by
      rintro rfl
      exact hg hf
    by_cases ht : truthyStr (some f) = true
    · simp only [ht, if_true]
      exact mapGet_mapSet_ne _ _ _ _ hne
    · simp [ht]

theorem storeAt_reverseIndex_self (reg : Registry) (u : Str) (r : Metadata) (f : Str)
    (hf : r.file = some f) (hne : f ≠ []) :
    mapGet (storeAt reg u r).reverseIndex f = some u := by
  have ht : truthyStr (some f) = true := by
    cases f with
    | nil => exact absurd rfl hne
    | cons c cs => rfl
  unfold storeAt
  simp only [hf, ht, if_true]
  exact mapGet_mapSet_self _ _ _

/-- A source reference that the calls do not register stays unmapped. -/
theorem reverseIndex_unmapped (g : Str) :
    ∀ (cs : List Call) (reg : Registry), mapGet reg.reverseIndex g = none →
      g ∉ registeredFiles reg cs → mapGet (cs.foldl step reg).reverseIndex g = none := by
  intro cs
  induction cs with
  | nil => intro reg h _; exact h
  | cons c cs ih =>
    intro reg h hg
    cases c with
    | clear => exact ih (clear reg) rfl (by simpa [registeredFiles] using hg)
    | register a r =>
      simp only [List.foldl_cons, step]
      cases hres : (register 3 reg a r).1 with
      | error e =>
        have hs := @register_error 0 reg a r e hres
        simp only [registeredFiles, hres] at hg
        exact ih _ (by rw [hs]; exact h) hg
      | ok u =>
        obtain ⟨_, _, hs⟩ := @register_ok 0 reg a r u hres
        cases hf : r.file with
        | none =>
          simp only [registeredFiles, hres, hf] at hg
          refine ih _ ?_ hg
          rw [hs, storeAt_reverseIndex_other reg u r g (by simp [hf])]
          exact h
        | some f =>
          simp only [registeredFiles, hres, hf, List.mem_cons, not_or] at hg
          refine ih _ ?_ hg.2
          rw [hs, storeAt_reverseIndex_other reg u r g (by simpa [hf] using fun e => hg.1 e.symm)]
          exact h

/-- C9 (reverse lookup).  After a successful `register(a, r)` whose record has
a non-empty `file`, `getSemanticUri(r.file)` returns exactly the address
`register` returned, also when that is a disambiguated one; and in every state
produced by a sequence of `register` and `clear` calls, `getSemanticUri`
returns `null` for a source reference that no successful `register` call of
the sequence registered. -/
theorem C9_reverse_lookup :
    (∀ (fuel : Nat) (reg : Registry) (a : Str) (r : Metadata) (f u : Str),
      r.file = some f → f ≠ [] → (register (fuel + 3) reg a r).1 = .ok u →
      getSemanticUri (register (fuel + 3) reg a r).2 f = some u) ∧
    (∀ (calls : List Call) (g : Str),
      g ∉ registeredFiles Registry.empty calls → getSemanticUri (run calls) g = none) := by
  constructor
  · intro fuel reg a r f u hf hne hok
    obtain ⟨_, ⟨g, hg⟩, hs⟩ := register_ok hok
    have hu : u ≠ [] := by
      obtain ⟨v, t, i⟩ := g
      rw [((matchFull_eq_some_iff _ _ _ _).mp hg).1, mkUri_eq]
      simp
    have hue : u.isEmpty = false := by
      cases u with
      | nil => exact absurd rfl hu
      | cons c cs => rfl
    simp [getSemanticUri, hs, storeAt_reverseIndex_self reg u r f hf hne, hue]
  · intro calls g hnever
    have key : mapGet (run calls).reverseIndex g = none :=
      reverseIndex_unmapped g calls Registry.empty rfl hnever
    simp [getSemanticUri, key]

/-- C9 at a collision: the second record registered under `note:x` is stored at
`sem://vault/note/x-2`, and its file `b.md` maps back to that address; the
file `c.md`, carried only by a call that failed, maps to `null`. -/
theorem C9_reverse_lookup_witness :
    getSemanticUri
        (register 3 (run [.register "note:x".toList { file := some "a.md".toList }])
          "note:x".toList { file := some "b.md".toList }).2 "b.md".toList
      = some "sem://vault/note/x-2".toList ∧
    getSemanticUri
        (run [.register "note:x".toList { file := some "a.md".toList },
              .register "no address".toList { file := some "c.md".toList },
              .register "note:x".toList { file := some "b.md".toList }]) "c.md".toList
      = none :=
  ⟨C9_reverse_lookup.1 0 (run [.register "note:x".toList { file := some "a.md".toList }])
      "note:x".toList { file := some "b.md".toList } "b.md".toList
      "sem://vault/note/x-2".toList rfl (by decide) (by decide),
   C9_reverse_lookup.2 _ "c.md".toList (by decide)⟩

/-! ## C10 -/

theorem isSlugChar_not_whiteSpace {c : Char} (h : isSlugChar c = true) :
    isWhiteSpace c = false := by
  simp only [isSlugChar, isLowerAZ, isDigit09, Bool.or_eq_true, Bool.and_eq_true,
    decide_eq_true_eq, beq_iff_eq] at h
  rcases h with (h | h) | h
  · simp only [isWhiteSpace, Bool.or_eq_false_iff, Bool.and_eq_false_iff, beq_eq_false_iff_ne,
      ne_eq, decide_eq_false_iff_not]
    omega
  · simp only [isWhiteSpace, Bool.or_eq_false_iff, Bool.and_eq_false_iff, beq_eq_false_iff_ne,
      ne_eq, decide_eq_false_iff_not]
    omega
  · subst h; decide

theorem spacesToHyphensFrom_slug (inRun : Bool) (s : Str)
    (h : ∀ c ∈ s, isSlugChar c = true ∨ isWhiteSpace c = true) :
    ∀ c ∈ spacesToHyphensFrom inRun s, isSlugChar c = true := by
  induction s generalizing inRun with
  | nil => intro c hc; simp [spacesToHyphensFrom] at hc
  | cons d ds ih =>
    have hds : ∀ c ∈ ds, isSlugChar c = true ∨ isWhiteSpace c = true :=
      fun c hc => h c (List.mem_cons_of_mem _ hc)
    intro c hc
    unfold spacesToHyphensFrom at hc
    by_cases hw : isWhiteSpace d = true
    · simp only [hw, if_true] at hc
      cases inRun with
      | true => exact ih true hds c (by simpa using hc)
      | false =>
        simp only [Bool.false_eq_true, if_false, List.mem_cons] at hc
        rcases hc with rfl | hc
        · decide
        · exact ih true hds c hc
    · simp only [hw, Bool.false_eq_true, if_false, List.mem_cons] at hc
      rcases hc with rfl | hc
      · rcases h c (List.mem_cons_self _ _) with h1 | h1
        · exact h1
        · exact absurd h1 hw
      · exact ih false hds c hc

theorem collapseHyphensFrom_subset (inRun : Bool) (s : Str) :
    ∀ c ∈ collapseHyphensFrom inRun s, c ∈ s := by
  induction s generalizing inRun with
  | nil => intro c hc; simp [collapseHyphensFrom] at hc
  | cons d ds ih =>
    intro c hc
    unfold collapseHyphensFrom at hc
    by_cases hd : d = '-'
    · simp only [hd, if_true] at hc
      cases inRun with
      | true => exact List.mem_cons_of_mem _ (ih true c (by simpa using hc))
      | false =>
        simp only [Bool.false_eq_true, if_false, List.mem_cons] at hc
        rcases hc with rfl | hc
        · simp [hd]
        · exact List.mem_cons_of_mem _ (ih true c hc)
    · simp only [hd, if_false, List.mem_cons] at hc
      rcases hc with rfl | hc
      · exact List.mem_cons_self _ _
      · exact List.mem_cons_of_mem _ (ih false c hc)

theorem trimHyphens_sublist (s : Str) : List.Sublist (trimHyphens s) s := by
  have h1 : List.Sublist (match s with
      | '-' :: rest => rest
      | _ => s) s := by
    split
    · exact List.sublist_cons_self _ _
    · exact List.Sublist.refl _
  unfold trimHyphens
  simp only
  split
  · exact (List.dropLast_sublist _).trans h1
  · exact h1

/-- Every character of a slug is in `[a-z0-9-]`. -/
theorem createSlug_slugChars (toLowerCase : Str → Str) (title : Str) :
    ∀ c ∈ createSlug toLowerCase title, isSlugChar c = true := by
  intro c hc
  unfold createSlug at hc
  have h1 := (trimHyphens_sublist _).subset (List.mem_of_mem_take hc)
  have h2 := collapseHyphensFrom_subset false _ c h1
  refine spacesToHyphensFrom_slug false _ ?_ c h2
  intro d hd
  have := (List.mem_filter.mp hd).2
  simp only [Bool.or_eq_true, beq_iff_eq] at this
  simp only [isSlugChar, Bool.or_eq_true, beq_iff_eq]
  tauto

/-- C10 (slug shape).  For every title (and whatever `toLowerCase` returns for
it), `createSlug(title)` has length at most 50 and all its characters are in
`a-z`, `0-9` or `-`; none of them is white space or a slash. -/
theorem C10_slug_shape (toLowerCase : Str → Str) (title : Str) :
    (createSlug toLowerCase title).length ≤ 50 ∧
    (createSlug toLowerCase title).all isSlugChar = true ∧
    (createSlug toLowerCase title).all (fun c => !isWhiteSpace c && c != '/') = true := by
  refine ⟨?_, ?_, ?_⟩
  · unfold createSlug
    exact List.length_take_le _ _
  · rw [List.all_eq_true]
    exact createSlug_slugChars toLowerCase title
  · rw [List.all_eq_true]
    intro c hc
    have hs := createSlug_slugChars toLowerCase title c hc
    simp [isSlugChar_not_whiteSpace hs, isSlugChar_ne_slash hs]

/-! ## C11 -/

theorem mem_spacesToHyphensFrom_of_not_whiteSpace (inRun : Bool) (s : Str) (c : Char)
    (hc : c ∈ s) (hw : isWhiteSpace c = false) : c ∈ spacesToHyphensFrom inRun s := by
  induction s generalizing inRun with
  | nil => simp at hc
  | cons d ds ih =>
    unfold spacesToHyphensFrom
    rcases List.mem_cons.mp hc with rfl | h
    · simp [hw]
    · by_cases hd : isWhiteSpace d = true
      · cases inRun <;> simp [hd, ih true h]
      · simp [hd, ih false h]

theorem mem_collapseHyphensFrom_of_ne (inRun : Bool) (s : Str) (c : Char)
    (hc : c ∈ s) (hne : c ≠ '-') : c ∈ collapseHyphensFrom inRun s := by
  induction s generalizing inRun with
  | nil => simp at hc
  | cons d ds ih =>
    unfold collapseHyphensFrom
    rcases List.mem_cons.mp hc with rfl | h
    · simp [hne]
    · by_cases hd : d = '-'
      · cases inRun <;> simp [hd, ih true h]
      · simp [hd, ih false h]

theorem mem_dropLast_of_ne_getLast (s : Str) (c x : Char) (hc : c ∈ s)
    (hl : s.getLast? = some x) (hne : c ≠ x) : c ∈ s.dropLast := by
  induction s with
  | nil => simp at hc
  | cons d ds ih =>
    cases ds with
    | nil =>
      simp only [List.getLast?_singleton, Option.some.injEq] at hl
      simp only [List.mem_singleton] at hc
      exact absurd (hc.trans hl) hne
    | cons e es =>
      rw [List.getLast?_cons_cons] at hl
      rw [List.dropLast_cons₂]
      rcases List.mem_cons.mp hc with rfl | h
      · exact List.mem_cons_self _ _
      · exact List.mem_cons_of_mem _ (ih h hl)

theorem mem_trimHyphens_of_ne (s : Str) (c : Char) (hc : c ∈ s) (hne : c ≠ '-') :
    c ∈ trimHyphens s := by
  have h1 : c ∈ (match s with
      | '-' :: rest => rest
      | _ => s) := by
    split
    · next rest =>
      rcases List.mem_cons.mp hc with h | h
      · exact absurd h hne
      · exact h
    · exact hc
  unfold trimHyphens
  simp only
  split
  · next hl => exact mem_dropLast_of_ne_getLast _ c '-' h1 hl hne
  · exact h1

theorem spacesToHyphensFrom_all_hyphen (inRun : Bool) (s : Str)
    (h : ∀ c ∈ s, isWhiteSpace c = true ∨ c = '-') :
    ∀ c ∈ spacesToHyphensFrom inRun s, c = '-' := by
  induction s generalizing inRun with
  | nil => intro c hc; simp [spacesToHyphensFrom] at hc
  | cons d ds ih =>
    have hds : ∀ c ∈ ds, isWhiteSpace c = true ∨ c = '-' :=
      fun c hc => h c (List.mem_cons_of_mem _ hc)
    intro c hc
    unfold spacesToHyphensFrom at hc
    by_cases hw : isWhiteSpace d = true
    · simp only [hw, if_true] at hc
      cases inRun with
      | true => exact ih true hds c (by simpa using hc)
      | false =>
        simp only [Bool.false_eq_true, if_false, List.mem_cons] at hc
        rcases hc with rfl | hc
        · rfl
        · exact ih true hds c hc
    · simp only [hw, Bool.false_eq_true, if_false, List.mem_cons] at hc
      rcases hc with rfl | hc
      · rcases h c (List.mem_cons_self _ _) with h1 | h1
        · exact absurd h1 hw
        · exact h1
      · exact ih false hds c hc

theorem collapseHyphensFrom_all_hyphen (s : Str) (h : ∀ c ∈ s, c = '-') :
    collapseHyphensFrom true s = [] ∧
      (collapseHyphensFrom false s = [] ∨ collapseHyphensFrom false s = ['-']) := by
  induction s with
  | nil => simp [collapseHyphensFrom]
  | cons d ds ih =>
    have hd : d = '-' := h d (List.mem_cons_self _ _)
    have hds := ih (fun c hc => h c (List.mem_cons_of_mem _ hc))
    subst hd
    simp [collapseHyphensFrom, hds.1]

/-- When a slug is empty: exactly when the lower-cased title holds no
character of `a-z` or `0-9`. -/
theorem createSlug_eq_nil_iff (toLowerCase : Str → Str) (title : Str) :
    createSlug toLowerCase title = [] ↔ ∀ c ∈ toLowerCase title, isAlnum c = false := by
  constructor
  · intro h c hc
    by_contra hal
    have hal2 : isAlnum c = true := by simpa using hal
    have hslug : isSlugChar c = true := by
      simp only [isAlnum, Bool.or_eq_true] at hal2
      simp only [isSlugChar, Bool.or_eq_true]
      exact Or.inl hal2
    have hne : c ≠ '-' := by
      rintro rfl
      exact absurd hal2 (by decide)
    have h1 : c ∈ (toLowerCase title).filter
        (fun c => isLowerAZ c || isDigit09 c || isWhiteSpace c || c == '-') := by
      simp only [isAlnum, Bool.or_eq_true] at hal2
      simp only [List.mem_filter, Bool.or_eq_true, beq_iff_eq]
      exact ⟨hc, by tauto⟩
    have h2 := mem_spacesToHyphensFrom_of_not_whiteSpace false _ c h1
      (isSlugChar_not_whiteSpace hslug)
    have h3 := mem_collapseHyphensFrom_of_ne false _ c h2 hne
    have h4 := mem_trimHyphens_of_ne _ c h3 hne
    unfold createSlug at h
    rw [List.take_eq_nil_iff] at h
    rcases h with h | h
    · exact absurd h (by decide)
    · unfold collapseHyphens spacesToHyphens at h
      rw [h] at h4
      simp at h4
  · intro h
    have h1 : ∀ c ∈ (toLowerCase title).filter
        (fun c => isLowerAZ c || isDigit09 c || isWhiteSpace c || c == '-'),
        isWhiteSpace c = true ∨ c = '-' := by
      intro c hc
      obtain ⟨hm, hp⟩ := List.mem_filter.mp hc
      have := h c hm
      simp only [isAlnum, Bool.or_eq_false_iff] at this
      simp only [this.1, this.2, Bool.or_eq_true, beq_iff_eq, Bool.false_eq_true, false_or] at hp
      exact hp
    have h2 := spacesToHyphensFrom_all_hyphen false _ h1
    have h3 := (collapseHyphensFrom_all_hyphen _ h2).2
    unfold createSlug collapseHyphens spacesToHyphens
    rcases h3 with h3 | h3 <;> rw [h3] <;> rfl

/-- C11 as stated fails: the title `!!!` (as the empty title) has the empty
slug, `generate` returns `sem://vault/note/` for it, and `parse` rejects that
address. -/
theorem C11_empty_slug :
    createSlug toLowerCaseAscii "!!!".toList = [] ∧
    createSlug toLowerCaseAscii [] = [] ∧
    generate toLowerCaseAscii Registry.empty "!!!".toList "note".toList
      = "sem://vault/note/".toList ∧
    parse (generate toLowerCaseAscii Registry.empty "!!!".toList "note".toList) = none := by
  decide

/-- C11 amended.  For every title whose lower-cased form holds at least one
character of `a-z` or `0-9`, `createSlug(title)` is not the empty string; for
every other title it is empty. -/
theorem C11_slug_nonempty_iff (toLowerCase : Str → Str) (title : Str) :
    ((∃ c ∈ toLowerCase title, isAlnum c = true) → createSlug toLowerCase title ≠ []) ∧
    ((∀ c ∈ toLowerCase title, isAlnum c = false) → createSlug toLowerCase title = []) := by
  constructor
  · rintro ⟨c, hc, hal⟩ h
    have := (createSlug_eq_nil_iff toLowerCase title).mp h c hc
    rw [this] at hal
    exact absurd hal (by simp)
  · exact (createSlug_eq_nil_iff toLowerCase title).mpr

/-- C11 amended, at the titles `Systems Thinking` and `!!!`. -/
theorem C11_slug_nonempty_iff_witness :
    createSlug toLowerCaseAscii "Systems Thinking".toList ≠ [] ∧
    createSlug toLowerCaseAscii "!!!".toList = [] :=
  ⟨(C11_slug_nonempty_iff toLowerCaseAscii "Systems Thinking".toList).1 ⟨'s', by decide, by decide⟩,
   (C11_slug_nonempty_iff toLowerCaseAscii "!!!".toList).2 (by decide)⟩

/-! ## C12 -/

theorem collapseHyphensFrom_chain (inRun : Bool) (s : Str) :
    List.Chain' (fun a b => ¬ (a = '-' ∧ b = '-')) (collapseHyphensFrom inRun s) ∧
      (inRun = true → (collapseHyphensFrom inRun s).head? ≠ some '-') := by
  induction s generalizing inRun with
  | nil => simp [collapseHyphensFrom]
  | cons d ds ih =>
    unfold collapseHyphensFrom
    by_cases hd : d = '-'
    · cases inRun with
      | true => simpa [hd] using ih true
      | false =>
        simp only [hd, if_true, Bool.false_eq_true, if_false, false_implies, and_true]
        refine List.Chain'.cons' (ih true).1 ?_
        intro y hy
        have := (ih true).2 rfl
        rintro ⟨_, rfl⟩
        exact this (by simpa using hy)
    · simp only [hd, if_false]
      refine ⟨List.Chain'.cons' (ih false).1 (fun y _ h => hd h.1), ?_⟩
      intro _
      simp [hd]

theorem trimHyphens_hygiene (s : Str) :
    List.Chain' (fun a b => ¬ (a = '-' ∧ b = '-')) s →
    List.Chain' (fun a b => ¬ (a = '-' ∧ b = '-')) (trimHyphens s) ∧
      (trimHyphens s).head? ≠ some '-' ∧ (trimHyphens s).getLast? ≠ some '-' := by
  have h1 : List.Chain' (fun a b => ¬ (a = '-' ∧ b = '-')) s →
      List.Chain' (fun a b => ¬ (a = '-' ∧ b = '-')) (match s with
      | '-' :: rest => rest
      | _ => s) ∧ (match s with
      | '-' :: rest => rest
      | _ => s).head? ≠ some '-' := by
    intro hs
    split
    · next rest =>
      refine ⟨hs.tail, ?_⟩
      intro hh
      cases rest with
      | nil => simp at hh
      | cons y ys =>
        simp only [List.head?_cons, Option.some.injEq] at hh
        exact (List.chain'_cons.mp hs).1 ⟨rfl, hh⟩
    · next hnot =>
      refine ⟨hs, ?_⟩
      intro hh
      cases s with
      | nil => simp at hh
      | cons y ys =>
        simp only [List.head?_cons, Option.some.injEq] at hh
        exact hnot ys (by rw [hh])
  unfold trimHyphens
  simp only
  generalize (match s with
      | '-' :: rest => rest
      | _ => s) = s1 at h1
  intro hs
  obtain ⟨hc, hh⟩ := h1 hs
  split
  · next hl =>
    obtain ⟨ys, rfl⟩ := List.getLast?_eq_some_iff.mp hl
    rw [List.dropLast_concat]
    refine ⟨ List.Chain'.prefix hc (List.prefix_append _ _), ?_, ?_⟩
    · intro h2
      apply hh
      cases ys with
      | nil => simp at h2
      | cons y zs => simpa using h2
    · intro h2
      obtain ⟨zs, rfl⟩ := List.getLast?_eq_some_iff.mp h2
      have h3 : List.Chain' (fun a b => ¬ (a = '-' ∧ b = '-')) ['-', '-'] :=
        hc.suffix ⟨zs, by simp⟩
      exact (List.chain'_cons.mp h3).1 ⟨rfl, rfl⟩
  · next hl => exact ⟨hc, hh, hl⟩

/-- What the hyphen passes of `createSlug` do achieve: a slug never starts
with a hyphen and never holds two hyphens in a row, and it does not end with a
hyphen when `substring(0, 50)` cuts nothing off. -/
theorem createSlug_hyphen_hygiene (toLowerCase : Str → Str) (title : Str) :
    (createSlug toLowerCase title).head? ≠ some '-' ∧
    List.Chain' (fun a b => ¬ (a = '-' ∧ b = '-')) (createSlug toLowerCase title) ∧
    ((trimHyphens (collapseHyphens (spacesToHyphens ((toLowerCase title).filter
        (fun c => isLowerAZ c || isDigit09 c || isWhiteSpace c || c == '-'))))).length ≤ 50 →
      (createSlug toLowerCase title).getLast? ≠ some '-') := by
  have h := trimHyphens_hygiene _ (collapseHyphensFrom_chain false
    (spacesToHyphens ((toLowerCase title).filter
      (fun c => isLowerAZ c || isDigit09 c || isWhiteSpace c || c == '-')))).1
  unfold createSlug collapseHyphens
  refine ⟨?_, h.1.take 50, ?_⟩
  · rw [List.head?_take]
    simpa using h.2.1
  · intro hlen
    rw [List.take_of_length_le hlen]
    exact h.2.2

/-- C12, the code at the failing input.  The title of 49 letters `a`, a blank
and the letter `b` passes the hyphen trim as `aaa…a-b` (51 characters), and
`substring(0, 50)` then cuts it to `aaa…a-`: the slug ends with a hyphen. -/
theorem C12_truncated_slug_ends_with_hyphen :
    createSlug toLowerCaseAscii longTitle = List.replicate 49 'a' ++ "-".toList ∧
    (createSlug toLowerCaseAscii longTitle).getLast? = some '-' := by
  decide

/-! ## C13 -/

/-- The vault name of a reachable state is `vault`. -/
theorem reachable_vaultName {reg : Registry} (h : Reachable reg) :
    reg.vaultName = "vault".toList := by
  obtain ⟨calls, rfl⟩ := h
  refine run_induction (fun reg => reg.vaultName = "vault".toList) rfl ?_ calls
  intro reg c ih
  cases c with
  | clear => exact ih
  | register a r =>
    simp only [step]
    rcases register_state 0 reg a r with hs | ⟨u, _, _, hs⟩
    · rw [hs]; exact ih
    · rw [hs]; exact ih

/-- C13 (generate/parse round trip).  In a system whose vault name is `vault`
(every reachable state), for every title whose slug is not empty and every
non-empty type without a slash, `parse(generate(title, type))` succeeds and
returns the vault `vault`, the type, the id `createSlug(title)` and the uri
`generate(title, type)`. -/
theorem C13_generate_parse_round_trip (toLowerCase : Str → Str) (reg : Registry)
    (hv : reg.vaultName = "vault".toList) (title type : Str)
    (hslug : createSlug toLowerCase title ≠ []) (ht : type ≠ []) (hts : '/' ∉ type) :
    parse (generate toLowerCase reg title type)
      = some ⟨"vault".toList, type, createSlug toLowerCase title,
          generate toLowerCase reg title type⟩ := by
  apply parse_of_matchFull
  rw [matchFull_eq_some_iff]
  refine ⟨by rw [generate, hv], by decide, by decide, ht, hts, hslug, ?_⟩
  intro c hc
  exact isSlugChar_not_lineTerminator (createSlug_slugChars toLowerCase title c hc)

/-- C13 at the title `Systems Thinking` and the type `concept`, the example of
`mvp_tester.js`: the generated address is `sem://vault/concept/systems-thinking`
and it parses to its parts. -/
theorem C13_generate_parse_round_trip_witness :
    generate toLowerCaseAscii Registry.empty "Systems Thinking".toList "concept".toList
      = "sem://vault/concept/systems-thinking".toList ∧
    parse (generate toLowerCaseAscii Registry.empty "Systems Thinking".toList "concept".toList)
      = some ⟨"vault".toList, "concept".toList,
          createSlug toLowerCaseAscii "Systems Thinking".toList,
          generate toLowerCaseAscii Registry.empty "Systems Thinking".toList "concept".toList⟩ :=
  ⟨by decide,
   C13_generate_parse_round_trip toLowerCaseAscii Registry.empty rfl "Systems Thinking".toList
    "concept".toList (by decide) (by decide) (by decide)⟩

/-! ## C19 -/

/-- A key `s-to-t` equals a key built from two hyphen-free parts only when
the parts agree. -/
theorem relationKey_inj (s t ks kt : Str) (hks : '-' ∉ ks) (hkt : '-' ∉ kt)
    (h : s ++ "-to-".toList ++ t = ks ++ "-to-".toList ++ kt) : s = ks ∧ t = kt := by
  have hcount := congrArg (List.count '-') h
  simp only [List.count_append, List.count_eq_zero_of_not_mem hks,
    List.count_eq_zero_of_not_mem hkt] at hcount
  have h2 : List.count '-' "-to-".toList = 2 := by decide
  rw [h2] at hcount
  have hs : '-' ∉ s := by
    intro hm
    have := List.count_pos_iff.mpr hm
    omega
  have hpos : ∀ (l : Str), '-' ∉ l → ∀ a ∈ l, (fun c => c != '-') a = true := by
    intro l hl a ha
    simp only [bne_iff_ne, ne_eq]
    rintro rfl
    exact hl ha
  have htake := congrArg (List.takeWhile (fun c => c != '-')) h
  rw [List.append_assoc, List.append_assoc, List.takeWhile_append_of_pos (hpos s hs),
    List.takeWhile_append_of_pos (hpos ks hks)] at htake
  have hst : s = ks := by simpa using htake
  subst hst
  rw [List.append_assoc, List.append_assoc] at h
  exact ⟨rfl, List.append_cancel_left (List.append_cancel_left h)⟩

theorem relationKey_eq_iff (s t ks kt : Str) (hks : '-' ∉ ks) (hkt : '-' ∉ kt) :
    ks ++ "-to-".toList ++ kt = s ++ "-to-".toList ++ t ↔ s = ks ∧ t = kt := by
  constructor
  · intro h; exact relationKey_inj s t ks kt hks hkt h.symm
  · rintro ⟨rfl, rfl⟩; rfl

/-- The lookup in `typeWeights` with the default `0.5` is the table of the
specification. -/
theorem typeWeights_lookup (s t : Str) :
    (match mapGet typeWeights (s ++ "-to-".toList ++ t) with
      | some weight => weight
      | none => 5 / 10) = typeWeightTable s t := by
  have e1 := relationKey_eq_iff s t "concept".toList "skill".toList (by decide) (by decide)
  have e2 := relationKey_eq_iff s t "skill".toList "action".toList (by decide) (by decide)
  have e3 := relationKey_eq_iff s t "action".toList "outcome".toList (by decide) (by decide)
  have e4 := relationKey_eq_iff s t "resource".toList "action".toList (by decide) (by decide)
  have e5 := relationKey_eq_iff s t "goal".toList "strategy".toList (by decide) (by decide)
  have e6 := relationKey_eq_iff s t "strategy".toList "tactic".toList (by decide) (by decide)
  have k1 : "concept-to-skill".toList = "concept".toList ++ "-to-".toList ++ "skill".toList := rfl
  have k2 : "skill-to-action".toList = "skill".toList ++ "-to-".toList ++ "action".toList := rfl
  have k3 : "action-to-outcome".toList
      = "action".toList ++ "-to-".toList ++ "outcome".toList := rfl
  have k4 : "resource-to-action".toList
      = "resource".toList ++ "-to-".toList ++ "action".toList := rfl
  have k5 : "goal-to-strategy".toList = "goal".toList ++ "-to-".toList ++ "strategy".toList := rfl
  have k6 : "strategy-to-tactic".toList
      = "strategy".toList ++ "-to-".toList ++ "tactic".toList := rfl
  unfold typeWeights typeWeightTable mapGet
  rw [k1, k2, k3, k4, k5, k6]
  simp only [mapGet, e1, e2, e3, e4, e5, e6]
  split_ifs <;> rfl

theorem parse_type_ne_nil {a : Str} {p : Parsed} (h : parse a = some p) : p.type ≠ [] :=
  ((matchFull_eq_some_iff _ _ _ _).mp (parse_matchFull_uri h)).2.2.2.1

theorem typeOrUnknown_of_parse {a : Str} {p : Parsed} (h : parse a = some p) :
    typeOrUnknown (some a) = .ok p.type := by
  have hne := parse_type_ne_nil h
  have : p.type.isEmpty = false := by
    cases hp : p.type with
    | nil => exact absurd hp hne
    | cons c cs => rfl
  simp [typeOrUnknown, h, this]

/-- C19 (type-compatibility table).  For every source record and target
record that carry parseable addresses (`semanticUri || uri`) of types `s` and
`t`, `calculateTypeCompatibility(source, target)` returns the table weight of
the pair `(s, t)`: the listed weight for the six listed pairs and `0.5` for
every other pair. -/
theorem C19_type_compatibility_table (source target : Metadata) (a b : Str) (ps pt : Parsed)
    (ha : addressOf source = some a) (hpa : parse a = some ps)
    (hb : addressOf target = some b) (hpb : parse b = some pt) :
    calculateTypeCompatibility source target = .ok (typeWeightTable ps.type pt.type) := by
  unfold calculateTypeCompatibility
  rw [ha, hb, typeOrUnknown_of_parse hpa, typeOrUnknown_of_parse hpb]
  simp only
  rw [← typeWeights_lookup]
  cases mapGet typeWeights (ps.type ++ "-to-".toList ++ pt.type) <;> rfl

/-- C19 at a skill record and an action record: the weight is `0.9`; and at
two notes: the weight is `0.5`. -/
theorem C19_type_compatibility_table_witness :
    calculateTypeCompatibility { uri := some "sem://vault/skill/pie-crust".toList }
        { semanticUri := some "action:bake".toList } = .ok (9 / 10) ∧
    calculateTypeCompatibility { uri := some "note:a".toList }
        { uri := some "note:b".toList } = .ok (5 / 10) :=
  ⟨C19_type_compatibility_table { uri := some "sem://vault/skill/pie-crust".toList }
      { semanticUri := some "action:bake".toList } "sem://vault/skill/pie-crust".toList
      "action:bake".toList
      ⟨"vault".toList, "skill".toList, "pie-crust".toList, "sem://vault/skill/pie-crust".toList⟩
      ⟨"vault".toList, "action".toList, "bake".toList, "sem://vault/action/bake".toList⟩
      (by decide) (by decide) (by decide) (by decide),
   C19_type_compatibility_table { uri := some "note:a".toList } { uri := some "note:b".toList }
      "note:a".toList "note:b".toList
      ⟨"vault".toList, "note".toList, "a".toList, "sem://vault/note/a".toList⟩
      ⟨"vault".toList, "note".toList, "b".toList, "sem://vault/note/b".toList⟩
      (by decide) (by decide) (by decide) (by decide)⟩

/-! ## Lemmas on `findRelated` -/

theorem mem_sliceTo {α : Type} {l : List α} {limit : Int} {x : α} (h : x ∈ sliceTo l limit) :
    x ∈ l := by
  unfold sliceTo at h
  split at h <;> exact List.mem_of_mem_take h

theorem length_sliceTo_le {α : Type} (l : List α) (n : Nat) :
    (sliceTo l (n : Int)).length ≤ n := by
  unfold sliceTo
  have : ¬ ((n : Int) < 0) := by omega
  simp only [this, if_false, Int.toNat_ofNat]
  exact List.length_take_le _ _

theorem sliceTo_natCast {α : Type} (l : List α) (n : Nat) :
    sliceTo l (n : Int) = l.take (min n l.length) := by
  unfold sliceTo
  have : ¬ ((n : Int) < 0) := by omega
  simp only [this, if_false, Int.toNat_ofNat]
  rcases Nat.le_total n l.length with h | h
  · rw [Nat.min_eq_left h]
  · rw [Nat.min_eq_right h, List.take_of_length_le h, List.take_of_length_le (le_refl _)]

theorem mem_jsSort {α : Type} (compare : α → α → Option ℚ) (l : List α) (x : α) :
    x ∈ jsSort compare l ↔ x ∈ l :=
  List.mem_insertionSort _

theorem perm_jsSort {α : Type} (compare : α → α → Option ℚ) (l : List α) :
    (jsSort compare l).Perm l :=
  List.perm_insertionSort _ l

theorem findRelated_eq_ranked (toLowerCase : Str → Str) (reg : Registry) (semUri : Str)
    (limit : Int) (context : Context) :
    findRelated toLowerCase reg semUri limit context
      = match rankedCandidates toLowerCase reg semUri context with
        | .error e => .error e
        | .ok l => .ok (sliceTo l limit) := by
  unfold findRelated rankedCandidates
  cases resolve reg semUri with
  | none => simp [sliceTo]
  | some target =>
    simp only
    cases collectCandidates toLowerCase reg semUri target with
    | error e => rfl
    | ok candidates =>
      simp only
      cases context.pathfindingMode <;> simp

/-- What `rankedCandidates` returns is a rearrangement of the collected
candidates. -/
theorem rankedCandidates_ok {toLowerCase : Str → Str} {reg : Registry} {semUri : Str}
    {context : Context} {l : List Candidate}
    (h : rankedCandidates toLowerCase reg semUri context = .ok l) :
    (resolve reg semUri = none ∧ l = []) ∨
    ∃ target candidates, resolve reg semUri = some target ∧
      collectCandidates toLowerCase reg semUri target = .ok candidates ∧
      l = (if context.pathfindingMode then sortForPathfinding candidates context
           else jsSort compareScore candidates) ∧ l.Perm candidates := by
  unfold rankedCandidates at h
  cases hr : resolve reg semUri with
  | none =>
    simp only [hr, Except.ok.injEq] at h
    exact Or.inl ⟨rfl, h.symm⟩
  | some target =>
    simp only [hr] at h
    cases hc : collectCandidates toLowerCase reg semUri target with
    | error e => simp [hc] at h
    | ok candidates =>
      simp only [hc] at h
      right
      refine ⟨target, candidates, rfl, hc, ?_, ?_⟩
      · cases hm : context.pathfindingMode <;> simp [hm] at h ⊢ <;> exact h.symm
      · cases hm : context.pathfindingMode
        · simp only [hm, Bool.false_eq_true, if_false, Except.ok.injEq] at h
          rw [← h]; exact perm_jsSort _ _
        · simp only [hm, if_true, Except.ok.injEq] at h
          rw [← h]; exact perm_jsSort _ _

/-- Every error of the second loop is the `TypeError`. -/
theorem similarityCandidates_error (toLowerCase : Str → Str) (semUri : Str) (target : Metadata)
    (index : List (Str × Metadata)) (e : RegError)
    (h : similarityCandidates toLowerCase semUri target index = .error e) : e = .typeError := by
  induction index with
  | nil => simp [similarityCandidates] at h
  | cons entry rest ih =>
    obtain ⟨u, md⟩ := entry
    unfold similarityCandidates at h
    split at h
    · exact ih h
    · simp only at h
      split at h
      · cases hc : calculateTypeCompatibility target md with
        | error e1 =>
          simp only [hc, Except.error.injEq] at h
          subst h
          unfold calculateTypeCompatibility at hc
          cases h1 : typeOrUnknown (addressOf target) with
          | error e2 =>
            simp only [h1, Except.error.injEq] at hc
            subst hc
            unfold typeOrUnknown at h1
            split at h1
            · simpa using h1.symm
            · split at h1
              · split at h1 <;> simp at h1
              · simp at h1
          | ok st =>
            simp only [h1] at hc
            cases h2 : typeOrUnknown (addressOf md) with
            | error e2 =>
              simp only [h2, Except.error.injEq] at hc
              subst hc
              unfold typeOrUnknown at h2
              split at h2
              · simpa using h2.symm
              · split at h2
                · split at h2 <;> simp at h2
                · simp at h2
            | ok tt =>
              simp only [h2] at hc
              split at hc <;> simp at hc
        | ok t =>
          simp only [hc] at h
          cases hr : similarityCandidates toLowerCase semUri target rest with
          | error e1 =>
            simp only [hr, Except.error.injEq] at h
            subst h
            exact ih hr
          | ok more => simp [hr] at h
      · exact ih h

/-- The members of a successful second loop: one similarity candidate for
every entry other than `semUri` whose overlap count is above 2. -/
theorem mem_similarityCandidates (toLowerCase : Str → Str) (semUri : Str) (target : Metadata)
    (index : List (Str × Metadata)) (l : List Candidate)
    (h : similarityCandidates toLowerCase semUri target index = .ok l) (c : Candidate) :
    c ∈ l ↔ ∃ u md t, (u, md) ∈ index ∧ u ≠ semUri ∧
      overlapCount toLowerCase target md > 2 ∧
      calculateTypeCompatibility target md = .ok t ∧
      c = similarityCandidate u md (overlapCount toLowerCase target md) t := by
  induction index generalizing l with
  | nil =>
    simp only [similarityCandidates, Except.ok.injEq] at h
    subst h
    simp
  | cons entry rest ih =>
    obtain ⟨u0, md0⟩ := entry
    unfold similarityCandidates at h
    by_cases hu : u0 = semUri
    · simp only [hu, if_true] at h
      rw [ih l h]
      constructor
      · rintro ⟨u, md, t, hm, rest⟩
        exact ⟨u, md, t, List.mem_cons_of_mem _ hm, rest⟩
      · rintro ⟨u, md, t, hm, hne, rest⟩
        rcases List.mem_cons.mp hm with h1 | h1
        · simp only [Prod.mk.injEq] at h1
          exact absurd (h1.1.trans hu) hne
        · exact ⟨u, md, t, h1, hne, rest⟩
    · simp only [hu, if_false] at h
      by_cases hn : overlapCount toLowerCase target md0 > 2
      · have hn2 : (overlapWords (wordSet toLowerCase (contentOrEmpty target))
            (wordSet toLowerCase (contentOrEmpty md0))).length > 2 := hn
        simp only [hn2, if_true] at h
        cases hc : calculateTypeCompatibility target md0 with
        | error e => simp [hc] at h
        | ok t0 =>
          simp only [hc] at h
          cases hr : similarityCandidates toLowerCase semUri target rest with
          | error e => simp [hr] at h
          | ok more =>
            simp only [hr, Except.ok.injEq] at h
            subst h
            rw [List.mem_cons, ih more hr]
            constructor
            · rintro (h1 | ⟨u, md, t, hm, rest⟩)
              · exact ⟨u0, md0, t0, List.mem_cons_self _ _, hu, hn, hc, h1⟩
              · exact ⟨u, md, t, List.mem_cons_of_mem _ hm, rest⟩
            · rintro ⟨u, md, t, hm, hne, hgt, hct, hceq⟩
              rcases List.mem_cons.mp hm with h1 | h1
              · simp only [Prod.mk.injEq] at h1
                obtain ⟨rfl, rfl⟩ := h1
                rw [hc] at hct
                simp only [Except.ok.injEq] at hct
                subst hct
                exact Or.inl hceq
              · exact Or.inr ⟨u, md, t, h1, hne, hgt, hct, hceq⟩
      · have hn2 : ¬ (overlapWords (wordSet toLowerCase (contentOrEmpty target))
            (wordSet toLowerCase (contentOrEmpty md0))).length > 2 := hn
        simp only [hn2, if_false] at h
        rw [ih l h]
        constructor
        · rintro ⟨u, md, t, hm, rest⟩
          exact ⟨u, md, t, List.mem_cons_of_mem _ hm, rest⟩
        · rintro ⟨u, md, t, hm, hne, hgt, rest⟩
          rcases List.mem_cons.mp hm with h1 | h1
          · simp only [Prod.mk.injEq] at h1
            obtain ⟨rfl, rfl⟩ := h1
            exact absurd hgt hn
          · exact ⟨u, md, t, h1, hne, hgt, rest⟩

/-- The members of the first loop. -/
theorem mem_backlinkCandidates (index : List (Str × Metadata)) (semUri : Str) (c : Candidate) :
    c ∈ backlinkCandidates index semUri ↔ ∃ u md, (u, md) ∈ index ∧ u ≠ semUri ∧
      (∃ link ∈ extractSemanticLinks (contentOrEmpty md), link.uri = semUri) ∧
      c = backlinkCandidate u md := by
  unfold backlinkCandidates
  rw [List.mem_filterMap]
  constructor
  · rintro ⟨⟨u, md⟩, hm, hsome⟩
    simp only at hsome
    split at hsome
    · simp at hsome
    · next hne =>
      split at hsome
      · next hany =>
        simp only [Option.some.injEq] at hsome
        simp only [List.any_eq_true, beq_iff_eq] at hany
        exact ⟨u, md, hm, hne, hany, hsome.symm⟩
      · simp at hsome
  · rintro ⟨u, md, hm, hne, hlink, rfl⟩
    refine ⟨(u, md), hm, ?_⟩
    have hany : (extractSemanticLinks (contentOrEmpty md)).any (fun link => link.uri == semUri)
        = true := by
      simp only [List.any_eq_true, beq_iff_eq]
      exact hlink
    simp [hne, hany]

/-- A type compatibility that is returned is one of the table values or the
default: it lies between 0 and 1. -/
theorem calculateTypeCompatibility_range {source target : Metadata} {t : ℚ}
    (h : calculateTypeCompatibility source target = .ok t) : 0 ≤ t ∧ t ≤ 1 := by
  unfold calculateTypeCompatibility at h
  split at h
  · simp at h
  · split at h
    · simp at h
    · simp only at h
      split at h
      · next w hw =>
        simp only [Except.ok.injEq] at h
        subst h
        have hm := mapGet_some_mem _ _ _ hw
        simp only [typeWeights, List.mem_cons, Prod.mk.injEq, List.mem_singleton,
          List.not_mem_nil, or_false] at hm
        rcases hm with h1 | h1 | h1 | h1 | h1 | h1 <;> rw [h1.2] <;> norm_num
      · simp only [Except.ok.injEq] at h
        subst h
        norm_num

theorem collectCandidates_ok {toLowerCase : Str → Str} {reg : Registry} {semUri : Str}
    {target : Metadata} {candidates : List Candidate}
    (h : collectCandidates toLowerCase reg semUri target = .ok candidates) :
    ∃ similar, similarityCandidates toLowerCase semUri target reg.index = .ok similar ∧
      candidates = backlinkCandidates reg.index semUri ++ similar := by
  unfold collectCandidates at h
  cases hs : similarityCandidates toLowerCase semUri target reg.index with
  | error e => simp [hs] at h
  | ok similar =>
    simp only [hs, Except.ok.injEq] at h
    exact ⟨similar, rfl, h.symm⟩

/-- Every candidate `findRelated` returns comes from one of its two loops. -/
theorem findRelated_mem_cases {toLowerCase : Str → Str} {reg : Registry} {semUri : Str}
    {limit : Int} {context : Context} {result : List Candidate}
    (h : findRelated toLowerCase reg semUri limit context = .ok result) {c : Candidate}
    (hc : c ∈ result) :
    ∃ target, resolve reg semUri = some target ∧
      (c ∈ backlinkCandidates reg.index semUri ∨
       ∃ similar, similarityCandidates toLowerCase semUri target reg.index = .ok similar ∧
         c ∈ similar) := by
  rw [findRelated_eq_ranked] at h
  cases hr : rankedCandidates toLowerCase reg semUri context with
  | error e => simp [hr] at h
  | ok l =>
    simp only [hr, Except.ok.injEq] at h
    subst h
    have hcl := mem_sliceTo hc
    rcases rankedCandidates_ok hr with ⟨_, rfl⟩ | ⟨target, candidates, hres, hcol, _, hperm⟩
    · simp at hcl
    · obtain ⟨similar, hsim, rfl⟩ := collectCandidates_ok hcol
      refine ⟨target, hres, ?_⟩
      rcases List.mem_append.mp (hperm.mem_iff.mp hcl) with h1 | h1
      · exact Or.inl h1
      · exact Or.inr ⟨similar, hsim, h1⟩

/-! ## C18 -/

/-- C18 as stated fails: the backlink candidates that `findRelated` returns for
`sem://vault/goal/q` in `linkedRegistry` carry no type compatibility. -/
theorem C18_backlink_without_type_compatibility :
    findRelated toLowerCaseAscii linkedRegistry "sem://vault/goal/q".toList 5 {}
      = .ok [backlinkCandidate "sem://vault/constructor/a".toList
               { content := some "[[sem://vault/goal/q]]".toList },
             backlinkCandidate "sem://vault/skill/b".toList
               { content := some "see [[sem://vault/goal/q]]".toList }] ∧
    (backlinkCandidate "sem://vault/skill/b".toList
      { content := some "see [[sem://vault/goal/q]]".toList }).pathfindingWeight.type_compatibility
      = none := by
  decide!

/-- C18 amended.  Every candidate that `findRelated` returns carries a
semantic similarity, a causal strength and a temporal dependency, each in the
closed interval from 0 to 1; a content-similarity candidate carries in
addition a type compatibility in that interval, and a backlink candidate
carries no type compatibility. -/
theorem C18_weights_in_unit_interval (toLowerCase : Str → Str) (reg : Registry) (semUri : Str)
    (limit : Int) (context : Context) (result : List Candidate)
    (h : findRelated toLowerCase reg semUri limit context = .ok result)
    (c : Candidate) (hc : c ∈ result) :
    (0 ≤ c.pathfindingWeight.semantic_similarity ∧ c.pathfindingWeight.semantic_similarity ≤ 1) ∧
    (0 ≤ c.pathfindingWeight.causal_strength ∧ c.pathfindingWeight.causal_strength ≤ 1) ∧
    (0 ≤ c.pathfindingWeight.temporal_dependency ∧
      c.pathfindingWeight.temporal_dependency ≤ 1) ∧
    ((c.reason = "content-similarity".toList ∧
        ∃ t, c.pathfindingWeight.type_compatibility = some t ∧ 0 ≤ t ∧ t ≤ 1) ∨
     (c.reason = "backlink".toList ∧ c.pathfindingWeight.type_compatibility = none)) := by
  obtain ⟨target, _, hcases⟩ := findRelated_mem_cases h hc
  rcases hcases with hb | ⟨similar, hsim, hs⟩
  · obtain ⟨u, md, _, _, _, rfl⟩ := (mem_backlinkCandidates _ _ _).mp hb
    refine ⟨?_, ?_, ?_, Or.inr ⟨rfl, rfl⟩⟩
    · show (0 : ℚ) ≤ 9 / 10 ∧ (9 / 10 : ℚ) ≤ 1
      norm_num
    · show (0 : ℚ) ≤ 8 / 10 ∧ (8 / 10 : ℚ) ≤ 1
      norm_num
    · show (0 : ℚ) ≤ 3 / 10 ∧ (3 / 10 : ℚ) ≤ 1
      norm_num
  · obtain ⟨u, md, t, _, _, _, hct, rfl⟩ := (mem_similarityCandidates _ _ _ _ _ hsim c).mp hs
    have ht := calculateTypeCompatibility_range hct
    refine ⟨?_, ?_, ?_, Or.inl ⟨rfl, t, rfl, ht⟩⟩
    · show (0 : ℚ) ≤ min ((overlapCount toLowerCase target md : ℚ) / 10) 1 ∧
        min ((overlapCount toLowerCase target md : ℚ) / 10) 1 ≤ 1
      exact ⟨le_min (by positivity) (by norm_num), min_le_right _ _⟩
    · show (0 : ℚ) ≤ 4 / 10 ∧ (4 / 10 : ℚ) ≤ 1
      norm_num
    · show (0 : ℚ) ≤ 2 / 10 ∧ (2 / 10 : ℚ) ≤ 1
      norm_num

/-- C18 amended, at the backlink candidate of `sem://vault/skill/b` that
`findRelated` returns in `linkedRegistry`. -/
theorem C18_weights_in_unit_interval_witness :
    (0 ≤ (backlinkCandidate "sem://vault/skill/b".toList
        { content := some "see [[sem://vault/goal/q]]".toList }).pathfindingWeight.semantic_similarity
      ∧ (backlinkCandidate "sem://vault/skill/b".toList
        { content := some "see [[sem://vault/goal/q]]".toList }).pathfindingWeight.semantic_similarity
        ≤ 1) ∧
    (backlinkCandidate "sem://vault/skill/b".toList
        { content := some "see [[sem://vault/goal/q]]".toList }).pathfindingWeight.type_compatibility
      = none :=
  ⟨(C18_weights_in_unit_interval toLowerCaseAscii linkedRegistry "sem://vault/goal/q".toList 5 {}
      [backlinkCandidate "sem://vault/constructor/a".toList
         { content := some "[[sem://vault/goal/q]]".toList },
       backlinkCandidate "sem://vault/skill/b".toList
         { content := some "see [[sem://vault/goal/q]]".toList }]
      (by decide!)
      (backlinkCandidate "sem://vault/skill/b".toList
        { content := some "see [[sem://vault/goal/q]]".toList })
      (List.mem_cons_of_mem _ (List.mem_cons_self _ _))).1,
   rfl⟩

/-! ## C16 -/

/-- A match of the link pattern is a prefix of the string and has the shape
`[[sem://body]]`. -/
theorem matchLinkAt_some {s text rest : Str} (h : matchLinkAt s = some (text, rest)) :
    s = text ++ rest ∧ ∃ body, text = "[[sem://".toList ++ body ++ "]]".toList := by
  unfold matchLinkAt at h
  split at h
  · simp at h
  · next r hr =>
    rw [dropLit_eq_some_iff] at hr
    split at h
    · next c1 c2 rest2 hd =>
      split at h
      · next hc =>
        simp only [Option.some.injEq, Prod.mk.injEq] at h
        simp only [Bool.and_eq_true, beq_iff_eq] at hc
        have hc1 : c1 = ']' := by
          have := List.head_dropWhile_not (fun c => c != ']') r (by rw [hd]; simp)
          simpa [hd] using this
        have hr2 : r = List.takeWhile (fun c => c != ']') r ++ (c1 :: c2 :: rest2) := by
          rw [← hd, List.takeWhile_append_dropWhile]
        refine ⟨?_, _, h.1.symm⟩
        rw [← h.1, ← h.2, hr]
        conv_lhs => rw [hr2, hc1, hc.1]
        simp
      · simp at h
    · simp at h

/-- Every match the scan finds lies inside the content. -/
theorem mem_scanLinks (n : Nat) (s text : Str) (h : text ∈ scanLinks n s) :
    text <:+: s ∧ ∃ body, text = "[[sem://".toList ++ body ++ "]]".toList := by
  induction n generalizing s with
  | zero => simp [scanLinks] at h
  | succ n ih =>
    cases s with
    | nil => simp [scanLinks] at h
    | cons c cs =>
      rw [scanLinks] at h
      split at h
      · next t rest hm =>
        obtain ⟨hs, hbody⟩ := matchLinkAt_some hm
        rcases List.mem_cons.mp h with rfl | h1
        · exact ⟨⟨[], rest, by simp [hs]⟩, hbody⟩
        · obtain ⟨hin, hb⟩ := ih rest h1
          refine ⟨?_, hb⟩
          rw [hs]
          exact hin.trans (List.suffix_append t rest).isInfix
      · obtain ⟨hin, hb⟩ := ih cs h
        exact ⟨hin.trans (List.suffix_cons c cs).isInfix, hb⟩

theorem sliceBrackets_link (body : Str) :
    sliceBrackets ("[[sem://".toList ++ body ++ "]]".toList) = "sem://".toList ++ body := by
  unfold sliceBrackets
  have hlen : ("[[sem://".toList ++ body ++ "]]".toList).length - 2
      = ("[[sem://".toList ++ body).length := by
    simp
  rw [hlen, List.take_left]
  rfl

/-- A link that `extractSemanticLinks` finds stands in the content as the text
`[[uri]]`. -/
theorem mem_extractSemanticLinks {content : Str} {link : SemLink}
    (h : link ∈ extractSemanticLinks content) :
    ("[[".toList ++ link.uri ++ "]]".toList) <:+: content := by
  unfold extractSemanticLinks at h
  obtain ⟨m, hm, rfl⟩ := List.mem_map.mp h
  obtain ⟨hin, body, rfl⟩ := mem_scanLinks _ _ _ hm
  simp only [sliceBrackets_link]
  exact hin

theorem backlinkCandidate_ne_similarityCandidate (u u1 : Str) (md md1 : Metadata) (n : Nat)
    (t : ℚ) : backlinkCandidate u md ≠ similarityCandidate u1 md1 n t := by
  intro h
  have hr : "backlink".toList = "content-similarity".toList := congrArg Candidate.reason h
  exact absurd hr (by decide)

/-- C16 as stated fails: in `nestedLinkRegistry` the content of the note `u`
contains the text `[[sem://vault/note/q]]`, and `u` differs from `q`, but the
scan matches `[[sem://x [[sem://vault/note/q]]` as one link and `findRelated`
has no candidate for `u`. -/
theorem C16_nested_link_not_found :
    resolve nestedLinkRegistry "sem://vault/note/q".toList = some { title := some "Q".toList } ∧
    mapGet nestedLinkRegistry.index "sem://vault/note/u".toList
      = some { content := some "[[sem://x [[sem://vault/note/q]]".toList } ∧
    ("[[".toList ++ "sem://vault/note/q".toList ++ "]]".toList)
      <:+: "[[sem://x [[sem://vault/note/q]]".toList ∧
    (extractSemanticLinks "[[sem://x [[sem://vault/note/q]]".toList).map SemLink.uri
      = ["sem://x [[sem://vault/note/q".toList] ∧
    rankedCandidates toLowerCaseAscii nestedLinkRegistry "sem://vault/note/q".toList {}
      = .ok [] := by
  refine ⟨by decide, by decide, ⟨"[[sem://x ".toList, [], by decide⟩, by decide, by decide!⟩

/-- C16 amended.  For a registered address `q`, the candidates of
`findRelated` before truncation (`rankedCandidates`) contain the backlink
candidate of an index entry `u` exactly when `u` differs from `q` and
`extractSemanticLinks` finds a link with the uri `q` in the content of `u`,
that is, `[[q]]` is one of the non-overlapping matches of the link pattern
from left to right; such a content contains the text `[[q]]`, and every
backlink candidate carries semantic similarity 0.9, causal strength 0.8 and
temporal dependency 0.3. -/
theorem C16_backlink_candidates (toLowerCase : Str → Str) (reg : Registry) (q : Str)
    (context : Context) (target : Metadata) (l : List Candidate)
    (hres : resolve reg q = some target)
    (hl : rankedCandidates toLowerCase reg q context = .ok l) :
    (∀ u md, backlinkCandidate u md ∈ l ↔
      ((u, md) ∈ reg.index ∧ u ≠ q ∧
        ∃ link ∈ extractSemanticLinks (contentOrEmpty md), link.uri = q)) ∧
    (∀ u md, backlinkCandidate u md ∈ l →
      ("[[".toList ++ q ++ "]]".toList) <:+: contentOrEmpty md) ∧
    (∀ c ∈ l, c.reason = "backlink".toList →
      c.pathfindingWeight.semantic_similarity = 9 / 10 ∧
      c.pathfindingWeight.causal_strength = 8 / 10 ∧
      c.pathfindingWeight.temporal_dependency = 3 / 10) := by
  rcases rankedCandidates_ok hl with ⟨hnone, _⟩ | ⟨target1, candidates, _, hcol, _, hperm⟩
  · rw [hres] at hnone; exact absurd hnone (by simp)
  obtain ⟨similar, hsim, rfl⟩ := collectCandidates_ok hcol
  have hiff : ∀ u md, backlinkCandidate u md ∈ l ↔
      ((u, md) ∈ reg.index ∧ u ≠ q ∧
        ∃ link ∈ extractSemanticLinks (contentOrEmpty md), link.uri = q) := by
    intro u md
    rw [hperm.mem_iff, List.mem_append]
    constructor
    · rintro (h1 | h1)
      · obtain ⟨u1, md1, hm, hne, hlink, heq⟩ := (mem_backlinkCandidates _ _ _).mp h1
        have hu : u = u1 := congrArg Candidate.uri heq
        have hmd : md = md1 := congrArg Candidate.metadata heq
        subst hu; subst hmd
        exact ⟨hm, hne, hlink⟩
      · obtain ⟨u1, md1, t, _, _, _, _, heq⟩ :=
          (mem_similarityCandidates _ _ _ _ _ hsim _).mp h1
        exact absurd heq (backlinkCandidate_ne_similarityCandidate _ _ _ _ _ _)
    · rintro ⟨hm, hne, hlink⟩
      exact Or.inl ((mem_backlinkCandidates _ _ _).mpr ⟨u, md, hm, hne, hlink, rfl⟩)
  refine ⟨hiff, ?_, ?_⟩
  · intro u md hmem
    obtain ⟨_, _, link, hlink, rfl⟩ := (hiff u md).mp hmem
    exact mem_extractSemanticLinks hlink
  · intro c hc hreason
    rcases List.mem_append.mp (hperm.mem_iff.mp hc) with h1 | h1
    · obtain ⟨u1, md1, _, _, _, rfl⟩ := (mem_backlinkCandidates _ _ _).mp h1
      exact ⟨rfl, rfl, rfl⟩
    · obtain ⟨u1, md1, t, _, _, _, _, rfl⟩ := (mem_similarityCandidates _ _ _ _ _ hsim _).mp h1
      have hr : "content-similarity".toList = "backlink".toList := hreason
      exact absurd hr (by decide)

/-- C16 amended, at the goal record of `linkedRegistry`: the record
`sem://vault/skill/b` links to it and has a backlink candidate. -/
theorem C16_backlink_candidates_witness :
    backlinkCandidate "sem://vault/skill/b".toList
        { content := some "see [[sem://vault/goal/q]]".toList }
      ∈ [backlinkCandidate "sem://vault/constructor/a".toList
           { content := some "[[sem://vault/goal/q]]".toList },
         backlinkCandidate "sem://vault/skill/b".toList
           { content := some "see [[sem://vault/goal/q]]".toList }] ↔
    (("sem://vault/skill/b".toList, { content := some "see [[sem://vault/goal/q]]".toList })
        ∈ linkedRegistry.index ∧
      "sem://vault/skill/b".toList ≠ "sem://vault/goal/q".toList ∧
      ∃ link ∈ extractSemanticLinks
          (contentOrEmpty { content := some "see [[sem://vault/goal/q]]".toList }),
        link.uri = "sem://vault/goal/q".toList) :=
  (C16_backlink_candidates toLowerCaseAscii linkedRegistry "sem://vault/goal/q".toList {}
    { title := some "Q".toList } _ (by decide) (by decide!)).1 _ _

/-! ## C17 -/

/-- C17, the code at the failing input.  The two notes of `ingestedRegistry`
have the shape `assignSemanticAddresses` registers and share three words
longer than 3 (`flour`, `butter`, `apples`), so a content-similarity candidate
is due; but the records carry neither `semanticUri` nor `uri`,
`calculateTypeCompatibility` throws a `TypeError`, and `findRelated` raises
instead of producing the candidate. -/
theorem C17_similarity_candidate_raises :
    generate toLowerCaseAscii Registry.empty "Apple pie".toList "note".toList
      = "sem://vault/note/apple-pie".toList ∧
    resolve ingestedRegistry "sem://vault/note/apple-pie".toList = some pieNote ∧
    mapGet ingestedRegistry.index "sem://vault/note/pie-crust".toList = some crustNote ∧
    overlapWords (wordSet toLowerCaseAscii (contentOrEmpty pieNote))
        (wordSet toLowerCaseAscii (contentOrEmpty crustNote))
      = ["flour".toList, "butter".toList, "apples".toList] ∧
    overlapCount toLowerCaseAscii pieNote crustNote = 3 ∧
    calculateTypeCompatibility pieNote crustNote = .error .typeError ∧
    findRelated toLowerCaseAscii ingestedRegistry "sem://vault/note/apple-pie".toList 5 {}
      = .error .typeError := by
  refine ⟨by decide, by decide, by decide, by decide, by decide, by decide, by decide!⟩

/-! ## C15 -/

/-- C15 as stated fails: in `linkedRegistry`, `findRelated` with the limit 0
returns the empty list, and with the limit -1 it returns the candidates
without the last one; no error is raised. -/
theorem C15_limit_not_validated :
    resolve linkedRegistry "sem://vault/goal/q".toList = some { title := some "Q".toList } ∧
    findRelated toLowerCaseAscii linkedRegistry "sem://vault/goal/q".toList 0 {} = .ok [] ∧
    findRelated toLowerCaseAscii linkedRegistry "sem://vault/goal/q".toList (-1) {}
      = .ok [backlinkCandidate "sem://vault/constructor/a".toList
               { content := some "[[sem://vault/goal/q]]".toList }] := by
  refine ⟨by decide, by decide!, by decide!⟩

/-- C15 amended.  `findRelated` does not validate `limit`: for a limit that
is zero or negative it fails only when it fails for every limit (with the
`TypeError` of `calculateTypeCompatibility`), and otherwise it returns
`slice(0, limit)` of the ordered candidates: the empty list for the limit 0,
and the ordered candidates without their last `k` for the limit `-k`. -/
theorem C15_nonpositive_limit_slices (toLowerCase : Str → Str) (reg : Registry) (semUri : Str)
    (limit : Int) (context : Context) (hlimit : limit ≤ 0) :
    (∀ e, rankedCandidates toLowerCase reg semUri context = .error e →
      e = .typeError ∧ findRelated toLowerCase reg semUri limit context = .error e) ∧
    (∀ l, rankedCandidates toLowerCase reg semUri context = .ok l →
      (limit < 0 → findRelated toLowerCase reg semUri limit context
        = .ok (l.take (l.length - limit.natAbs))) ∧
      (limit = 0 → findRelated toLowerCase reg semUri limit context = .ok [])) := by
  constructor
  · intro e he
    refine ⟨?_, by rw [findRelated_eq_ranked, he]⟩
    unfold rankedCandidates at he
    split at he
    · simp at he
    · next target _ =>
      unfold collectCandidates at he
      cases hs : similarityCandidates toLowerCase semUri target reg.index with
      | error e1 =>
        simp only [hs, Except.error.injEq] at he
        subst he
        exact similarityCandidates_error _ _ _ _ _ hs
      | ok similar =>
        simp only [hs] at he
        split at he <;> simp at he
  · intro l hl
    have hfr : findRelated toLowerCase reg semUri limit context = .ok (sliceTo l limit) := by
      rw [findRelated_eq_ranked, hl]
    constructor
    · intro hneg
      rw [hfr]
      simp [sliceTo, hneg]
    · intro h0
      subst h0
      rw [hfr]
      simp [sliceTo]

/-- C15 amended, at the limit -1 in `linkedRegistry`: of the two ordered
candidates the first is returned. -/
theorem C15_nonpositive_limit_slices_witness :
    findRelated toLowerCaseAscii linkedRegistry "sem://vault/goal/q".toList (-1) {}
      = .ok ([backlinkCandidate "sem://vault/constructor/a".toList
                { content := some "[[sem://vault/goal/q]]".toList },
              backlinkCandidate "sem://vault/skill/b".toList
                { content := some "see [[sem://vault/goal/q]]".toList }].take
              ([backlinkCandidate "sem://vault/constructor/a".toList
                  { content := some "[[sem://vault/goal/q]]".toList },
                backlinkCandidate "sem://vault/skill/b".toList
                  { content := some "see [[sem://vault/goal/q]]".toList }].length
                - (-1 : Int).natAbs)) :=
  ((C15_nonpositive_limit_slices toLowerCaseAscii linkedRegistry "sem://vault/goal/q".toList
    (-1) {} (by decide)).2 _ (by decide!)).1 (by decide)

/-! ## C14 -/

theorem orderedInsert_congr {α : Type} (r r1 : α → α → Prop) [DecidableRel r] [DecidableRel r1]
    (a : α) (l : List α) (h : ∀ b ∈ l, (r a b ↔ r1 a b)) :
    l.orderedInsert r a = l.orderedInsert r1 a := by
  induction l with
  | nil => rfl
  | cons b l ih =>
    have hb := h b (List.mem_cons_self _ _)
    have hl : ∀ c ∈ l, (r a c ↔ r1 a c) := fun c hc => h c (List.mem_cons_of_mem _ hc)
    by_cases hr : r a b
    · simp [List.orderedInsert, hr, hb.mp hr]
    · have hr1 : ¬ r1 a b := fun h1 => hr (hb.mpr h1)
      simp [List.orderedInsert, hr, hr1, ih hl]

/-- Insertion sort depends on the relation only between the list's members. -/
theorem insertionSort_congr {α : Type} (r r1 : α → α → Prop) [DecidableRel r] [DecidableRel r1]
    (l : List α) (h : ∀ a ∈ l, ∀ b ∈ l, (r a b ↔ r1 a b)) :
    l.insertionSort r = l.insertionSort r1 := by
  induction l with
  | nil => rfl
  | cons a l ih =>
    have hl : ∀ x ∈ l, ∀ y ∈ l, (r x y ↔ r1 x y) :=
      fun x hx y hy => h x (List.mem_cons_of_mem _ hx) y (List.mem_cons_of_mem _ hy)
    rw [List.insertionSort, List.insertionSort, ih hl]
    apply orderedInsert_congr
    intro b hb
    exact h a (List.mem_cons_self _ _) b
      (List.mem_cons_of_mem _ ((List.mem_insertionSort r1).mp hb))

/-- With a comparator that is the difference of a numeric key on the members
of the array, `sort` gives the array in non-increasing order of the key. -/
theorem jsSort_sorted_of_key {α : Type} (compare : α → α → Option ℚ) (key : α → ℚ)
    (l : List α) (h : ∀ a ∈ l, ∀ b ∈ l, compare a b = some (key b - key a)) :
    (jsSort compare l).Sorted (fun a b => key b ≤ key a) := by
  haveI : IsTotal α (fun a b => key b ≤ key a) := ⟨fun a b => le_total _ _⟩
  haveI : IsTrans α (fun a b => key b ≤ key a) := ⟨fun a b c hab hbc => le_trans hbc hab⟩
  have hcongr : jsSort compare l = l.insertionSort (fun a b => key b ≤ key a) := by
    unfold jsSort
    apply insertionSort_congr
    intro a ha b hb
    rw [h a ha b hb]
    simp [staysInFront]
  rw [hcongr]
  exact List.sorted_insertionSort _ l

/-- What holds of C14 on the code: `findRelated` returns the first
`min(limit, n)` of its `n` ordered candidates, and the ordered candidates are a
rearrangement of the collected ones in non-increasing order of the score,
provided that in the pathfinding mode every candidate's pathfinding score is a
number. -/
theorem findRelated_ordered_prefix (toLowerCase : Str → Str) (reg : Registry) (semUri : Str)
    (limit : Nat) (context : Context) (l : List Candidate)
    (hl : rankedCandidates toLowerCase reg semUri context = .ok l) :
    findRelated toLowerCase reg semUri limit context = .ok (l.take (min limit l.length)) ∧
    (context.pathfindingMode = false →
      l.Sorted (fun a b => b.score ≤ a.score)) ∧
    (context.pathfindingMode = true →
      (∀ c ∈ l, (calculatePathfindingScore c context).isSome = true) →
      l.Sorted (fun a b =>
        numGe (calculatePathfindingScore a context) (calculatePathfindingScore b context))) := by
  refine ⟨by rw [findRelated_eq_ranked, hl]; simp only [sliceTo_natCast], ?_, ?_⟩
  · intro hmode
    rcases rankedCandidates_ok hl with ⟨_, rfl⟩ | ⟨target, candidates, _, _, heq, _⟩
    · exact List.sorted_nil
    · simp only [hmode, Bool.false_eq_true, if_false] at heq
      rw [heq]
      have := jsSort_sorted_of_key compareScore (fun c => (c.score : ℚ)) candidates
        (fun a _ b _ => rfl)
      refine this.imp (fun {a b} h => ?_)
      have h2 : (b.score : ℚ) ≤ (a.score : ℚ) := h
      exact_mod_cast h2
  · intro hmode hnum
    rcases rankedCandidates_ok hl with ⟨_, rfl⟩ | ⟨target, candidates, _, _, heq, hperm⟩
    · exact List.sorted_nil
    · simp only [hmode, if_true] at heq
      have hnum2 : ∀ c ∈ candidates, (calculatePathfindingScore c context).isSome = true :=
        fun c hc => hnum c (hperm.mem_iff.mpr hc)
      have hkey : ∀ a ∈ candidates, ∀ b ∈ candidates, comparePathfinding context a b
          = some ((calculatePathfindingScore b context).getD 0
              - (calculatePathfindingScore a context).getD 0) := by
        intro a ha b hb
        obtain ⟨x, hx⟩ := Option.isSome_iff_exists.mp (hnum2 a ha)
        obtain ⟨y, hy⟩ := Option.isSome_iff_exists.mp (hnum2 b hb)
        simp [comparePathfinding, hx, hy]
      have hsorted := jsSort_sorted_of_key (comparePathfinding context)
        (fun c => (calculatePathfindingScore c context).getD 0) candidates hkey
      rw [heq]
      unfold sortForPathfinding
      have hmem : ∀ c ∈ jsSort (comparePathfinding context) candidates,
          (calculatePathfindingScore c context).isSome = true :=
        fun c hc => hnum2 c ((mem_jsSort _ _ _).mp hc)
      refine (List.Pairwise.and_mem.mp hsorted).imp ?_
      rintro a b ⟨ha, hb, hab⟩
      obtain ⟨x, hx⟩ := Option.isSome_iff_exists.mp (hmem a ha)
      obtain ⟨y, hy⟩ := Option.isSome_iff_exists.mp (hmem b hb)
      simpa [numGe, hx, hy] using hab

/-- C14, the code at the failing input.  In `linkedRegistry` the goal record
`q` has two backlink candidates; with the pathfinding mode set and the skill
level `0.5`, the candidate of type `constructor` gets the score `NaN`
(`skillRequirements['constructor']` is the inherited function, not
`undefined`), the comparator yields `NaN` and `sort` leaves it in front of the
candidate with the score `0.73`: the result is not in non-increasing order of
the score. -/
theorem C14_nan_score_breaks_order :
    findRelated toLowerCaseAscii linkedRegistry "sem://vault/goal/q".toList 5 skilledContext
      = .ok [backlinkCandidate "sem://vault/constructor/a".toList
               { content := some "[[sem://vault/goal/q]]".toList },
             backlinkCandidate "sem://vault/skill/b".toList
               { content := some "see [[sem://vault/goal/q]]".toList }] ∧
    calculatePathfindingScore
      (backlinkCandidate "sem://vault/constructor/a".toList
        { content := some "[[sem://vault/goal/q]]".toList }) skilledContext = none ∧
    calculatePathfindingScore
      (backlinkCandidate "sem://vault/skill/b".toList
        { content := some "see [[sem://vault/goal/q]]".toList }) skilledContext
      = some (73 / 100) ∧
    ¬ numGe
      (calculatePathfindingScore
        (backlinkCandidate "sem://vault/constructor/a".toList
          { content := some "[[sem://vault/goal/q]]".toList }) skilledContext)
      (calculatePathfindingScore
        (backlinkCandidate "sem://vault/skill/b".toList
          { content := some "see [[sem://vault/goal/q]]".toList }) skilledContext) := by
  have h1 : calculatePathfindingScore
      (backlinkCandidate "sem://vault/constructor/a".toList
        { content := some "[[sem://vault/goal/q]]".toList }) skilledContext = none := by
    decide!
  refine ⟨by decide!, h1, by decide!, ?_⟩
  rw [h1]
  simp [numGe]

/-! ## C20 -/

/-- Every returned candidate has a semantic similarity between 0 and 1. -/
theorem findRelated_similarity_range {toLowerCase : Str → Str} {reg : Registry} {semUri : Str}
    {limit : Int} {context : Context} {result : List Candidate}
    (h : findRelated toLowerCase reg semUri limit context = .ok result) {c : Candidate}
    (hc : c ∈ result) :
    0 ≤ c.pathfindingWeight.semantic_similarity ∧ c.pathfindingWeight.semantic_similarity ≤ 1 := by
  obtain ⟨target, _, hcases⟩ := findRelated_mem_cases h hc
  rcases hcases with hb | ⟨similar, hsim, hs⟩
  · obtain ⟨u, md, _, _, _, rfl⟩ := (mem_backlinkCandidates _ _ _).mp hb
    show (0 : ℚ) ≤ 9 / 10 ∧ (9 / 10 : ℚ) ≤ 1
    norm_num
  · obtain ⟨u, md, t, _, _, _, _, rfl⟩ := (mem_similarityCandidates _ _ _ _ _ hsim c).mp hs
    show (0 : ℚ) ≤ min ((overlapCount toLowerCase target md : ℚ) / 10) 1 ∧
      min ((overlapCount toLowerCase target md : ℚ) / 10) 1 ≤ 1
    exact ⟨le_min (by positivity) (by norm_num), min_le_right _ _⟩

/-- With the limit 10, `findRelated` returns at most 10 candidates. -/
theorem findRelated_length_le_ten {toLowerCase : Str → Str} {reg : Registry} {semUri : Str}
    {context : Context} {result : List Candidate}
    (h : findRelated toLowerCase reg semUri 10 context = .ok result) : result.length ≤ 10 := by
  rw [findRelated_eq_ranked] at h
  cases hr : rankedCandidates toLowerCase reg semUri context with
  | error e => simp [hr] at h
  | ok l =>
    simp only [hr, Except.ok.injEq] at h
    subst h
    exact length_sliceTo_le l 10

/-- The nested loops push one node for every qualifying pair, in the order of
the pairs. -/
theorem bridgePairs_eq (startRelated endRelated : List Candidate) :
    bridgePairs startRelated endRelated
      = ((startRelated ×ˢ endRelated).filter (fun p =>
            decide (p.1.pathfindingWeight.semantic_similarity > 3 / 10 ∧
              p.2.pathfindingWeight.semantic_similarity > 3 / 10))).map
          (fun p => bridgeNode p.1 p.2) := by
  have inner : ∀ (start : Candidate) (es : List Candidate),
      es.filterMap (fun finish =>
        if start.pathfindingWeight.semantic_similarity > 3 / 10 ∧
           finish.pathfindingWeight.semantic_similarity > 3 / 10 then
          some (bridgeNode start finish)
        else none)
      = (((es.map (Prod.mk start)).filter (fun p =>
            decide (p.1.pathfindingWeight.semantic_similarity > 3 / 10 ∧
              p.2.pathfindingWeight.semantic_similarity > 3 / 10))).map
          (fun p => bridgeNode p.1 p.2)) := by
    intro start es
    induction es with
    | nil => rfl
    | cons e es ih =>
      by_cases hq : start.pathfindingWeight.semantic_similarity > 3 / 10 ∧
          e.pathfindingWeight.semantic_similarity > 3 / 10
      · rw [List.filterMap_cons, List.map_cons, List.filter_cons_of_pos (by simpa using hq),
          List.map_cons, ← ih]
        simp only [if_pos hq]
      · rw [List.filterMap_cons, List.map_cons, List.filter_cons_of_neg (by simpa using hq),
          ← ih]
        simp only [if_neg hq]
  induction startRelated with
  | nil => rfl
  | cons s ss ih =>
    unfold bridgePairs at ih ⊢
    rw [List.flatMap_cons, List.product_cons, List.filter_append, List.map_append, ih, inner]

/-- C20 (bridge frontier).  When the two calls of `findRelated` (each with
the limit 10, so each with at most 10 candidates) return the start-side
candidates `ss` and the goal-side candidates `es`, `findIntermediateNodes`
returns a list `nodes` that holds exactly one node for each pair `(s, e)` of
`ss × es` whose semantic similarities are both above 0.3; each node's
`bridgeQuality` is `(sim(s) + sim(e)) / 2` for such a pair and lies in
`(0.3, 1]`; the list is in non-increasing order of `bridgeQuality` and has at
most 100 nodes. -/
theorem C20_bridge_frontier (toLowerCase : Str → Str) (reg : Registry)
    (userContext : UserContext) (startSem endSem : Str) (ss es : List Candidate)
    (hs : findRelated toLowerCase reg startSem 10
      { pathfindingMode := true, userContext := some userContext } = .ok ss)
    (he : findRelated toLowerCase reg endSem 10
      { pathfindingMode := true, userContext := some userContext } = .ok es) :
    ss.length ≤ 10 ∧ es.length ≤ 10 ∧
    ∃ nodes, findIntermediateNodes toLowerCase reg userContext startSem endSem = .ok nodes ∧
      nodes.Perm (((ss ×ˢ es).filter (fun p =>
          decide (p.1.pathfindingWeight.semantic_similarity > 3 / 10 ∧
            p.2.pathfindingWeight.semantic_similarity > 3 / 10))).map
        (fun p => bridgeNode p.1 p.2)) ∧
      (∀ node ∈ nodes, ∃ s ∈ ss, ∃ e ∈ es,
        node.bridgeQuality = (s.pathfindingWeight.semantic_similarity
          + e.pathfindingWeight.semantic_similarity) / 2 ∧
        3 / 10 < node.bridgeQuality ∧ node.bridgeQuality ≤ 1) ∧
      nodes.Sorted (fun a b => b.bridgeQuality ≤ a.bridgeQuality) ∧
      nodes.length ≤ 100 := by
  have hls := findRelated_length_le_ten hs
  have hle := findRelated_length_le_ten he
  refine ⟨hls, hle, jsSort compareBridge (bridgePairs ss es), ?_, ?_, ?_, ?_, ?_⟩
  · unfold findIntermediateNodes
    rw [hs, he]
  · rw [← bridgePairs_eq]
    exact perm_jsSort _ _
  · intro node hnode
    rw [mem_jsSort, bridgePairs_eq] at hnode
    obtain ⟨⟨s, e⟩, hp, rfl⟩ := List.mem_map.mp hnode
    obtain ⟨hprod, hq⟩ := List.mem_filter.mp hp
    obtain ⟨hsm, hem⟩ := List.mem_product.mp hprod
    simp only [decide_eq_true_eq] at hq
    have h1 := (findRelated_similarity_range hs hsm).2
    have h2 := (findRelated_similarity_range he hem).2
    refine ⟨s, hsm, e, hem, rfl, ?_, ?_⟩
    · show (3 / 10 : ℚ) < (s.pathfindingWeight.semantic_similarity
        + e.pathfindingWeight.semantic_similarity) / 2
      linarith [hq.1, hq.2]
    · show (s.pathfindingWeight.semantic_similarity
        + e.pathfindingWeight.semantic_similarity) / 2 ≤ 1
      linarith
  · exact jsSort_sorted_of_key compareBridge (fun n => n.bridgeQuality) _ (fun _ _ _ _ => rfl)
  · rw [(perm_jsSort _ _).length_eq, bridgePairs_eq, List.length_map]
    calc _ ≤ (ss ×ˢ es).length := List.length_filter_le _ _
      _ = ss.length * es.length := List.length_product _ _
      _ ≤ 10 * 10 := Nat.mul_le_mul hls hle
      _ = 100 := rfl

/-- C20 in `linkedRegistry`, from the goal record to itself with the engine's
initial user context: both sides have the two backlink candidates of
similarity 0.9, and the four bridges are returned. -/
theorem C20_bridge_frontier_witness :
    ∃ nodes, findIntermediateNodes toLowerCaseAscii linkedRegistry {}
        "sem://vault/goal/q".toList "sem://vault/goal/q".toList = .ok nodes ∧
      nodes.Perm ((([backlinkCandidate "sem://vault/constructor/a".toList
                       { content := some "[[sem://vault/goal/q]]".toList },
                     backlinkCandidate "sem://vault/skill/b".toList
                       { content := some "see [[sem://vault/goal/q]]".toList }]
                    ×ˢ [backlinkCandidate "sem://vault/constructor/a".toList
                       { content := some "[[sem://vault/goal/q]]".toList },
                     backlinkCandidate "sem://vault/skill/b".toList
                       { content := some "see [[sem://vault/goal/q]]".toList }]).filter
          (fun p => decide (p.1.pathfindingWeight.semantic_similarity > 3 / 10 ∧
            p.2.pathfindingWeight.semantic_similarity > 3 / 10))).map
        (fun p => bridgeNode p.1 p.2)) ∧
      (∀ node ∈ nodes,
        ∃ s ∈ [backlinkCandidate "sem://vault/constructor/a".toList
                 { content := some "[[sem://vault/goal/q]]".toList },
               backlinkCandidate "sem://vault/skill/b".toList
                 { content := some "see [[sem://vault/goal/q]]".toList }],
        ∃ e ∈ [backlinkCandidate "sem://vault/constructor/a".toList
                 { content := some "[[sem://vault/goal/q]]".toList },
               backlinkCandidate "sem://vault/skill/b".toList
                 { content := some "see [[sem://vault/goal/q]]".toList }],
        node.bridgeQuality = (s.pathfindingWeight.semantic_similarity
          + e.pathfindingWeight.semantic_similarity) / 2 ∧
        3 / 10 < node.bridgeQuality ∧ node.bridgeQuality ≤ 1) ∧
      nodes.Sorted (fun a b => b.bridgeQuality ≤ a.bridgeQuality) ∧
      nodes.length ≤ 100 :=
  (C20_bridge_frontier toLowerCaseAscii linkedRegistry {} "sem://vault/goal/q".toList
    "sem://vault/goal/q".toList _ _ (by decide!) (by decide!)).2.2

/-! ## C28 -/

/-- C28, the code at the failing input.  `ingestedRegistry` is populated
through `register` with two records of the ingestion shape, and both addresses
are registered; the records share three words longer than 3, and `findRelated`
raises a `TypeError` for either address, in either mode, instead of returning
a list. -/
theorem C28_findRelated_raises_on_ingested_records :
    ingestedRegistry.index
      = [("sem://vault/note/apple-pie".toList, pieNote),
         ("sem://vault/note/pie-crust".toList, crustNote)] ∧
    addressOf pieNote = none ∧ addressOf crustNote = none ∧
    overlapCount toLowerCaseAscii crustNote pieNote = 3 ∧
    findRelated toLowerCaseAscii ingestedRegistry "sem://vault/note/pie-crust".toList 5 {}
      = .error .typeError ∧
    findRelated toLowerCaseAscii ingestedRegistry "note:pie-crust".toList 10
        { pathfindingMode := true } = .error .typeError := by
  refine ⟨by decide, by decide, by decide, by decide, by decide!, by decide!⟩

/-! ## C29 -/

/-- Both loops of `findRelated` skip the index entry whose key is the input
as it was passed: no candidate has the input string as its uri. -/
theorem findRelated_skips_input {toLowerCase : Str → Str} {reg : Registry} {semUri : Str}
    {limit : Int} {context : Context} {result : List Candidate}
    (h : findRelated toLowerCase reg semUri limit context = .ok result) {c : Candidate}
    (hc : c ∈ result) : c.uri ≠ semUri := by
  obtain ⟨target, _, hcases⟩ := findRelated_mem_cases h hc
  rcases hcases with hb | ⟨similar, hsim, hs⟩
  · obtain ⟨u, md, _, hne, _, rfl⟩ := (mem_backlinkCandidates _ _ _).mp hb
    exact hne
  · obtain ⟨u, md, t, _, hne, _, _, rfl⟩ := (mem_similarityCandidates _ _ _ _ _ hsim c).mp hs
    exact hne

/-- For a long-form input in a reachable state the input is its own canonical
address, so no returned candidate has the canonical address of the queried
record as its uri. -/
theorem findRelated_no_self_edge_long_form {toLowerCase : Str → Str} {reg : Registry}
    {semUri : Str} {limit : Int} {context : Context} {result : List Candidate}
    (hlong : matchShort semUri = none)
    (h : findRelated toLowerCase reg semUri limit context = .ok result) {c : Candidate}
    (hc : c ∈ result) : c.uri ≠ normalize semUri := by
  rw [normalize_of_not_matchShort hlong]
  exact findRelated_skips_input h hc

/-- C29, the code at the failing input.  In `selfSimilarRegistry` the short
form `note:q` resolves to the record stored at `sem://vault/note/q`; the guard
`uri === semUri` compares the key with the short form, does not skip the
record itself, and `findRelated('note:q')` returns a content-similarity
candidate whose uri is the canonical address of the queried record. -/
theorem C29_self_edge_for_short_form :
    resolve selfSimilarRegistry "note:q".toList
      = some { content := some "alpha beta gamma delta".toList,
               uri := some "sem://vault/note/q".toList } ∧
    normalize "note:q".toList = "sem://vault/note/q".toList ∧
    (match findRelated toLowerCaseAscii selfSimilarRegistry "note:q".toList 5 {} with
      | .ok result => result.map Candidate.uri
      | .error _ => []) = ["sem://vault/note/q".toList] ∧
    findRelated toLowerCaseAscii selfSimilarRegistry "sem://vault/note/q".toList 5 {}
      = .ok [] := by
  refine ⟨by decide, by decide, by decide!, by decide!⟩

/-! ## C24 -/

/-- C24 as stated fails.  For an edge of difficulty 0 the code takes the
default 0.5 as the base; for a user of skill level 0 it adds no gap; and for
an annotation without `timeRequired` it adds 0.1, where the specified formula
has no value. -/
theorem C24_absent_and_zero_take_defaults :
    calculateWeight { difficulty := some 0, timeRequired := some 1, skillRequired := some (1 / 2) }
        { skillLevel := some (1 / 2) } = 3 / 5 ∧
    specifiedWeight { difficulty := some 0, timeRequired := some 1, skillRequired := some (1 / 2) }
        { skillLevel := some (1 / 2) } = some (1 / 10) ∧
    calculateWeight { difficulty := some (1 / 5), timeRequired := some 1,
                      skillRequired := some (2 / 5) } { skillLevel := some 0 } = 3 / 10 ∧
    specifiedWeight { difficulty := some (1 / 5), timeRequired := some 1,
                      skillRequired := some (2 / 5) } { skillLevel := some 0 } = some (7 / 10) ∧
    calculateWeight { difficulty := some (1 / 5) } { skillLevel := some (1 / 2) } = 3 / 10 ∧
    specifiedWeight { difficulty := some (1 / 5) } { skillLevel := some (1 / 2) } = none := by
  refine ⟨by decide!, by decide!, by decide!, by decide!, by decide!, by decide!⟩

/-- C24 amended.  `calculateWeight` returns `base + gap + 0.1 × time`, where
`base` is the difficulty when a non-zero one is provided and 0.5 when none is,
`gap` is `|skillLevel − skillRequired|` when the user context supplies a
non-zero skill level and the edge a non-zero required skill, and 0 when either
of the two is not supplied, and `time` is `timeRequired` when a non-zero one is
provided and 1 when none is. -/
theorem C24_edge_cost (weights : EdgeWeights) (userContext : UserContext) :
    ∃ base gap time : ℚ,
      calculateWeight weights userContext = base + gap + (1 / 10) * time ∧
      (∀ d, weights.difficulty = some d → d ≠ 0 → base = d) ∧
      (weights.difficulty = none → base = 1 / 2) ∧
      (∀ level required, userContext.skillLevel = some level →
        weights.skillRequired = some required → level ≠ 0 → required ≠ 0 →
        gap = |level - required|) ∧
      (userContext.skillLevel = none ∨ weights.skillRequired = none → gap = 0) ∧
      (∀ t, weights.timeRequired = some t → t ≠ 0 → time = t) ∧
      (weights.timeRequired = none → time = 1) := by
  refine ⟨orDefault weights.difficulty (1 / 2),
    (match userContext.skillLevel, weights.skillRequired with
      | some level, some required =>
        if level ≠ 0 ∧ required ≠ 0 then |level - required| else 0
      | _, _ => 0),
    orDefault weights.timeRequired 1, ?_, ?_, ?_, ?_, ?_, ?_, ?_⟩
  · unfold calculateWeight
    rcases hl : userContext.skillLevel with _ | level <;>
      rcases hr : weights.skillRequired with _ | required <;> simp only []
    · ring
    · ring
    · ring
    · by_cases h : level ≠ 0 ∧ required ≠ 0
      · rw [if_pos h, if_pos h]; ring
      · rw [if_neg h, if_neg h]; ring
  · intro d hd hd0
    simp [orDefault, hd, hd0]
  · intro hd
    simp [orDefault, hd]
  · intro level required hl hr hl0 hr0
    simp [hl, hr, hl0, hr0]
  · rintro (hl | hr)
    · simp [hl]
    · rcases hl : userContext.skillLevel with _ | level <;> simp [hr]
  · intro t ht ht0
    simp [orDefault, ht, ht0]
  · intro ht
    simp [orDefault, ht]

/-- C24 amended, on the first edge of the repository's test for the
experienced baker: 0.1 + |0.7 − 0.1| + 0.1 × 0.25. -/
theorem C24_edge_cost_witness :
    calculateWeight { difficulty := some (1 / 10), timeRequired := some (1 / 4),
                      skillRequired := some (1 / 10) } { skillLevel := some (7 / 10) }
      = 1 / 10 + |(7 / 10 : ℚ) - 1 / 10| + (1 / 10) * (1 / 4) := by
  obtain ⟨base, gap, time, hw, hbase, _, hgap, _, htime, _⟩ :=
    C24_edge_cost { difficulty := some (1 / 10), timeRequired := some (1 / 4),
                    skillRequired := some (1 / 10) } { skillLevel := some (7 / 10) }
  rw [hw, hbase (1 / 10) rfl (by norm_num), hgap (7 / 10) (1 / 10) rfl rfl (by norm_num)
    (by norm_num), htime (1 / 4) rfl (by norm_num)]

/-! ## Lemmas on the test pathfinder -/

theorem collect_isSome {α β : Type} (f : α → Option (List β)) (l : List α)
    (h : ∀ a ∈ l, (f a).isSome = true) : (collect f l).isSome = true := by
  induction l with
  | nil => rfl
  | cons a rest ih =>
    have ha := h a (List.mem_cons_self _ _)
    have hr := ih (fun b hb => h b (List.mem_cons_of_mem _ hb))
    obtain ⟨x, hx⟩ := Option.isSome_iff_exists.mp ha
    obtain ⟨y, hy⟩ := Option.isSome_iff_exists.mp hr
    simp [collect, hx, hy]

theorem collect_cons_some {α β : Type} (f : α → Option (List β)) (a : α) (rest : List α)
    (r : List β) (h : collect f (a :: rest) = some r) :
    ∃ x y, f a = some x ∧ collect f rest = some y ∧ r = x ++ y := by
  unfold collect at h
  split at h
  · next x y hx hy =>
    simp only [Option.some.injEq] at h
    exact ⟨x, y, hx, hy, h.symm⟩
  · simp at h

theorem mem_collect {α β : Type} (f : α → Option (List β)) (l : List α) (r : List β)
    (h : collect f l = some r) (y : β) :
    y ∈ r ↔ ∃ a ∈ l, ∃ x, f a = some x ∧ y ∈ x := by
  induction l generalizing r with
  | nil =>
    simp only [collect, Option.some.injEq] at h
    subst h
    simp
  | cons a rest ih =>
    obtain ⟨x, z, hx, hz, rfl⟩ := collect_cons_some f a rest r h
    rw [List.mem_append, ih z hz]
    constructor
    · rintro (hy | ⟨b, hb, x1, hx1, hy⟩)
      · exact ⟨a, List.mem_cons_self _ _, x, hx, hy⟩
      · exact ⟨b, List.mem_cons_of_mem _ hb, x1, hx1, hy⟩
    · rintro ⟨b, hb, x1, hx1, hy⟩
      rcases List.mem_cons.mp hb with rfl | hb
      · rw [hx] at hx1
        simp only [Option.some.injEq] at hx1
        subst hx1
        exact Or.inl hy
      · exact Or.inr ⟨b, hb, x1, hx1, hy⟩

theorem collect_some_of_mem {α β : Type} (f : α → Option (List β)) (l : List α) (r : List β)
    (h : collect f l = some r) (a : α) (ha : a ∈ l) : ∃ x, f a = some x := by
  induction l generalizing r with
  | nil => simp at ha
  | cons b rest ih =>
    obtain ⟨x, z, hx, hz, rfl⟩ := collect_cons_some f b rest r h
    rcases List.mem_cons.mp ha with rfl | ha
    · exact ⟨x, hx⟩
    · exact ih z hz ha

theorem collect_congr {α β : Type} (f g : α → Option (List β)) (l : List α)
    (h : ∀ a ∈ l, f a = g a) : collect f l = collect g l := by
  induction l with
  | nil => rfl
  | cons a rest ih =>
    unfold collect
    rw [h a (List.mem_cons_self _ _), ih (fun b hb => h b (List.mem_cons_of_mem _ hb))]

theorem collect_map {α β γ : Type} (f : α → Option (List β)) (g : β → γ) (l : List α) :
    (collect f l).map (List.map g) = collect (fun a => (f a).map (List.map g)) l := by
  induction l with
  | nil => rfl
  | cons a rest ih =>
    unfold collect
    rw [← ih]
    cases f a <;> cases collect f rest <;> simp

theorem countP_collect {α β : Type} (f : α → Option (List β)) (p : β → Bool) (l : List α)
    (r : List β) (h : collect f l = some r) :
    r.countP p = (l.map (fun a => ((f a).getD []).countP p)).sum := by
  induction l generalizing r with
  | nil =>
    simp only [collect, Option.some.injEq] at h
    subst h
    rfl
  | cons a rest ih =>
    obtain ⟨x, z, hx, hz, rfl⟩ := collect_cons_some f a rest r h
    rw [List.countP_append, ih z hz, List.map_cons, List.sum_cons, hx]
    rfl

/-- In a list whose keys are pairwise distinct, a count that is 1 at the
entries with the key `k` and 0 at the others sums to 1 when some entry has the
key `k`. -/
theorem sum_eq_one_of_unique_key {α κ : Type} (g : α → Option κ) (k : κ) (c : α → Nat)
    (l : List α) (hnodup : (l.filterMap g).Nodup) (hex : ∃ e ∈ l, g e = some k)
    (h1 : ∀ e ∈ l, g e = some k → c e = 1) (h0 : ∀ e ∈ l, g e ≠ some k → c e = 0) :
    (l.map c).sum = 1 := by
  induction l with
  | nil => simp at hex
  | cons a rest ih =>
    rw [List.map_cons, List.sum_cons]
    by_cases ha : g a = some k
    · rw [h1 a (List.mem_cons_self _ _) ha]
      have hrest : ∀ e ∈ rest, c e = 0 := by
        intro e he
        apply h0 e (List.mem_cons_of_mem _ he)
        intro hek
        rw [List.filterMap_cons_some ha, List.nodup_cons] at hnodup
        exact hnodup.1 (List.mem_filterMap.mpr ⟨e, he, hek⟩)
      have : (rest.map c).sum = 0 := by
        apply List.sum_eq_zero
        intro x hx
        obtain ⟨e, he, rfl⟩ := List.mem_map.mp hx
        exact hrest e he
      omega
    · rw [h0 a (List.mem_cons_self _ _) ha, zero_add]
      apply ih
      · cases hga : g a with
        | none => rwa [List.filterMap_cons_none hga] at hnodup
        | some k1 =>
          rw [List.filterMap_cons_some hga, List.nodup_cons] at hnodup
          exact hnodup.2
      · obtain ⟨e, he, hek⟩ := hex
        rcases List.mem_cons.mp he with rfl | he
        · exact absurd hek ha
        · exact ⟨e, he, hek⟩
      · exact fun e he => h1 e (List.mem_cons_of_mem _ he)
      · exact fun e he => h0 e (List.mem_cons_of_mem _ he)

theorem explore_succ (edges : EdgeMap) (userContext : UserContext) (endNode : Str) (fuel : Nat)
    (current : Str) (path : List Str) (totalWeight : ℚ) (visited : List Str) :
    explore edges userContext endNode (fuel + 1) current path totalWeight visited
      = if current = endNode then some [{ path := path, weight := totalWeight }]
        else if current ∈ visited then some []
        else
          collect (fun entry =>
            match parseEdgeId entry.1 with
            | some (fromNode, toNode) =>
              if fromNode = current ∧ toNode ∉ current :: visited then
                explore edges userContext endNode fuel toNode (path ++ [toNode])
                  (totalWeight + calculateWeight entry.2 userContext) (current :: visited)
              else some []
            | none => some []) edges := by
  rw [explore]

/-- Marking a node that some entry leaves from, and that was not marked,
leaves fewer entries to leave from. -/
theorem remaining_lt (edges : EdgeMap) (visited : List Str) (current toNode : Str)
    (entry : Str × EdgeWeights) (hentry : entry ∈ edges)
    (hparse : parseEdgeId entry.1 = some (current, toNode)) (hcur : current ∉ visited) :
    remaining edges (current :: visited) < remaining edges visited := by
  unfold remaining
  have hsub : edges.filter (fun entry =>
        match parseEdgeId entry.1 with
        | some (fromNode, _) => decide (fromNode ∉ current :: visited)
        | none => false)
      = (edges.filter (fun entry =>
        match parseEdgeId entry.1 with
        | some (fromNode, _) => decide (fromNode ∉ visited)
        | none => false)).filter (fun entry =>
        match parseEdgeId entry.1 with
        | some (fromNode, _) => decide (fromNode ≠ current)
        | none => false) := by
    rw [List.filter_filter]
    apply List.filter_congr
    intro e _
    cases parseEdgeId e.1 with
    | none => rfl
    | some p =>
      obtain ⟨a, b⟩ := p
      by_cases h1 : a = current <;> by_cases h2 : a ∈ visited <;> simp [h1, h2]
  rw [hsub]
  apply List.length_filter_lt_length_iff_exists.mpr
  refine ⟨entry, List.mem_filter.mpr ⟨hentry, ?_⟩, ?_⟩
  · simp [hparse, hcur]
  · simp [hparse]

theorem remaining_le_length (edges : EdgeMap) (visited : List Str) :
    remaining edges visited ≤ edges.length :=
  List.length_filter_le _ _

/-- The exploration finishes within a depth of one more than the number of
entries it can still leave from. -/
theorem explore_isSome (edges : EdgeMap) (userContext : UserContext) (endNode : Str) :
    ∀ (fuel : Nat) (current : Str) (path : List Str) (totalWeight : ℚ) (visited : List Str),
      remaining edges visited < fuel →
      (explore edges userContext endNode fuel current path totalWeight visited).isSome = true := by
  intro fuel
  induction fuel with
  | zero => intro _ _ _ _ h; omega
  | succ fuel ih =>
    intro current path totalWeight visited hfuel
    rw [explore_succ]
    by_cases hend : current = endNode
    · simp [hend]
    · rw [if_neg hend]
      by_cases hvis : current ∈ visited
      · simp [hvis]
      · rw [if_neg hvis]
        apply collect_isSome
        intro entry hentry
        cases hparse : parseEdgeId entry.1 with
        | none => rfl
        | some p =>
          obtain ⟨fromNode, toNode⟩ := p
          simp only []
          by_cases hcond : fromNode = current ∧ toNode ∉ current :: visited
          · rw [if_pos hcond]
            apply ih
            have hparse1 : parseEdgeId entry.1 = some (current, toNode) := by
              rw [hparse, hcond.1]
            have := remaining_lt edges visited current toNode entry hentry hparse1 hvis
            omega
          · rw [if_neg hcond]
            rfl

/-- A deeper bound does not change a finished exploration. -/
theorem explore_succ_fuel (edges : EdgeMap) (userContext : UserContext) (endNode : Str) :
    ∀ (fuel : Nat) (current : Str) (path : List Str) (totalWeight : ℚ) (visited : List Str)
      (results : List FoundPath),
      explore edges userContext endNode fuel current path totalWeight visited = some results →
      explore edges userContext endNode (fuel + 1) current path totalWeight visited
        = some results := by
  intro fuel
  induction fuel with
  | zero => intro _ _ _ _ _ h; simp [explore] at h
  | succ fuel ih =>
    intro current path totalWeight visited results h
    rw [explore_succ] at h
    rw [explore_succ]
    by_cases hend : current = endNode
    · rw [if_pos hend] at h ⊢
      exact h
    · rw [if_neg hend] at h ⊢
      by_cases hvis : current ∈ visited
      · rw [if_pos hvis] at h ⊢
        exact h
      · rw [if_neg hvis] at h ⊢
        rw [← h]
        apply collect_congr
        intro entry hentry
        obtain ⟨x, hx⟩ := collect_some_of_mem _ _ _ h entry hentry
        cases hparse : parseEdgeId entry.1 with
        | none => rfl
        | some p =>
          obtain ⟨fromNode, toNode⟩ := p
          simp only [hparse] at hx
          simp only []
          by_cases hcond : fromNode = current ∧ toNode ∉ current :: visited
          · rw [if_pos hcond] at hx
            rw [if_pos hcond, if_pos hcond, hx]
            exact ih _ _ _ _ _ hx
          · rw [if_neg hcond, if_neg hcond]

theorem explore_fuel_le (edges : EdgeMap) (userContext : UserContext) (endNode : Str)
    (fuel fuel1 : Nat) (hle : fuel ≤ fuel1) (current : Str) (path : List Str) (totalWeight : ℚ)
    (visited : List Str) (results : List FoundPath)
    (h : explore edges userContext endNode fuel current path totalWeight visited = some results) :
    explore edges userContext endNode fuel1 current path totalWeight visited = some results := by
  induction hle with
  | refl => exact h
  | step _ ih => exact explore_succ_fuel _ _ _ _ _ _ _ _ _ ih

/-- Every path pushed by `explore` extends the path it was called with along
entries of the map, without meeting a marked node or a node twice, up to the
end node; its weight is the weight it was called with plus the cost of these
entries. -/
theorem explore_sound (edges : EdgeMap) (userContext : UserContext) (endNode : Str) :
    ∀ (fuel : Nat) (current : Str) (path : List Str) (totalWeight : ℚ) (visited : List Str)
      (results : List FoundPath),
      explore edges userContext endNode fuel current path totalWeight visited = some results →
      current ∉ visited →
      ∀ r ∈ results, ∃ (es : List (Str × EdgeWeights)) (tos : List Str),
        (∀ e ∈ es, e ∈ edges) ∧ follow current es = some tos ∧ r.path = path ++ tos ∧
        r.weight = totalWeight + (es.map (fun e => calculateWeight e.2 userContext)).sum ∧
        (current :: tos).getLast? = some endNode ∧ (current :: tos).Nodup ∧
        ∀ x ∈ tos, x ∉ visited := by
  intro fuel
  induction fuel with
  | zero => intro _ _ _ _ _ h; simp [explore] at h
  | succ fuel ih =>
    intro current path totalWeight visited results h hcur r hr
    rw [explore_succ] at h
    by_cases hend : current = endNode
    · rw [if_pos hend] at h
      simp only [Option.some.injEq] at h
      subst h
      rw [List.mem_singleton] at hr
      subst hr
      exact ⟨[], [], by simp, rfl, by simp, by simp, by simp [hend], by simp, by simp⟩
    · rw [if_neg hend, if_neg hcur] at h
      obtain ⟨entry, hentry, x, hx, hrx⟩ := (mem_collect _ _ _ h r).mp hr
      cases hparse : parseEdgeId entry.1 with
      | none =>
        simp only [hparse, Option.some.injEq] at hx
        subst hx
        simp at hrx
      | some p =>
        obtain ⟨fromNode, toNode⟩ := p
        simp only [hparse] at hx
        by_cases hcond : fromNode = current ∧ toNode ∉ current :: visited
        · rw [if_pos hcond] at hx
          obtain ⟨es, tos, hes, hfollow, hpath, hweight, hlast, hnodup, hfresh⟩ :=
            ih _ _ _ _ _ hx hcond.2 r hrx
          have hall : ∀ y ∈ toNode :: tos, y ∉ current :: visited := by
            intro y hy
            rcases List.mem_cons.mp hy with rfl | hy
            · exact hcond.2
            · exact hfresh y hy
          refine ⟨entry :: es, toNode :: tos, ?_, ?_, ?_, ?_, ?_, ?_, ?_⟩
          · intro e he
            rcases List.mem_cons.mp he with rfl | he
            · exact hentry
            · exact hes e he
          · simp [follow, hparse, hcond.1, hfollow]
          · rw [hpath, List.append_assoc]
            rfl
          · rw [hweight, List.map_cons, List.sum_cons]
            ring
          · rw [List.getLast?_cons_cons]
            exact hlast
          · rw [List.nodup_cons]
            exact ⟨fun hmem => hall current hmem (List.mem_cons_self _ _), hnodup⟩
          · intro y hy hv
            exact hall y hy (List.mem_cons_of_mem _ hv)
        · rw [if_neg hcond] at hx
          simp only [Option.some.injEq] at hx
          subst hx
          simp at hrx

/-- The node lists pushed by `explore` depend neither on the user context nor
on the weight it was called with. -/
theorem explore_paths (edges : EdgeMap) (userContext userContext1 : UserContext)
    (endNode : Str) :
    ∀ (fuel : Nat) (current : Str) (path : List Str) (w w1 : ℚ) (visited : List Str),
      (explore edges userContext endNode fuel current path w visited).map
          (List.map FoundPath.path)
        = (explore edges userContext1 endNode fuel current path w1 visited).map
          (List.map FoundPath.path) := by
  intro fuel
  induction fuel with
  | zero => intro _ _ _ _ _; rfl
  | succ fuel ih =>
    intro current path w w1 visited
    rw [explore_succ, explore_succ]
    by_cases hend : current = endNode
    · rw [if_pos hend, if_pos hend]
      rfl
    · rw [if_neg hend, if_neg hend]
      by_cases hvis : current ∈ visited
      · rw [if_pos hvis, if_pos hvis]
      · rw [if_neg hvis, if_neg hvis, collect_map, collect_map]
        apply collect_congr
        intro entry _
        cases hparse : parseEdgeId entry.1 with
        | none => rfl
        | some p =>
          obtain ⟨fromNode, toNode⟩ := p
          simp only []
          by_cases hcond : fromNode = current ∧ toNode ∉ current :: visited
          · rw [if_pos hcond, if_pos hcond]
            exact ih _ _ _ _ _
          · rw [if_neg hcond, if_neg hcond]

/-- With entries that denote pairwise distinct edges, `explore` pushes each
simple continuation of its path to the end node exactly once. -/
theorem explore_count (edges : EdgeMap) (userContext : UserContext) (endNode : Str)
    (hset : (edges.filterMap (fun e => parseEdgeId e.1)).Nodup) :
    ∀ (es : List (Str × EdgeWeights)) (fuel : Nat) (current : Str) (path : List Str)
      (totalWeight : ℚ) (visited : List Str) (tos : List Str) (results : List FoundPath),
      (∀ e ∈ es, e ∈ edges) → follow current es = some tos → (current :: tos).Nodup →
      (current :: tos).getLast? = some endNode → (∀ x ∈ current :: tos, x ∉ visited) →
      explore edges userContext endNode fuel current path totalWeight visited = some results →
      results.countP (fun r => decide (r.path = path ++ tos)) = 1 := by
  intro es
  induction es with
  | nil =>
    intro fuel current path totalWeight visited tos results _ hfollow _ hlast _ h
    simp only [follow, Option.some.injEq] at hfollow
    subst hfollow
    simp only [List.getLast?_singleton, Option.some.injEq] at hlast
    cases fuel with
    | zero => simp [explore] at h
    | succ fuel =>
      rw [explore_succ, if_pos hlast] at h
      simp only [Option.some.injEq] at h
      subst h
      simp
  | cons entry es ih =>
    intro fuel current path totalWeight visited tos results hes hfollow hnodup hlast hfresh h
    cases hparse : parseEdgeId entry.1 with
    | none => simp [follow, hparse] at hfollow
    | some p =>
      obtain ⟨fromNode, toNode⟩ := p
      simp only [follow, hparse] at hfollow
      by_cases hfrom : fromNode = current
      · subst hfrom
        rw [if_pos rfl] at hfollow
        cases hrest : follow toNode es with
        | none => simp [hrest] at hfollow
        | some tos1 =>
          simp only [hrest, Option.map_some', Option.some.injEq] at hfollow
          subst hfollow
          have hto_cur : toNode ≠ fromNode := by
            intro heq
            rw [List.nodup_cons] at hnodup
            exact hnodup.1 (heq ▸ List.mem_cons_self _ _)
          have hto_vis : toNode ∉ fromNode :: visited := by
            intro hmem
            rcases List.mem_cons.mp hmem with heq | hmem
            · exact hto_cur heq
            · exact hfresh toNode (List.mem_cons_of_mem _ (List.mem_cons_self _ _)) hmem
          have hlast1 : (toNode :: tos1).getLast? = some endNode := by
            rwa [List.getLast?_cons_cons] at hlast
          have hend : fromNode ≠ endNode := by
            intro heq
            rw [List.nodup_cons] at hnodup
            apply hnodup.1
            rw [heq]
            exact List.mem_of_getLast?_eq_some hlast1
          have hcur : fromNode ∉ visited := hfresh fromNode (List.mem_cons_self _ _)
          cases fuel with
          | zero => simp [explore] at h
          | succ fuel =>
            rw [explore_succ, if_neg hend, if_neg hcur] at h
            rw [countP_collect _ _ _ _ h]
            apply sum_eq_one_of_unique_key (fun e => parseEdgeId e.1) (fromNode, toNode) _ _ hset
            · exact ⟨entry, hes entry (List.mem_cons_self _ _), hparse⟩
            · intro e he hpe
              obtain ⟨x, hx⟩ := collect_some_of_mem _ _ _ h e he
              simp only [hpe] at hx ⊢
              rw [if_pos (And.intro trivial hto_vis)] at hx ⊢
              rw [hx, Option.getD_some]
              have := ih fuel toNode (path ++ [toNode])
                (totalWeight + calculateWeight e.2 userContext) (fromNode :: visited) tos1 x
                (fun e1 he1 => hes e1 (List.mem_cons_of_mem _ he1)) hrest
                (List.nodup_cons.mp hnodup).2 hlast1 ?_ hx
              · rw [← this]
                congr 1
                funext r
                rw [List.append_assoc]
                rfl
              · intro y hy hmem
                rcases List.mem_cons.mp hmem with heq | hmem
                · rw [List.nodup_cons] at hnodup
                  exact hnodup.1 (heq ▸ hy)
                · exact hfresh y (List.mem_cons_of_mem _ hy) hmem
            · intro e he hpe
              obtain ⟨x, hx⟩ := collect_some_of_mem _ _ _ h e he
              rw [hx, Option.getD_some, List.countP_eq_zero]
              intro r hr
              cases hparse1 : parseEdgeId e.1 with
              | none =>
                simp only [hparse1, Option.some.injEq] at hx
                subst hx
                simp at hr
              | some q =>
                obtain ⟨a, b⟩ := q
                simp only [hparse1] at hx
                by_cases hcond : a = fromNode ∧ b ∉ fromNode :: visited
                · rw [if_pos hcond] at hx
                  obtain ⟨_, tos2, _, _, hpath, _⟩ :=
                    explore_sound _ _ _ _ _ _ _ _ _ hx hcond.2 r hr
                  have hb : b ≠ toNode := by
                    intro hbt
                    apply hpe
                    rw [hparse1, hcond.1, hbt]
                  simp only [decide_eq_true_eq]
                  rw [hpath, List.append_assoc]
                  intro heq
                  have := List.append_cancel_left heq
                  simp only [List.singleton_append, List.cons.injEq] at this
                  exact hb this.1
                · rw [if_neg hcond] at hx
                  simp only [Option.some.injEq] at hx
                  subst hx
                  simp at hr
      · rw [if_neg hfrom] at hfollow
        simp at hfollow

theorem follow_chain (edges : EdgeMap) :
    ∀ (es : List (Str × EdgeWeights)) (current : Str) (tos : List Str),
      (∀ e ∈ es, e ∈ edges) → follow current es = some tos →
      List.Chain (readsEdge edges) current tos := by
  intro es
  induction es with
  | nil =>
    intro current tos _ h
    simp only [follow, Option.some.injEq] at h
    subst h
    exact List.Chain.nil
  | cons entry es ih =>
    intro current tos hes h
    cases hparse : parseEdgeId entry.1 with
    | none => simp [follow, hparse] at h
    | some p =>
      obtain ⟨fromNode, toNode⟩ := p
      simp only [follow, hparse] at h
      by_cases hfrom : fromNode = current
      · rw [if_pos hfrom] at h
        cases hrest : follow toNode es with
        | none => simp [hrest] at h
        | some tos1 =>
          simp only [hrest, Option.map_some', Option.some.injEq] at h
          subst h
          refine List.Chain.cons ⟨entry, hes entry (List.mem_cons_self _ _), ?_⟩
            (ih toNode tos1 (fun e he => hes e (List.mem_cons_of_mem _ he)) hrest)
          rw [hparse, hfrom]
      · rw [if_neg hfrom] at h
        simp at h

theorem chain_follow (edges : EdgeMap) :
    ∀ (tos : List Str) (current : Str), List.Chain (readsEdge edges) current tos →
      ∃ es : List (Str × EdgeWeights), (∀ e ∈ es, e ∈ edges) ∧ follow current es = some tos := by
  intro tos
  induction tos with
  | nil => intro current _; exact ⟨[], by simp, rfl⟩
  | cons b tos ih =>
    intro current h
    rw [List.chain_cons] at h
    obtain ⟨⟨entry, hentry, hparse⟩, hrest⟩ := h
    obtain ⟨es, hes, hfollow⟩ := ih b hrest
    refine ⟨entry :: es, ?_, ?_⟩
    · intro e he
      rcases List.mem_cons.mp he with rfl | he
      · exact hentry
      · exact hes e he
    · simp [follow, hparse, hfollow]

/-- The exploration started by `findPath` finishes within a depth of one more
than the number of entries. -/
theorem findPath_explore (edges : EdgeMap) (start endNode : Str) (userContext : UserContext)
    (fuel : Nat) (hfuel : edges.length < fuel) :
    ∃ results, explore edges userContext endNode fuel start [start] 0 [] = some results ∧
      explore edges userContext endNode (edges.length + 1) start [start] 0 [] = some results ∧
      findPath fuel edges start endNode userContext = some (jsSort compareWeight results) ∧
      findPath (edges.length + 1) edges start endNode userContext
        = some (jsSort compareWeight results) := by
  have hsome := explore_isSome edges userContext endNode (edges.length + 1) start [start] 0 []
    (Nat.lt_succ_of_le (remaining_le_length edges []))
  obtain ⟨results, hres⟩ := Option.isSome_iff_exists.mp hsome
  have hres1 := explore_fuel_le edges userContext endNode _ fuel hfuel _ _ _ _ _ hres
  exact ⟨results, hres1, hres, by simp [findPath, hres1], by simp [findPath, hres]⟩

theorem findPath_simplePath (edges : EdgeMap) (start endNode : Str) (userContext : UserContext)
    (fuel : Nat) (results : List FoundPath)
    (h : explore edges userContext endNode fuel start [start] 0 [] = some results)
    (r : FoundPath) (hr : r ∈ results) :
    SimplePath (readsEdge edges) start endNode r.path ∧
    ∃ es : List (Str × EdgeWeights), (∀ e ∈ es, e ∈ edges) ∧
      follow start es = some r.path.tail ∧
      r.weight = (es.map (fun e => calculateWeight e.2 userContext)).sum := by
  obtain ⟨es, tos, hes, hfollow, hpath, hweight, hlast, hnodup, _⟩ :=
    explore_sound edges userContext endNode fuel start [start] 0 [] results h (by simp) r hr
  have hp : r.path = start :: tos := by rw [hpath]; rfl
  refine ⟨⟨by rw [hp]; rfl, by rw [hp]; exact hlast, ?_, by rw [hp]; exact hnodup⟩,
    es, hes, by rw [hp]; exact hfollow, by rw [hweight, zero_add]⟩
  rw [hp]
  exact follow_chain edges es start tos hes hfollow

/-- A name without `->` is cut out of an edge id as it went in. -/
theorem cutArrow_append (a rest : Str) (ha : cutArrow a = none) :
    cutArrow (a ++ arrow ++ rest) = some (a, rest) := by
  induction a with
  | nil => simp [arrow, cutArrow]
  | cons c cs ih =>
    have hcs : cutArrow cs = none := by
      unfold cutArrow at ha
      split at ha
      · simp at ha
      · simpa using ha
    have hc : ¬ (c = '-' ∧ cs.head? = some '>') := by
      intro hcond
      unfold cutArrow at ha
      rw [if_pos hcond] at ha
      simp at ha
    have hc1 : ¬ (c = '-' ∧ (cs ++ arrow ++ rest).head? = some '>') := by
      intro hcond
      apply hc
      refine ⟨hcond.1, ?_⟩
      cases cs with
      | nil => simp [arrow] at hcond
      | cons d ds => simpa using hcond.2
    show cutArrow (c :: (cs ++ arrow ++ rest)) = some (c :: cs, rest)
    rw [cutArrow, if_neg hc1, ih hcs]
    rfl

/-- The edge id made by `addEdge` from two names without `->` is read back by
`findPath` as the two names. -/
theorem parseEdgeId_addEdge (a b : Str) (ha : cutArrow a = none) (hb : cutArrow b = none) :
    parseEdgeId (a ++ arrow ++ b) = some (a, b) := by
  unfold parseEdgeId
  rw [cutArrow_append a b ha]
  simp only [hb]

/-- For a map in which no two entries are read as the same edge, every simple
path of the edges as `findPath` reads them is returned exactly once; the
returned node sequences are the same, up to their order, for every user
context; and when there is no such path the result is the empty list. -/
theorem findPath_exhaustive_reads (edges : EdgeMap) (start endNode : Str)
    (userContext : UserContext) (fuel : Nat) (hfuel : edges.length < fuel)
    (hset : (edges.filterMap (fun e => parseEdgeId e.1)).Nodup) :
    ∃ result, findPath fuel edges start endNode userContext = some result ∧
      (∀ p, SimplePath (readsEdge edges) start endNode p → result.countP (fun r => decide (r.path = p)) = 1) ∧
      (∀ userContext1 : UserContext, ∃ result1,
        findPath fuel edges start endNode userContext1 = some result1 ∧
        (result1.map FoundPath.path).Perm (result.map FoundPath.path)) ∧
      ((∀ p, ¬ SimplePath (readsEdge edges) start endNode p) → result = []) := by
  obtain ⟨results, hres, _, h1, _⟩ := findPath_explore edges start endNode userContext fuel hfuel
  refine ⟨_, h1, ?_, ?_, ?_⟩
  · intro p ⟨hhead, hlast, hchain, hnodup⟩
    cases p with
    | nil => simp at hhead
    | cons s tos =>
      simp only [List.head?_cons, Option.some.injEq] at hhead
      subst hhead
      obtain ⟨es, hes, hfollow⟩ := chain_follow edges tos s hchain
      have hcount := explore_count edges userContext endNode hset es fuel s [s] 0 [] tos results
        hes hfollow hnodup hlast (by simp) hres
      rw [List.Perm.countP_eq _ (perm_jsSort compareWeight results)]
      exact hcount
  · intro userContext1
    obtain ⟨results1, hres1, _, h2, _⟩ :=
      findPath_explore edges start endNode userContext1 fuel hfuel
    refine ⟨_, h2, ?_⟩
    have hsame := explore_paths edges userContext1 userContext endNode fuel start [start] 0 0 []
    rw [hres, hres1] at hsame
    simp only [Option.map_some', Option.some.injEq] at hsame
    refine ((perm_jsSort compareWeight results1).map FoundPath.path).trans ?_
    rw [hsame]
    exact ((perm_jsSort compareWeight results).map FoundPath.path).symm
  · intro hnone
    apply List.eq_nil_iff_forall_not_mem.mpr
    intro r hr
    exact hnone r.path (findPath_simplePath edges start endNode userContext fuel results hres r
      ((mem_jsSort _ _ _).mp hr)).1

/-- The result of `findPath` for the edges `A → B` and `B → C` only. -/
theorem findPath_two_edges (wAB wBC : EdgeWeights) (userContext : UserContext) :
    findPath 3 (addEdge (addEdge [] "A".toList "B".toList wAB) "B".toList "C".toList wBC)
        "A".toList "C".toList userContext
      = some [{ path := ["A".toList, "B".toList, "C".toList],
                weight := calculateWeight wAB userContext + calculateWeight wBC userContext }] := by
  have hedges : addEdge (addEdge [] "A".toList "B".toList wAB) "B".toList "C".toList wBC
      = [("A->B".toList, wAB), ("B->C".toList, wBC)] := by
    have hne : ("A".toList ++ arrow ++ "B".toList = "B".toList ++ arrow ++ "C".toList) = False :=
      eq_false (by decide)
    simp only [addEdge, mapSet, hne, if_false]
    rfl
  have p1 : parseEdgeId "A->B".toList = some ("A".toList, "B".toList) := by decide
  have p2 : parseEdgeId "B->C".toList = some ("B".toList, "C".toList) := by decide
  have hAC : ("A".toList = "C".toList) = False := eq_false (by decide)
  have hBC : ("B".toList = "C".toList) = False := eq_false (by decide)
  have hBA : ("B".toList = "A".toList) = False := eq_false (by decide)
  have hAB : ("A".toList = "B".toList) = False := eq_false (by decide)
  have hCB : ("C".toList = "B".toList) = False := eq_false (by decide)
  have hCA : ("C".toList = "A".toList) = False := eq_false (by decide)
  rw [hedges]
  unfold findPath
  rw [show (3 : Nat) = 0 + 1 + 1 + 1 from rfl, explore_succ]
  simp only [hAC, if_false, List.not_mem_nil, collect, p1, p2, true_and, List.mem_cons,
    List.mem_singleton, hBA, hAB, or_false, not_false_eq_true, if_true, false_and, or_self]
  rw [explore_succ]
  simp only [hBC, if_false, List.mem_singleton, hBA, collect, p1, p2, hAB, false_and, true_and,
    List.mem_cons, hCB, hCA, or_self, or_false, not_false_eq_true, if_true, List.not_mem_nil]
  rw [explore_succ]
  simp only [if_true, List.nil_append, List.append_nil, Option.map_some', jsSort,
    List.insertionSort, List.orderedInsert, List.cons_append, List.singleton_append, zero_add]

/-- The keys of a map after `set`. -/
theorem keys_mapSet {β : Type} (m : List (Str × β)) (k : Str) (v : β) :
    (mapSet m k v).map Prod.fst
      = if k ∈ m.map Prod.fst then m.map Prod.fst else m.map Prod.fst ++ [k] := by
  induction m with
  | nil => simp [mapSet]
  | cons e rest ih =>
    obtain ⟨k0, v0⟩ := e
    by_cases h0 : k0 = k
    · subst h0
      rw [mapSet, if_pos rfl, List.map_cons, List.map_cons, if_pos (List.mem_cons_self _ _)]
    · rw [mapSet, if_neg h0, List.map_cons, List.map_cons, ih]
      by_cases hk : k ∈ rest.map Prod.fst
      · rw [if_pos hk, if_pos (List.mem_cons_of_mem _ hk)]
      · have hk1 : k ∉ k0 :: rest.map Prod.fst := by
          intro hmem
          rcases List.mem_cons.mp hmem with h | h
          · exact h0 h.symm
          · exact hk h
        rw [if_neg hk, if_neg hk1]
        rfl

theorem keys_addEdges_aux (calls : List (Str × Str × EdgeWeights)) :
    ∀ edges : EdgeMap, (edges.map Prod.fst).Nodup →
      ((calls.foldl (fun edges call => addEdge edges call.1 call.2.1 call.2.2) edges).map
          Prod.fst).Nodup ∧
      ∀ k, k ∈ (calls.foldl (fun edges call => addEdge edges call.1 call.2.1 call.2.2)
            edges).map Prod.fst
        ↔ k ∈ edges.map Prod.fst ∨ ∃ call ∈ calls, k = call.1 ++ arrow ++ call.2.1 := by
  induction calls with
  | nil =>
    intro edges h
    refine ⟨h, fun k => ⟨Or.inl, ?_⟩⟩
    rintro (hk | ⟨c, hc, _⟩)
    · exact hk
    · exact absurd hc (List.not_mem_nil _)
  | cons call calls ih =>
    intro edges h
    have hkeys := keys_mapSet edges (call.1 ++ arrow ++ call.2.1) call.2.2
    have hnodup : ((addEdge edges call.1 call.2.1 call.2.2).map Prod.fst).Nodup := by
      unfold addEdge
      rw [hkeys]
      split
      · exact h
      · next hfree =>
        exact List.Nodup.append h (List.nodup_singleton _) (List.disjoint_singleton.mpr hfree)
    obtain ⟨h1, h2⟩ := ih _ hnodup
    refine ⟨h1, ?_⟩
    intro k
    rw [List.foldl_cons, h2 k]
    unfold addEdge
    rw [hkeys]
    constructor
    · rintro (hk | ⟨c, hc, rfl⟩)
      · split at hk
        · exact Or.inl hk
        · rcases List.mem_append.mp hk with hk | hk
          · exact Or.inl hk
          · exact Or.inr ⟨call, List.mem_cons_self _ _, List.mem_singleton.mp hk⟩
      · exact Or.inr ⟨c, List.mem_cons_of_mem _ hc, rfl⟩
    · rintro (hk | ⟨c, hc, rfl⟩)
      · left
        split
        · exact hk
        · exact List.mem_append_left _ hk
      · rcases List.mem_cons.mp hc with rfl | hc
        · left
          split
          · assumption
          · exact List.mem_append_right _ (List.mem_singleton_self _)
        · exact Or.inr ⟨c, hc, rfl⟩

theorem nodup_filterMap_of_injOn {α κ : Type} (g : α → Option κ) (l : List α)
    (hnodup : l.Nodup)
    (hinj : ∀ x ∈ l, ∀ y ∈ l, ∀ k, g x = some k → g y = some k → x = y) :
    (l.filterMap g).Nodup := by
  induction l with
  | nil => simp
  | cons a rest ih =>
    rw [List.nodup_cons] at hnodup
    have hrest := ih hnodup.2 (fun x hx y hy k h1 h2 =>
      hinj x (List.mem_cons_of_mem _ hx) y (List.mem_cons_of_mem _ hy) k h1 h2)
    cases hga : g a with
    | none => rwa [List.filterMap_cons_none hga]
    | some k =>
      rw [List.filterMap_cons_some hga, List.nodup_cons]
      refine ⟨?_, hrest⟩
      intro hmem
      obtain ⟨y, hy, hgy⟩ := List.mem_filterMap.mp hmem
      have := hinj a (List.mem_cons_self _ _) y (List.mem_cons_of_mem _ hy) k hga hgy
      exact hnodup.1 (this ▸ hy)

theorem mapGet_of_mem_nodup {β : Type} (m : List (Str × β)) (k : Str) (v : β)
    (hnodup : (m.map Prod.fst).Nodup) (hmem : (k, v) ∈ m) : mapGet m k = some v := by
  induction m with
  | nil => exact absurd hmem (List.not_mem_nil _)
  | cons e rest ih =>
    obtain ⟨k0, v0⟩ := e
    rw [List.map_cons, List.nodup_cons] at hnodup
    rcases List.mem_cons.mp hmem with h | h
    · rw [Prod.mk.injEq] at h
      rw [mapGet, if_pos h.1.symm, h.2]
    · have hne : ¬ k0 = k := by
        intro h0
        apply hnodup.1
        rw [h0]
        exact List.mem_map.mpr ⟨(k, v), h, rfl⟩
      rw [mapGet, if_neg hne]
      exact ih hnodup.2 h

/-- The entries of a map built by `addEdge` from names without `->`: the ids
are pairwise distinct, and each is the id of a call and is read back as the
two names of that call. -/
theorem addEdges_entries (calls : List (Str × Str × EdgeWeights)) (hclean : CleanNames calls) :
    ((addEdges calls).map Prod.fst).Nodup ∧
    (∀ e ∈ addEdges calls, ∃ call ∈ calls, e.1 = call.1 ++ arrow ++ call.2.1 ∧
      parseEdgeId e.1 = some (call.1, call.2.1)) ∧
    ∀ call ∈ calls, call.1 ++ arrow ++ call.2.1 ∈ (addEdges calls).map Prod.fst := by
  obtain ⟨hnodup, hkeys⟩ := keys_addEdges_aux calls [] List.nodup_nil
  refine ⟨hnodup, ?_, ?_⟩
  · intro e he
    have hmem := (hkeys e.1).mp (List.mem_map_of_mem _ he)
    rcases hmem with hmem | ⟨call, hcall, hid⟩
    · exact absurd hmem (List.not_mem_nil _)
    · refine ⟨call, hcall, hid, ?_⟩
      rw [hid]
      exact parseEdgeId_addEdge _ _ (hclean call hcall).1 (hclean call hcall).2
  · intro call hcall
    exact (hkeys _).mpr (Or.inr ⟨call, hcall, rfl⟩)

/-- An edge map built by `addEdge` from names without `->` denotes the edges
that were added, each by one entry: `findPath` reads an edge from `a` to `b`
exactly when `addEdge(a, b, …)` was called, and no two entries are read as the
same edge. -/
theorem addEdges_edge_set (calls : List (Str × Str × EdgeWeights)) (hclean : CleanNames calls) :
    ((addEdges calls).filterMap (fun e => parseEdgeId e.1)).Nodup ∧
    ∀ a b, readsEdge (addEdges calls) a b ↔ addedEdge calls a b := by
  obtain ⟨hnodup, hkey, hids⟩ := addEdges_entries calls hclean
  constructor
  · rw [show (fun e : Str × EdgeWeights => parseEdgeId e.1) = parseEdgeId ∘ Prod.fst from rfl,
      ← List.filterMap_map]
    apply nodup_filterMap_of_injOn _ _ hnodup
    intro x hx y hy k h1 h2
    obtain ⟨ex, hex, rfl⟩ := List.mem_map.mp hx
    obtain ⟨ey, hey, rfl⟩ := List.mem_map.mp hy
    obtain ⟨cx, _, hidx, hpx⟩ := hkey ex hex
    obtain ⟨cy, _, hidy, hpy⟩ := hkey ey hey
    rw [hpx] at h1
    rw [hpy] at h2
    rw [hidx, hidy]
    have h3 : (cx.1, cx.2.1) = (cy.1, cy.2.1) := by
      rw [Option.some.inj h1, Option.some.inj h2]
    simp only [Prod.mk.injEq] at h3
    rw [h3.1, h3.2]
  · intro a b
    constructor
    · rintro ⟨e, he, hp⟩
      obtain ⟨call, hcall, _, hpc⟩ := hkey e he
      rw [hpc] at hp
      simp only [Option.some.injEq, Prod.mk.injEq] at hp
      refine ⟨call.2.2, ?_⟩
      rw [← hp.1, ← hp.2]
      exact hcall
    · rintro ⟨w, hw⟩
      obtain ⟨e, he, hid⟩ := List.mem_map.mp (hids _ hw)
      refine ⟨e, he, ?_⟩
      rw [hid]
      exact parseEdgeId_addEdge _ _ (hclean _ hw).1 (hclean _ hw).2

theorem simplePath_congr (edge edge1 : Str → Str → Prop) (h : ∀ a b, edge a b ↔ edge1 a b)
    (start endNode : Str) (p : List Str) :
    SimplePath edge start endNode p ↔ SimplePath edge1 start endNode p := by
  have hrel : edge = edge1 := by
    funext a b
    exact propext (h a b)
  rw [hrel]

/-- In a map built by `addEdge` from names without `->`, the costs of the
entries that a path goes along sum to the cost of the path. -/
theorem sum_cost_follow (calls : List (Str × Str × EdgeWeights)) (hclean : CleanNames calls)
    (userContext : UserContext) :
    ∀ (es : List (Str × EdgeWeights)) (current : Str) (tos : List Str),
      (∀ e ∈ es, e ∈ addEdges calls) → follow current es = some tos →
      (es.map (fun e => calculateWeight e.2 userContext)).sum
        = pathCost (addEdges calls) userContext (current :: tos) := by
  obtain ⟨hnodup, hkey, _⟩ := addEdges_entries calls hclean
  intro es
  induction es with
  | nil =>
    intro current tos _ h
    simp only [follow, Option.some.injEq] at h
    subst h
    rfl
  | cons entry es ih =>
    intro current tos hes h
    have hentry := hes entry (List.mem_cons_self _ _)
    cases hparse : parseEdgeId entry.1 with
    | none => simp [follow, hparse] at h
    | some p =>
      obtain ⟨fromNode, toNode⟩ := p
      simp only [follow, hparse] at h
      by_cases hfrom : fromNode = current
      · rw [if_pos hfrom] at h
        cases hrest : follow toNode es with
        | none => simp [hrest] at h
        | some tos1 =>
          simp only [hrest, Option.map_some', Option.some.injEq] at h
          subst h
          subst hfrom
          obtain ⟨call, _, hid, hpc⟩ := hkey entry hentry
          rw [hparse] at hpc
          simp only [Option.some.injEq, Prod.mk.injEq] at hpc
          have hget : mapGet (addEdges calls) (fromNode ++ arrow ++ toNode) = some entry.2 := by
            apply mapGet_of_mem_nodup _ _ _ hnodup
            rw [hpc.1, hpc.2, ← hid]
            exact hentry
          rw [List.map_cons, List.sum_cons,
            ih toNode tos1 (fun e he => hes e (List.mem_cons_of_mem _ he)) hrest]
          show _ = edgeCost (addEdges calls) userContext fromNode toNode + _
          rw [edgeCost, hget]
      · rw [if_neg hfrom] at h
        simp at h

/-- What holds of `findPath` on a graph whose node names contain no `->`,
for every bound above the number of edges.  Every returned path is a simple
directed path from `start` to `endNode` along edges that were added, and its
weight is the sum of `calculateWeight` over these edges; the list is in
non-decreasing order of weight; every simple directed path from `start` to
`endNode` is returned exactly once; the node sequences are the same, up to
their order, for every user context; and when there is no directed path the
result is the empty list. -/
theorem findPath_of_clean_names (calls : List (Str × Str × EdgeWeights))
    (hclean : CleanNames calls) (start endNode : Str) (userContext : UserContext) (fuel : Nat)
    (hfuel : (addEdges calls).length < fuel) :
    ∃ result, findPath fuel (addEdges calls) start endNode userContext = some result ∧
      (∀ r ∈ result, SimplePath (addedEdge calls) start endNode r.path ∧
        r.weight = pathCost (addEdges calls) userContext r.path) ∧
      result.Sorted (fun x y => x.weight ≤ y.weight) ∧
      (∀ p, SimplePath (addedEdge calls) start endNode p →
        result.countP (fun r => decide (r.path = p)) = 1) ∧
      (∀ userContext1 : UserContext, ∃ result1,
        findPath fuel (addEdges calls) start endNode userContext1 = some result1 ∧
        (result1.map FoundPath.path).Perm (result.map FoundPath.path)) ∧
      ((∀ p, ¬ SimplePath (addedEdge calls) start endNode p) → result = []) := by
  obtain ⟨hset, hedge⟩ := addEdges_edge_set calls hclean
  obtain ⟨results, hres, _, h1, _⟩ :=
    findPath_explore (addEdges calls) start endNode userContext fuel hfuel
  obtain ⟨result, h2, hcount, hperm, hnone⟩ :=
    findPath_exhaustive_reads (addEdges calls) start endNode userContext fuel hfuel hset
  rw [h1] at h2
  simp only [Option.some.injEq] at h2
  subst h2
  refine ⟨_, h1, ?_, ?_, ?_, hperm, ?_⟩
  · intro r hr
    obtain ⟨hsimple, es, hes, hfollow, hweight⟩ :=
      findPath_simplePath (addEdges calls) start endNode userContext fuel results hres r
        ((mem_jsSort _ _ _).mp hr)
    refine ⟨(simplePath_congr _ _ hedge _ _ _).mp hsimple, ?_⟩
    rw [hweight, sum_cost_follow calls hclean userContext es start r.path.tail hes hfollow]
    obtain ⟨hhead, _⟩ := hsimple
    cases hp : r.path with
    | nil => rw [hp] at hhead; simp at hhead
    | cons s tos =>
      rw [hp] at hhead
      simp only [List.head?_cons, Option.some.injEq] at hhead
      rw [hhead]
      rfl
  · have hsorted := jsSort_sorted_of_key compareWeight (fun r => - r.weight) results
      (fun a _ b _ => by simp only [compareWeight]; congr 1; ring)
    exact hsorted.imp (fun h => neg_le_neg_iff.mp h)
  · intro p hp
    exact hcount p ((simplePath_congr _ _ hedge _ _ _).mpr hp)
  · intro hno
    exact hnone (fun p hp => hno p ((simplePath_congr _ _ hedge _ _ _).mp hp))

/-! ## C21 -/

/-- C21, the code at the failing input.  After `addEdge('a->b', 'c', {})` the
graph has one edge, from the node `a->b` to the node `c`, stored under the id
`a->b->c`.  `findPath('a', 'b')` splits the id into `a` and `b` and returns
the path `[a, b]`, of weight 0.6, although no edge from `a` to `b` was
added. -/
theorem C21_path_along_no_edge :
    addEdges arrowNameCalls = [("a->b->c".toList, { })] ∧
    findPath 2 (addEdges arrowNameCalls) "a".toList "b".toList { }
      = some [{ path := ["a".toList, "b".toList], weight := 3 / 5 }] ∧
    ¬ addedEdge arrowNameCalls "a".toList "b".toList := by
  refine ⟨by decide!, by decide!, ?_⟩
  rintro ⟨weights, hmem⟩
  rw [arrowNameCalls, List.mem_singleton, Prod.mk.injEq] at hmem
  exact absurd hmem.1 (by decide)

/-! ## C22 -/

/-- C22, the code at the failing input.  After `addEdge('a->b', 'c', {})` the
list `[a->b, c]` is a simple directed path from `a->b` to `c`, and
`findPath('a->b', 'c')` returns the empty list: it reads the entry as an edge
from `a` to `b` and finds no edge that leaves `a->b`. -/
theorem C22_simple_path_not_found :
    SimplePath (addedEdge arrowNameCalls) "a->b".toList "c".toList
      ["a->b".toList, "c".toList] ∧
    findPath 2 (addEdges arrowNameCalls) "a->b".toList "c".toList { } = some [] := by
  refine ⟨⟨rfl, rfl, ?_, by decide⟩, by decide!⟩
  rw [List.chain'_pair]
  exact ⟨{ }, List.mem_singleton.mpr rfl⟩

/-! ## C23 -/

/-- C23, the code at the failing input.  For the edges `A → B` and `B → C`
only, with the nodes `A = x->y`, `B = b` and `C = c`, the path `[A, B, C]` is
a simple directed path of cost `cost(A→B) + cost(B→C) = 0.3 + 0.6`, and
`findPath(A, C)` returns the empty list: it reads the entry of the first edge
as an edge from `x` to `y`. -/
theorem C23_two_edge_example_fails :
    addEdges arrowChainCalls
      = [("x->y->b".toList, { difficulty := some (1 / 5) }), ("b->c".toList, { })] ∧
    SimplePath (addedEdge arrowChainCalls) "x->y".toList "c".toList
      ["x->y".toList, "b".toList, "c".toList] ∧
    calculateWeight { difficulty := some (1 / 5) } { } + calculateWeight { } { } = 9 / 10 ∧
    findPath 3 (addEdges arrowChainCalls) "x->y".toList "c".toList { } = some [] := by
  refine ⟨by decide!, ⟨rfl, rfl, ?_, by decide⟩, by decide!, by decide!⟩
  rw [List.chain'_cons, List.chain'_pair]
  exact ⟨⟨_, List.mem_cons_self _ _⟩, ⟨_, List.mem_cons_of_mem _ (List.mem_singleton.mpr rfl)⟩⟩

/-! ## C30 -/

/-- C30.  The depth-first exploration of `findPath` terminates on every edge
map, start, end and user context: with a bound on the depth of the recursion
above the number of entries, `findPath` returns a list, the same as with the
bound one more than the number of entries.  Each recursive call marks one more
node that an entry leaves from (`remaining_lt`). -/
theorem C30_search_terminates (edges : EdgeMap) (start endNode : Str)
    (userContext : UserContext) (fuel : Nat) (hfuel : edges.length < fuel) :
    ∃ result, findPath fuel edges start endNode userContext = some result ∧
      findPath (edges.length + 1) edges start endNode userContext = some result := by
  obtain ⟨results, _, _, h1, h2⟩ := findPath_explore edges start endNode userContext fuel hfuel
  exact ⟨_, h1, h2⟩

/-- C30 on a graph with a directed cycle and a self-loop. -/
theorem C30_search_terminates_witness :
    ∃ result, findPath 9 cyclicEdges "a".toList "c".toList {} = some result ∧
      findPath (cyclicEdges.length + 1) cyclicEdges "a".toList "c".toList {} = some result :=
  C30_search_terminates cyclicEdges "a".toList "c".toList {} 9 (by decide)

/-! ## Lemmas on the pathfinding engine -/

theorem filter_mapSet_of_mem {β : Type} (keys : List Str) (m : List (Str × β)) (k : Str) (v : β)
    (hk : k ∈ keys) :
    (mapSet m k v).filter (fun e => decide (e.1 ∉ keys))
      = m.filter (fun e => decide (e.1 ∉ keys)) := by
  induction m with
  | nil =>
    rw [mapSet, List.filter_cons_of_neg (by simpa using hk)]
  | cons e rest ih =>
    obtain ⟨k0, v0⟩ := e
    by_cases h0 : k0 = k
    · subst h0
      rw [mapSet, if_pos rfl, List.filter_cons_of_neg (by simpa using hk),
        List.filter_cons_of_neg (by simpa using hk)]
    · rw [mapSet, if_neg h0]
      by_cases hk0 : k0 ∈ keys
      · rw [List.filter_cons_of_neg (by simpa using hk0),
          List.filter_cons_of_neg (by simpa using hk0), ih]
      · rw [List.filter_cons_of_pos (by simpa using hk0),
          List.filter_cons_of_pos (by simpa using hk0), ih]

/-- The object literal of `personalizeForUser` keeps every property of the
path other than the three it writes, and keeps `steps`. -/
theorem personalizedPath_keeps (path : PathObject) (userOptimizations : List Optimization)
    (riskAssessment motivationFactors : FieldValue) :
    mapGet (personalizedPath path userOptimizations riskAssessment motivationFactors)
        "steps".toList = mapGet path "steps".toList ∧
    (personalizedPath path userOptimizations riskAssessment motivationFactors).filter
        (fun e => decide (e.1 ∉ annotationKeys))
      = path.filter (fun e => decide (e.1 ∉ annotationKeys)) := by
  unfold personalizedPath
  constructor
  · rw [mapGet_mapSet_ne _ _ _ _ (by decide), mapGet_mapSet_ne _ _ _ _ (by decide),
      mapGet_mapSet_ne _ _ _ _ (by decide)]
  · rw [filter_mapSet_of_mem _ _ _ _ (by decide), filter_mapSet_of_mem _ _ _ _ (by decide),
      filter_mapSet_of_mem _ _ _ _ (by decide)]

theorem personalizeLoop_spec (helpers : EngineHelpers) (userContext : UserContext) :
    ∀ (rest : List (Str × PathObject)) (acc result : PathSet),
      personalizeLoop helpers userContext rest acc = .ok result →
      (acc.map Prod.fst ++ rest.map Prod.fst).Nodup →
      "__proto__".toList ∉ rest.map Prod.fst →
      ∃ added : PathSet, result = acc ++ added ∧ added.map Prod.fst = rest.map Prod.fst ∧
        ∀ e ∈ rest, ∃ userOptimizations riskAssessment motivationFactors,
          (e.1, personalizedPath e.2 userOptimizations riskAssessment motivationFactors)
            ∈ added := by
  intro rest
  induction rest with
  | nil =>
    intro acc result h _ _
    simp only [personalizeLoop, Except.ok.injEq] at h
    subst h
    exact ⟨[], by simp, rfl, by simp⟩
  | cons e rest ih =>
    obtain ⟨pathType, path⟩ := e
    intro acc result h hnodup hproto
    have hne : ¬ pathType = "__proto__".toList := by
      intro heq
      apply hproto
      rw [List.map_cons, ← heq]
      exact List.mem_cons_self _ _
    have hrest : "__proto__".toList ∉ rest.map Prod.fst := by
      intro hmem
      apply hproto
      rw [List.map_cons]
      exact List.mem_cons_of_mem _ hmem
    unfold personalizeLoop at h
    cases h1 : calculateUserOptimizations helpers path userContext with
    | error e1 => simp [h1] at h
    | ok userOptimizations =>
      cases h2 : helpers.assessRisksForUser path userContext with
      | error e2 => simp [h1, h2] at h
      | ok riskAssessment =>
        cases h3 : helpers.identifyMotivationFactors path userContext with
        | error e3 => simp [h1, h2, h3] at h
        | ok motivationFactors =>
          simp only [h1, h2, h3] at h
          have hfree : mapGet acc pathType = none := by
            apply mapGet_none_of_no_key
            intro e0 he0 hk
            rw [List.map_cons, List.nodup_append] at hnodup
            exact hnodup.2.2 (List.mem_map_of_mem Prod.fst he0)
              (hk ▸ List.mem_cons_self _ _)
          rw [assignProperty, if_neg hne, mapSet_of_free _ _ _ hfree] at h
          have hnodup1 : ((acc ++ [(pathType,
              personalizedPath path userOptimizations riskAssessment motivationFactors)]).map
                Prod.fst ++ rest.map Prod.fst).Nodup := by
            rw [List.map_append, List.append_assoc]
            exact hnodup
          obtain ⟨added, hresult, hkeys, hmem⟩ := ih _ _ h hnodup1 hrest
          refine ⟨(pathType, personalizedPath path userOptimizations riskAssessment
            motivationFactors) :: added, ?_, ?_, ?_⟩
          · rw [hresult, List.append_assoc]
            rfl
          · rw [List.map_cons, List.map_cons, hkeys]
          · intro e0 he0
            rcases List.mem_cons.mp he0 with rfl | he0
            · exact ⟨_, _, _, List.mem_cons_self _ _⟩
            · obtain ⟨a, b, c, habc⟩ := hmem e0 he0
              exact ⟨a, b, c, List.mem_cons_of_mem _ habc⟩

/-- With the helper methods as they are in `src/`, `calculateUserOptimizations`
returns for a path without steps only, and `personalizeForUser` returns for the
empty path set only: for any other path set the call of `assessRisksForUser`,
or before it the call of `extractRequiredSkills` or the loop over `steps`,
throws a `TypeError`. -/
theorem personalizeForUser_undefinedHelpers (paths : PathSet) (userContext : UserContext) :
    (paths = [] → personalizeForUser undefinedHelpers paths userContext = .ok []) ∧
    (paths ≠ [] → personalizeForUser undefinedHelpers paths userContext = .error .typeError) := by
  constructor
  · intro h
    subst h
    rfl
  · intro h
    cases paths with
    | nil => exact absurd rfl h
    | cons e rest =>
      obtain ⟨pathType, path⟩ := e
      unfold personalizeForUser personalizeLoop
      cases h1 : calculateUserOptimizations undefinedHelpers path userContext with
      | error e1 =>
        have he1 : e1 = .typeError := by
          unfold calculateUserOptimizations at h1
          split at h1
          · next l _ =>
            cases l with
            | nil => simp [optimizationsLoop] at h1
            | cons step more =>
              simp only [optimizationsLoop, undefinedHelpers, Except.error.injEq] at h1
              exact h1.symm
          · simp only [Except.error.injEq] at h1
            exact h1.symm
        rw [he1]
      | ok userOptimizations => rfl

/-- With the helper methods as they are in `src/`, the `try` block of
`findOptimalPaths` throws: `findIntermediateNodes` throws, or else the call of
`generateFastestPath` does. -/
theorem evaluatedPaths_undefinedHelpers (toLowerCase : Str → Str) (engine : Engine)
    (startGoal endGoal : Str) :
    ∃ e, evaluatedPaths undefinedHelpers toLowerCase engine startGoal endGoal = .error e := by
  have hgen : ∃ e, generateStrategicPaths undefinedHelpers toLowerCase engine startGoal endGoal
      = .error e := by
    unfold generateStrategicPaths
    dsimp only
    split
    · exact ⟨_, rfl⟩
    · exact ⟨.typeError, rfl⟩
  obtain ⟨e, he⟩ := hgen
  exact ⟨e, by unfold evaluatedPaths; rw [he]⟩

/-- With the helper methods as they are in `src/` and an empty cache,
`findOptimalPaths` returns the fallback paths and leaves the engine as it
was. -/
theorem findOptimalPaths_fresh_cache (toLowerCase : Str → Str) (engine : Engine)
    (startGoal endGoal : Str) (options : EngineOptions) (hcache : engine.pathCache = []) :
    findOptimalPaths undefinedHelpers toLowerCase engine startGoal endGoal options
      = (.ok (generateFallbackPaths startGoal endGoal), engine) := by
  obtain ⟨e, he⟩ := evaluatedPaths_undefinedHelpers toLowerCase engine startGoal endGoal
  unfold findOptimalPaths
  rw [hcache, he]
  rfl

/-- The cache of an engine that calls reach from the constructor, with the
helper methods as they are in `src/`, is empty: the one write of the cache,
`this.pathCache.set`, stands behind the calls of `generateFastestPath` and
`evaluatePaths`. -/
theorem engineReachable_cache (toLowerCase : Str → Str) (engine : Engine)
    (hreach : EngineReachable undefinedHelpers toLowerCase engine) : engine.pathCache = [] := by
  obtain ⟨reg, calls, rfl⟩ := hreach
  have hgen : ∀ (calls : List EngineCall) (start : Engine), start.pathCache = [] →
      (engineRun undefinedHelpers toLowerCase start calls).pathCache = [] := by
    intro calls
    induction calls with
    | nil => intro start h; exact h
    | cons call calls ih =>
      intro start h
      show (engineRun undefinedHelpers toLowerCase
        (engineStep undefinedHelpers toLowerCase start call) calls).pathCache = []
      apply ih
      cases call with
      | findOptimalPaths startGoal endGoal options =>
        show (findOptimalPaths undefinedHelpers toLowerCase start startGoal endGoal
          options).2.pathCache = []
        rw [findOptimalPaths_fresh_cache _ _ _ _ _ h]
        exact h
      | semanticSystem reg1 => exact h
  exact hgen calls (newEngine reg) rfl

/-- On a cache hit without `forceRefresh`, `findOptimalPaths` settles to what
`personalizeForUser` settles to on the cached paths, an error included. -/
theorem findOptimalPaths_hit (helpers : EngineHelpers) (toLowerCase : Str → Str)
    (engine : Engine) (startGoal endGoal : Str) (cached : PathSet)
    (hhit : mapGet engine.pathCache (cacheKey startGoal endGoal) = some cached) :
    findOptimalPaths helpers toLowerCase engine startGoal endGoal { forceRefresh := false }
      = (personalizeForUser helpers cached engine.userContext, engine) := by
  unfold findOptimalPaths
  rw [hhit]

/-- On a cache miss or with `forceRefresh`, `findOptimalPaths` raises no
error: it returns the evaluated paths, or the fallback paths when a stage of
the `try` block fails. -/
theorem findOptimalPaths_miss (helpers : EngineHelpers) (toLowerCase : Str → Str)
    (engine : Engine) (startGoal endGoal : Str) (options : EngineOptions)
    (hmiss : mapGet engine.pathCache (cacheKey startGoal endGoal) = none ∨
      options.forceRefresh = true) :
    (∀ evaluated, evaluatedPaths helpers toLowerCase engine startGoal endGoal = .ok evaluated →
      (findOptimalPaths helpers toLowerCase engine startGoal endGoal options).1
        = .ok evaluated) ∧
    (∀ e, evaluatedPaths helpers toLowerCase engine startGoal endGoal = .error e →
      (findOptimalPaths helpers toLowerCase engine startGoal endGoal options).1
        = .ok (generateFallbackPaths startGoal endGoal)) := by
  have hbody : findOptimalPaths helpers toLowerCase engine startGoal endGoal options
      = match evaluatedPaths helpers toLowerCase engine startGoal endGoal with
        | .ok evaluated =>
          (.ok evaluated,
            { engine with
              pathCache := mapSet engine.pathCache (cacheKey startGoal endGoal) evaluated })
        | .error _ => (.ok (generateFallbackPaths startGoal endGoal), engine) := by
    unfold findOptimalPaths
    rcases hmiss with h | h
    · rw [h]
    · rw [h]
      cases mapGet engine.pathCache (cacheKey startGoal endGoal) <;> rfl
  constructor
  · intro evaluated hev
    rw [hbody, hev]
  · intro e hev
    rw [hbody, hev]

/-- The cache key determines the pair when the start goals contain no `->`. -/
theorem cacheKey_injective_of_clean (start1 goal1 start2 goal2 : Str)
    (h1 : cutArrow start1 = none) (h2 : cutArrow start2 = none)
    (hkey : cacheKey start1 goal1 = cacheKey start2 goal2) :
    start1 = start2 ∧ goal1 = goal2 := by
  have e1 := cutArrow_append start1 goal1 h1
  have e2 := cutArrow_append start2 goal2 h2
  unfold cacheKey at hkey
  rw [hkey, e2] at e1
  simp only [Option.some.injEq, Prod.mk.injEq] at e1
  exact ⟨e1.1.symm, e1.2.symm⟩

/-! ## C25 -/

/-- C25.  Whenever `personalizeForUser` returns, for a path set whose path
types are pairwise distinct and none of them `__proto__`, the result has
exactly the path-type keys of the input, in the same order, and for each path
the personalized path has the same `steps` and the same properties other than
`userOptimizations`, `riskAssessment` and `motivationFactors`.  This holds for
every implementation of the helper methods. -/
theorem C25_personalization_annotates (helpers : EngineHelpers) (paths : PathSet)
    (userContext : UserContext) (result : PathSet) (hkeys : (paths.map Prod.fst).Nodup)
    (hproto : "__proto__".toList ∉ paths.map Prod.fst)
    (hres : personalizeForUser helpers paths userContext = .ok result) :
    result.map Prod.fst = paths.map Prod.fst ∧
    ∀ pathType path, (pathType, path) ∈ paths →
      ∃ personalized, mapGet result pathType = some personalized ∧
        mapGet personalized "steps".toList = mapGet path "steps".toList ∧
        personalized.filter (fun e => decide (e.1 ∉ annotationKeys))
          = path.filter (fun e => decide (e.1 ∉ annotationKeys)) := by
  obtain ⟨added, hresult, hadded, hmem⟩ :=
    personalizeLoop_spec helpers userContext paths [] result hres (by simpa using hkeys) hproto
  rw [List.nil_append] at hresult
  subst hresult
  refine ⟨hadded, ?_⟩
  intro pathType path hp
  obtain ⟨userOptimizations, riskAssessment, motivationFactors, h⟩ := hmem (pathType, path) hp
  refine ⟨_, mapGet_of_mem_nodup _ _ _ (hadded ▸ hkeys) h, ?_⟩
  exact personalizedPath_keeps path userOptimizations riskAssessment motivationFactors

/-- C25 on the code as it is in `src/`, where `personalizeForUser` returns for
the empty path set only (`personalizeForUser_undefinedHelpers`). -/
theorem C25_personalization_annotates_witness :
    ([] : PathSet).map Prod.fst = ([] : PathSet).map Prod.fst ∧
    ∀ pathType path, (pathType, path) ∈ ([] : PathSet) →
      ∃ personalized, mapGet ([] : PathSet) pathType = some personalized ∧
        mapGet personalized "steps".toList = mapGet path "steps".toList ∧
        personalized.filter (fun e => decide (e.1 ∉ annotationKeys))
          = path.filter (fun e => decide (e.1 ∉ annotationKeys)) :=
  C25_personalization_annotates undefinedHelpers [] { } [] List.nodup_nil
    (List.not_mem_nil _) rfl

/-! ## C26 -/

/-- C26.  With the helper methods as they are in `src/`, on every state of
the engine that calls reach from the constructor, `findOptimalPaths` raises no
error for any start, goal and options: a stage of the `try` block fails, the
`catch` handles it, and the call returns `generateFallbackPaths(start, goal)`
and leaves the engine as it was. -/
theorem C26_graceful_degradation (toLowerCase : Str → Str) (engine : Engine)
    (startGoal endGoal : Str) (options : EngineOptions)
    (hreach : EngineReachable undefinedHelpers toLowerCase engine) :
    findOptimalPaths undefinedHelpers toLowerCase engine startGoal endGoal options
      = (.ok (generateFallbackPaths startGoal endGoal), engine) :=
  findOptimalPaths_fresh_cache toLowerCase engine startGoal endGoal options
    (engineReachable_cache toLowerCase engine hreach)

/-- C26 on the engine after a first query, over the registry of the two
ingested notes, for a second query with `forceRefresh`. -/
theorem C26_graceful_degradation_witness :
    findOptimalPaths undefinedHelpers toLowerCaseAscii
        (engineRun undefinedHelpers toLowerCaseAscii (newEngine ingestedRegistry)
          [.findOptimalPaths "apple pie".toList "pie crust".toList { }])
        "apple pie".toList "pie crust".toList { forceRefresh := true }
      = (.ok (generateFallbackPaths "apple pie".toList "pie crust".toList),
         engineRun undefinedHelpers toLowerCaseAscii (newEngine ingestedRegistry)
          [.findOptimalPaths "apple pie".toList "pie crust".toList { }]) :=
  C26_graceful_degradation toLowerCaseAscii _ "apple pie".toList "pie crust".toList
    { forceRefresh := true } ⟨ingestedRegistry, _, rfl⟩

/-! ## C27 -/

/-- C27, the code at the failing input.  The pairs `(a->b, c)` and
`(a, b->c)` differ and have the same cache key `a->b->c`; a query for
`(a, b->c)` on `collidingEngine`, whose cache holds an entry stored for
`(a->b, c)`, is served that entry. -/
theorem C27_cache_key_collision :
    cacheKey "a->b".toList "c".toList = cacheKey "a".toList "b->c".toList ∧
    ("a->b".toList, "c".toList) ≠ ("a".toList, "b->c".toList) ∧
    (findOptimalPaths sampleHelpers toLowerCaseAscii collidingEngine "a".toList "b->c".toList
      { }).1
      = .ok [("fastest".toList,
              [("route".toList, .other "for a->b to c".toList),
               ("steps".toList, .steps []),
               ("userOptimizations".toList, .optimizations []),
               ("riskAssessment".toList, .other "low".toList),
               ("motivationFactors".toList, .other "curiosity".toList)])] := by
  refine ⟨by decide, by decide, by decide!⟩

end Sem
